import Mathlib

/-!
# Miller-Rabin on 512-bit integers (`MR.c`)

A shallow embedding of the fixed-width big-integer engine of `MR.c` and of the
Miller-Rabin test built on it.

* A `Big512` is the array `uint64_t v[LIMBS]`, little-endian by limb.  Limbs are
  natural numbers; every machine operation carries its explicit reduction
  modulo `2^64` or `2^128`.  `Big512.WF` says that a value really is a C
  `Big512`: eight limbs, each below `2^64`.
* `for` loops with a fixed trip count are structural recursions on the number
  of iterations performed so far (ascending loops) or still to do (descending
  loops).
* `while` loops take a `fuel` argument, the number of times the loop condition
  may be evaluated; running out of fuel gives `none`.
* `rand()` is a stream `rand : Nat → Nat` of the values returned by successive
  calls, together with the index `pos` of the next call.

The file also embeds the 64-bit `modexp` and `is_prime` of the RSA demos
(`RSA.c`, `RSAmtext.c`, namespace `RSA`), the AES-128 implementation of
`AESass.c` (namespace `AES`) and the AVL tree of `avltree.c` (namespace `AVL`).
The `while` loops of `AESass.c` are total functions by well-founded recursion
and the loop of `_find_min` is a recursion on the tree; every other `while`
loop takes fuel.
-/

set_option exponentiation.threshold 2000
set_option maxRecDepth 100000

namespace MR

/-- `#define LIMBS 8`. -/
abbrev LIMBS : Nat := 8

/-- `typedef struct { uint64_t v[LIMBS]; } Big512;` -/
structure Big512 where
  v : List Nat
deriving DecidableEq, Repr

namespace Big512

/-- Read access `x->v[i]`. -/
def limb (x : Big512) (i : Nat) : Nat := x.v.getD i 0

/-- Write access `x->v[i] = w`. -/
def set (x : Big512) (i : Nat) (w : Nat) : Big512 := ⟨x.v.set i w⟩

/-- A well-formed `Big512`: exactly `LIMBS` limbs, each a `uint64_t`. -/
def WF (x : Big512) : Prop := x.v.length = LIMBS ∧ ∀ w ∈ x.v, w < 2 ^ 64

instance (x : Big512) : Decidable x.WF := by
  unfold WF; infer_instance

end Big512

/-- Value of the first `k` limbs of a limb array: the sum of
`f i * 2^(64*i)` for `i < k`. -/
def limbsVal (f : Nat → Nat) : Nat → Nat
  | 0 => 0
  | k + 1 => limbsVal f k + f k * 2 ^ (64 * k)

/-- The number represented by a `Big512`: the sum of `x.v[i] * 2^(64*i)`. -/
def Big512.val (x : Big512) : Nat := limbsVal x.limb LIMBS

/-- The `Big512` whose limbs are the base-`2^64` digits of `n`. -/
def Big512.ofNat (n : Nat) : Big512 :=
  ⟨(List.range LIMBS).map (fun i => n / 2 ^ (64 * i) % 2 ^ 64)⟩

/-- `big_zero`: all limbs set to 0. -/
def big_zero : Big512 := ⟨List.replicate LIMBS 0⟩

/-- The value 1 as built in `MR.c`: `big_zero(&one); one.v[0] = 1;`. -/
def big_one : Big512 := big_zero.set 0 1

/-- The loop of `big_cmp`, with `k` limbs (indices `k-1` down to `0`) still to
compare. -/
def big_cmp_loop (a b : Big512) : Nat → Int
  | 0 => 0
  | i + 1 =>
    if a.limb i < b.limb i then -1
    else if a.limb i > b.limb i then 1
    else big_cmp_loop a b i

/-- `big_cmp`: compare from the most significant limb down; returns -1, 0, 1. -/
def big_cmp (a b : Big512) : Int := big_cmp_loop a b LIMBS

/-- `big_copy`: value copy. -/
def big_copy (src : Big512) : Big512 := src

/-- `big_even`: `!(a->v[0] & 1ULL)`. -/
def big_even (a : Big512) : Bool := (a.limb 0 &&& 1) == 0

/-- State `(res, carry)` of the loop of `big_sub` after `k` iterations.
`tmp` is the `unsigned __int128` difference, computed modulo `2^128`. -/
def big_sub_loop (res a b : Big512) : Nat → Big512 × Nat
  | 0 => (res, 0)
  | i + 1 =>
    match big_sub_loop res a b i with
    | (res1, carry) =>
      let tmp := ((a.limb i + 2 ^ 128 - b.limb i % 2 ^ 128) % 2 ^ 128
                    + 2 ^ 128 - carry % 2 ^ 128) % 2 ^ 128
      (res1.set i (tmp % 2 ^ 64), (tmp / 2 ^ 64) % 2)

/-- `big_sub(res, a, b)`.  All eight limbs of `res` are overwritten; at every
call site of `MR.c` the destination holds the value of `a` on entry. -/
def big_sub (a b : Big512) : Big512 := (big_sub_loop a a b LIMBS).1

/-- The loop of `big_rshift1` with `k` limbs (indices `k-1` down to `0`) still
to shift and the bit `carry` coming from the limb above. -/
def big_rshift1_loop : Nat → Big512 → Nat → Big512
  | 0, x, _ => x
  | i + 1, x, carry =>
    let newcarry := x.limb i &&& 1
    big_rshift1_loop i (x.set i ((x.limb i / 2) ||| (carry * 2 ^ 63 % 2 ^ 64))) newcarry

/-- `big_rshift1`: right shift by one bit. -/
def big_rshift1 (x : Big512) : Big512 := big_rshift1_loop LIMBS x 0

/-- One limb of `big_rand`, drawn from three successive `rand()` calls
(evaluated left to right): `r = ((uint64_t)rand() << 32) ^ rand();
r = (r << 32) ^ rand();`. -/
def big_rand_limb (rand : Nat → Nat) (pos : Nat) : Nat :=
  let r := ((rand pos % 2 ^ 64) * 2 ^ 32 % 2 ^ 64) ^^^ (rand (pos + 1) % 2 ^ 64)
  (r * 2 ^ 32 % 2 ^ 64) ^^^ (rand (pos + 2) % 2 ^ 64)

/-- The filling loop of `big_rand` after `k` iterations. -/
def big_rand_loop (rand : Nat → Nat) (pos : Nat) (x : Big512) : Nat → Big512
  | 0 => x
  | i + 1 => (big_rand_loop rand pos x i).set i (big_rand_limb rand (pos + 3 * i))

/-- `big_rand`: fill every limb from `rand()`, force the top bit and the low
bit.  The destination is an uninitialised local in `MR.c`; every limb is
overwritten, so the model starts from `big_zero`.  Returns the value and the
index of the next `rand()` call. -/
def big_rand (rand : Nat → Nat) (pos : Nat) : Big512 × Nat :=
  let x1 := big_rand_loop rand pos big_zero LIMBS
  let x2 := x1.set (LIMBS - 1) (x1.limb (LIMBS - 1) ||| 2 ^ 63)
  let x3 := x2.set 0 (x2.limb 0 ||| 1)
  (x3, pos + 3 * LIMBS)

/-- Inner multiplication loop of `big_mulmod` for row `i`: state
`(tmp, carry)` after `j` iterations.  `t` is a `__uint128_t`. -/
def mul_inner (a b : Big512) (i : Nat) (tmp : List Nat) : Nat → List Nat × Nat
  | 0 => (tmp, 0)
  | j + 1 =>
    match mul_inner a b i tmp j with
    | (tmp1, carry) =>
      let t := (tmp1.getD (i + j) 0 + (a.limb i * b.limb j) % 2 ^ 128 + carry) % 2 ^ 128
      (tmp1.set (i + j) (t % 2 ^ 64), t / 2 ^ 64)

/-- Outer multiplication loop of `big_mulmod`: the buffer `tmp[2*LIMBS]` after
`i` rows. -/
def mul_outer (a b : Big512) : Nat → List Nat
  | 0 => List.replicate (2 * LIMBS) 0
  | i + 1 =>
    match mul_inner a b i (mul_outer a b i) LIMBS with
    | (tmp1, carry) => tmp1.set (i + LIMBS) ((tmp1.getD (i + LIMBS) 0 + carry) % 2 ^ 128)

/-- The reduction loop of `big_mulmod`:
`while (big_cmp(&r, mod) >= 0) big_sub(&r, &r, mod);`. -/
def reduce_loop (mod : Big512) : Nat → Big512 → Option Big512
  | 0, _ => none
  | fuel + 1, r =>
    if big_cmp r mod ≥ 0 then reduce_loop mod fuel (big_sub r mod) else some r

/-- The reduction loop of `big_mulmod` with a counter: the number of calls of
`big_sub` that `while (big_cmp(&r, mod) >= 0) big_sub(&r, &r, mod);` makes
when started at `r`. -/
def reduce_count (mod : Big512) : Nat → Big512 → Option Nat
  | 0, _ => none
  | fuel + 1, r =>
    if big_cmp r mod ≥ 0 then (reduce_count mod fuel (big_sub r mod)).map (fun c => c + 1)
    else some 0

/-- The value `r` that `big_mulmod` hands to its reduction loop: the low
`LIMBS` entries of `tmp`, each cast to `uint64_t`. -/
def mul_low (a b : Big512) : Big512 :=
  ⟨(List.range LIMBS).map (fun i => (mul_outer a b LIMBS).getD i 0 % 2 ^ 64)⟩

/-- `big_mulmod(res, a, b, mod)`. -/
def big_mulmod (fuel : Nat) (a b mod : Big512) : Option Big512 :=
  (reduce_loop mod fuel (mul_low a b)).map big_copy

/-- The loop of `big_powmod`: state `(result, b)` after `i` iterations. -/
def big_powmod_loop (fuel : Nat) (base e mod : Big512) : Nat → Option (Big512 × Big512)
  | 0 => some (big_one, big_copy base)
  | i + 1 =>
    match big_powmod_loop fuel base e mod i with
    | none => none
    | some (result, b) =>
      match (if e.limb (i / 64) &&& 2 ^ (i % 64) ≠ 0 then big_mulmod fuel result b mod
             else some result) with
      | none => none
      | some result1 =>
        match big_mulmod fuel b b mod with
        | none => none
        | some b1 => some (result1, b1)

/-- `big_powmod(res, base, exp, mod)`. -/
def big_powmod (fuel : Nat) (base exp mod : Big512) : Option Big512 :=
  (big_powmod_loop fuel base (big_copy exp) mod (LIMBS * 64)).map (fun st => big_copy st.1)

/-- The decomposition loop of `miller_rabin`:
`while (big_even(&d)) { big_rshift1(&d); s++; }`. -/
def decompose_loop : Nat → Big512 → Nat → Option (Big512 × Nat)
  | 0, _, _ => none
  | fuel + 1, d, s =>
    if big_even d then decompose_loop fuel (big_rshift1 d) (s + 1) else some (d, s)

/-- The witness of one round of `miller_rabin`:
`big_rand(&a); if (big_cmp(&a, &n_minus1) >= 0) big_sub(&a, &a, &n_minus1);`.
Returns the base and the index of the next `rand()` call. -/
def draw_witness (n_minus1 : Big512) (rand : Nat → Nat) (pos : Nat) : Big512 × Nat :=
  match big_rand rand pos with
  | (a, pos1) => (if big_cmp a n_minus1 ≥ 0 then big_sub a n_minus1 else a, pos1)

/-- The squaring loop of one round, `for (r = 1; r < s; r++)`, with `k`
iterations still to do; returns the flag `cont`. -/
def squaring_loop (fuel : Nat) (n n_minus1 : Big512) : Nat → Big512 → Option Int
  | 0, _ => some 0
  | k + 1, x =>
    match big_mulmod fuel x x n with
    | none => none
    | some x1 =>
      if big_cmp x1 n_minus1 = 0 then some 1
      else squaring_loop fuel n n_minus1 k x1

/-- The round loop of `miller_rabin` with `k` rounds still to run; returns the
verdict and the index of the next `rand()` call. -/
def rounds_loop (fuel : Nat) (n n_minus1 d one : Big512) (s : Nat) (rand : Nat → Nat) :
    Nat → Nat → Option (Int × Nat)
  | 0, pos => some (1, pos)
  | k + 1, pos =>
    match draw_witness n_minus1 rand pos with
    | (a, pos1) =>
      match big_powmod fuel a d n with
      | none => none
      | some x =>
        if big_cmp x one = 0 ∨ big_cmp x n_minus1 = 0 then
          rounds_loop fuel n n_minus1 d one s rand k pos1
        else
          match squaring_loop fuel n n_minus1 (s - 1) x with
          | none => none
          | some cont =>
            if cont = 0 then some (0, pos1)
            else rounds_loop fuel n n_minus1 d one s rand k pos1

/-- The decomposition `n - 1 = d * 2^s` of `miller_rabin`: `n_minus1 = n - 1`,
`d = n_minus1`, then the halving loop from `s = 0`.  Returns `(d, s)`. -/
def decompose (fuel : Nat) (n : Big512) : Option (Big512 × Nat) :=
  decompose_loop fuel (big_copy (big_sub (big_copy n) big_one)) 0

/-- `miller_rabin(n, rounds)`: returns the verdict (1 probably prime,
0 composite) and the index of the next `rand()` call, or `none` when a
`while` loop does not finish within `fuel` evaluations of its condition. -/
def miller_rabin (fuel : Nat) (n : Big512) (rounds : Int) (rand : Nat → Nat) (pos : Nat) :
    Option (Int × Nat) :=
  if n.limb 0 % 2 = 0 then some (0, pos)
  else
    match decompose fuel n with
    | none => none
    | some (d, s) =>
      rounds_loop fuel n (big_sub (big_copy n) big_one) d big_one s rand rounds.toNat pos

/-! ## Numeric mirrors of the modular engine

The same computations on the represented numbers.  They are proved below to
agree with the limb-level code and serve to evaluate it on concrete inputs. -/

/-- What `big_mulmod` computes on numbers: the product truncated to its low
512 bits (the low `LIMBS` entries of `tmp`), reduced modulo `m`. -/
def mulmodN (a b m : Nat) : Nat := (a * b % 2 ^ 512) % m

/-- The numbers held by `(result, b)` after `i` iterations of the loop of
`big_powmod`. -/
def powmodN_loop (base e m : Nat) : Nat → Nat × Nat
  | 0 => (1, base)
  | i + 1 =>
    match powmodN_loop base e m i with
    | (result, b) => (if e.testBit i then mulmodN result b m else result, mulmodN b b m)

/-- What `big_powmod` computes on numbers. -/
def powmodN (base e m : Nat) : Nat := (powmodN_loop base e m (LIMBS * 64)).1

/-! ## The rounds of `miller_rabin`, in the words of the specification -/

/-- The base that round `i` (counted from 0) of `miller_rabin(n, ...)` hands to
`big_powmod` when the run starts at `rand()` call `pos`: every round draws
`3 * LIMBS` values. -/
def round_base (n : Big512) (rand : Nat → Nat) (pos i : Nat) : Big512 :=
  (draw_witness (big_sub (big_copy n) big_one) rand (pos + 3 * LIMBS * i)).1

/-- The squaring chain of a round: `x_0 = x0` and
`x_r = big_mulmod(x_{r-1}, x_{r-1}, n)`. -/
def square_chain (fuel : Nat) (n x0 : Big512) : Nat → Option Big512
  | 0 => some x0
  | r + 1 =>
    match square_chain fuel n x0 r with
    | none => none
    | some x => big_mulmod fuel x x n

/-- The round with base `a` passes: `x0 = big_powmod(a, d, n)` equals 1 or
`n - 1`, or one of `x_1 .. x_{s-1}` equals `n - 1`. -/
def round_passes (fuel : Nat) (n d : Big512) (s : Nat) (a : Big512) : Prop :=
  ∃ x0, big_powmod fuel a d n = some x0 ∧
    (x0.val = 1 ∨ x0.val = n.val - 1 ∨
      ∃ r, 1 ≤ r ∧ r ≤ s - 1 ∧ ∃ xr, square_chain fuel n x0 r = some xr ∧ xr.val = n.val - 1)

/-! ## Exact modular exponentiation on numbers

Used only to certify the primality of a 512-bit candidate. -/

/-- Square-and-multiply on numbers without truncation: the pair
`(base^(e mod 2^i) mod m, base^(2^i) mod m)` after `i` steps. -/
def modpow_loop (base e m : Nat) : Nat → Nat × Nat
  | 0 => (1 % m, base % m)
  | i + 1 =>
    match modpow_loop base e m i with
    | (r, b) => (if e.testBit i then r * b % m else r, b * b % m)

/-- The number `base^e mod m` for `e < 2^512`. -/
def modpow (base e m : Nat) : Nat := (modpow_loop base e m 512).1

/-- A 512-bit prime of Proth form, `2401 * 2^500 + 1` with `2401 = 7^4`. -/
def proth512 : Nat := 2401 * 2 ^ 500 + 1

/-! ## Reference definitions of the specification for the modular engine -/

/-- The numbers of the squaring chain of a round: `x_0 = x` and
`x_{r+1} = mulmodN x_r x_r m`. -/
def chainN (m x : Nat) : Nat → Nat
  | 0 => x
  | r + 1 =>
    match chainN m x r with
    | y => mulmodN y y m

/-- The slow reference of the specification for `powmod`: repeated
multiplication with a reduction after every step, `ref(0) = 1` and
`ref(e+1) = (ref(e) * base) mod m`. -/
def powmod_ref (base m : Nat) : Nat → Nat
  | 0 => 1
  | e + 1 => (powmod_ref base m e * base) % m

/-! ## The external form of a `Big512` -/

/-- One `printf("%016llx", w)`: the 16 lowercase hex digits of a 64-bit
word, most significant first. -/
def hex16 (w : Nat) : List Char :=
  (List.range 16).map (fun k => Nat.digitChar (w % 2 ^ 64 / 16 ^ (15 - k) % 16))

/-- The loop of `big_print` with `k` limbs (indices `k-1` down to `0`) still to
print. -/
def big_print_loop (x : Big512) : Nat → List Char
  | 0 => []
  | i + 1 => hex16 (x.limb i) ++ big_print_loop x i

/-- `big_print`: the characters written to the standard output, the limbs from
the most significant down and a newline. -/
def big_print (x : Big512) : List Char := big_print_loop x LIMBS ++ [Char.ofNat 10]

/-- The eight bytes of a 64-bit word, most significant first. -/
def bytes8 (w : Nat) : List Nat :=
  (List.range 8).map (fun m => w / 256 ^ (7 - m) % 256)

/-- The 64-bit word with the given bytes, most significant first. -/
def word_of_bytes (l : List Nat) : Nat := l.foldl (fun acc b => acc * 256 + b) 0

/-- The bytes of the limbs `k-1` down to `0`, most significant first. -/
def to_bytes_loop (x : Big512) : Nat → List Nat
  | 0 => []
  | i + 1 => bytes8 (x.limb i) ++ to_bytes_loop x i

/-- Modelled from the spec: the byte encoder of the external form, absent from
the source (`MR.c` only prints a value with `big_print`).  The canonical
external form is the fixed-length byte string of `LIMBS * 8 = 64` bytes in
big-endian order. -/
def Big512.to_bytes (x : Big512) : List Nat := to_bytes_loop x LIMBS

/-- Modelled from the spec: the decoder of the external form, absent from the
source.  Limb `i` is the big-endian word of the bytes `8*(7-i) .. 8*(7-i)+7`. -/
def Big512.of_bytes (bs : List Nat) : Big512 :=
  ⟨(List.range LIMBS).map (fun i => word_of_bytes ((bs.drop (8 * (7 - i))).take 8))⟩

/-- The two hex digits of a byte. -/
def hex_of_byte (b : Nat) : List Char := [Nat.digitChar (b / 16), Nat.digitChar (b % 16)]

end MR

namespace RSA

/-! ## The 64-bit modular exponentiation of the RSA demos (`RSA.c`, `RSAmtext.c`) -/

/-- The loop `while (exp) { ... }` of `modexp`, on the variables `result`,
`base` and `exp`.  The products `result * base` and `base * base` are
`uint64_t` products, reduced modulo `2^64` before `% mod` is applied.  `fuel`
bounds the number of evaluations of the loop condition. -/
def modexp_loop : Nat → Nat → Nat → Nat → Nat → Option Nat
  | 0, _, _, _, _ => none
  | fuel + 1, result, base, exp, mod =>
    if exp = 0 then some result
    else
      modexp_loop fuel (if exp % 2 = 1 then (result * base % 2 ^ 64) % mod else result)
        ((base * base % 2 ^ 64) % mod) (exp / 2) mod

/-- `uint64_t modexp(uint64_t base, uint64_t exp, uint64_t mod)`, identical in
`RSA.c` and `RSAmtext.c`; the arguments are below `2^64` and `mod` is not 0. -/
def modexp (fuel : Nat) (base exp mod : Nat) : Option Nat :=
  modexp_loop fuel 1 (base % mod) exp mod

/-- The loop `while ((d & 1) == 0) { d >>= 1; r++; }` of `is_prime` in `RSA.c`,
returning the final `d` and `r`.  `fuel` bounds the number of evaluations of
the loop condition. -/
def is_prime_halve : Nat → Nat → Nat → Option (Nat × Nat)
  | 0, _, _ => none
  | fuel + 1, d, r => if d % 2 = 0 then is_prime_halve fuel (d / 2) (r + 1) else some (d, r)

/-- The loop `for (int j = 0; j < r - 1; j++) { x = modexp(x, 2, n); if (x == n - 1)
{ is_composite = 0; break; } }` of `is_prime`, with `k` passes still to do,
returning the flag `is_composite`. -/
def is_prime_squarings (fuel n : Nat) : Nat → Nat → Option Int
  | 0, _ => some 1
  | k + 1, x =>
    match modexp fuel x 2 n with
    | none => none
    | some x1 => if x1 = n - 1 then some 0 else is_prime_squarings fuel n k x1

/-- The loop `for (int i = 0; i < k; i++)` of `is_prime`, with `k` rounds still
to run, returning the result of `is_prime` and the index of the next `rand()`
call.  `rand()` returns a non-negative `int`, which its conversion to
`uint64_t` leaves unchanged; `n >= 5` here, so that `n - 4` and `n - 1` do not
wrap. -/
def is_prime_rounds (fuel n d r : Nat) (rand : Nat → Nat) : Nat → Nat → Option (Int × Nat)
  | 0, pos => some (1, pos)
  | k + 1, pos =>
    match modexp fuel ((2 + rand pos % (n - 4)) % 2 ^ 64) d n with
    | none => none
    | some x =>
      if x = 1 ∨ x = n - 1 then is_prime_rounds fuel n d r rand k (pos + 1)
      else
        match is_prime_squarings fuel n (r - 1) x with
        | none => none
        | some is_composite =>
          if is_composite ≠ 0 then some (0, pos + 1)
          else is_prime_rounds fuel n d r rand k (pos + 1)

/-- The function `is_prime(n, k)` of `RSA.c`, for a `uint64_t` value `n`:
the result and the index of the next `rand()` call, or `none` when a `while`
loop does not finish within `fuel` evaluations of its condition. -/
def is_prime (fuel n : Nat) (k : Int) (rand : Nat → Nat) (pos : Nat) : Option (Int × Nat) :=
  if n < 2 then some (0, pos)
  else if n = 2 ∨ n = 3 then some (1, pos)
  else if n % 2 = 0 then some (0, pos)
  else
    match is_prime_halve fuel (n - 1) 0 with
    | none => none
    | some (d, r) => is_prime_rounds fuel n d r rand k.toNat pos

end RSA

namespace AES

/-! ## AES-128 in ECB mode with PKCS#7 padding (`AESass.c`)

Bytes are natural numbers; a conversion to `uint8_t` that can lose bits is an
explicit `% 256`.  Arrays are lists, read with default 0.  The 4x4 array
`state[4][4]` is the list of its 16 entries in memory order, `state[r][c]` at
index `4 * r + c`.  A `for` loop running its index from 0 to `n - 1` is
`for_loop n`; the two `while` loops, whose trip count does not depend on the
data, are total functions defined by well-founded recursion. -/

/-- The table `static const uint8_t sbox[256]`. -/
def sbox : List Nat :=
  [0x63, 0x7c, 0x77, 0x7b, 0xf2, 0x6b, 0x6f, 0xc5, 0x30, 0x01, 0x67, 0x2b, 0xfe, 0xd7, 0xab, 0x76,
   0xca, 0x82, 0xc9, 0x7d, 0xfa, 0x59, 0x47, 0xf0, 0xad, 0xd4, 0xa2, 0xaf, 0x9c, 0xa4, 0x72, 0xc0,
   0xb7, 0xfd, 0x93, 0x26, 0x36, 0x3f, 0xf7, 0xcc, 0x34, 0xa5, 0xe5, 0xf1, 0x71, 0xd8, 0x31, 0x15,
   0x04, 0xc7, 0x23, 0xc3, 0x18, 0x96, 0x05, 0x9a, 0x07, 0x12, 0x80, 0xe2, 0xeb, 0x27, 0xb2, 0x75,
   0x09, 0x83, 0x2c, 0x1a, 0x1b, 0x6e, 0x5a, 0xa0, 0x52, 0x3b, 0xd6, 0xb3, 0x29, 0xe3, 0x2f, 0x84,
   0x53, 0xd1, 0x00, 0xed, 0x20, 0xfc, 0xb1, 0x5b, 0x6a, 0xcb, 0xbe, 0x39, 0x4a, 0x4c, 0x58, 0xcf,
   0xd0, 0xef, 0xaa, 0xfb, 0x43, 0x4d, 0x33, 0x85, 0x45, 0xf9, 0x02, 0x7f, 0x50, 0x3c, 0x9f, 0xa8,
   0x51, 0xa3, 0x40, 0x8f, 0x92, 0x9d, 0x38, 0xf5, 0xbc, 0xb6, 0xda, 0x21, 0x10, 0xff, 0xf3, 0xd2,
   0xcd, 0x0c, 0x13, 0xec, 0x5f, 0x97, 0x44, 0x17, 0xc4, 0xa7, 0x7e, 0x3d, 0x64, 0x5d, 0x19, 0x73,
   0x60, 0x81, 0x4f, 0xdc, 0x22, 0x2a, 0x90, 0x88, 0x46, 0xee, 0xb8, 0x14, 0xde, 0x5e, 0x0b, 0xdb,
   0xe0, 0x32, 0x3a, 0x0a, 0x49, 0x06, 0x24, 0x5c, 0xc2, 0xd3, 0xac, 0x62, 0x91, 0x95, 0xe4, 0x79,
   0xe7, 0xc8, 0x37, 0x6d, 0x8d, 0xd5, 0x4e, 0xa9, 0x6c, 0x56, 0xf4, 0xea, 0x65, 0x7a, 0xae, 0x08,
   0xba, 0x78, 0x25, 0x2e, 0x1c, 0xa6, 0xb4, 0xc6, 0xe8, 0xdd, 0x74, 0x1f, 0x4b, 0xbd, 0x8b, 0x8a,
   0x70, 0x3e, 0xb5, 0x66, 0x48, 0x03, 0xf6, 0x0e, 0x61, 0x35, 0x57, 0xb9, 0x86, 0xc1, 0x1d, 0x9e,
   0xe1, 0xf8, 0x98, 0x11, 0x69, 0xd9, 0x8e, 0x94, 0x9b, 0x1e, 0x87, 0xe9, 0xce, 0x55, 0x28, 0xdf,
   0x8c, 0xa1, 0x89, 0x0d, 0xbf, 0xe6, 0x42, 0x68, 0x41, 0x99, 0x2d, 0x0f, 0xb0, 0x54, 0xbb, 0x16]

/-- The table `static const uint8_t inv_sbox[256]`. -/
def inv_sbox : List Nat :=
  [0x52, 0x09, 0x6A, 0xD5, 0x30, 0x36, 0xA5, 0x38, 0xBF, 0x40, 0xA3, 0x9E, 0x81, 0xF3, 0xD7, 0xFB,
   0x7C, 0xE3, 0x39, 0x82, 0x9B, 0x2F, 0xFF, 0x87, 0x34, 0x8E, 0x43, 0x44, 0xC4, 0xDE, 0xE9, 0xCB,
   0x54, 0x7B, 0x94, 0x32, 0xA6, 0xC2, 0x23, 0x3D, 0xEE, 0x4C, 0x95, 0x0B, 0x42, 0xFA, 0xC3, 0x4E,
   0x08, 0x2E, 0xA1, 0x66, 0x28, 0xD9, 0x24, 0xB2, 0x76, 0x5B, 0xA2, 0x49, 0x6D, 0x8B, 0xD1, 0x25,
   0x72, 0xF8, 0xF6, 0x64, 0x86, 0x68, 0x98, 0x16, 0xD4, 0xA4, 0x5C, 0xCC, 0x5D, 0x65, 0xB6, 0x92,
   0x6C, 0x70, 0x48, 0x50, 0xFD, 0xED, 0xB9, 0xDA, 0x5E, 0x15, 0x46, 0x57, 0xA7, 0x8D, 0x9D, 0x84,
   0x90, 0xD8, 0xAB, 0x00, 0x8C, 0xBC, 0xD3, 0x0A, 0xF7, 0xE4, 0x58, 0x05, 0xB8, 0xB3, 0x45, 0x06,
   0xD0, 0x2C, 0x1E, 0x8F, 0xCA, 0x3F, 0x0F, 0x02, 0xC1, 0xAF, 0xBD, 0x03, 0x01, 0x13, 0x8A, 0x6B,
   0x3A, 0x91, 0x11, 0x41, 0x4F, 0x67, 0xDC, 0xEA, 0x97, 0xF2, 0xCF, 0xCE, 0xF0, 0xB4, 0xE6, 0x73,
   0x96, 0xAC, 0x74, 0x22, 0xE7, 0xAD, 0x35, 0x85, 0xE2, 0xF9, 0x37, 0xE8, 0x1C, 0x75, 0xDF, 0x6E,
   0x47, 0xF1, 0x1A, 0x71, 0x1D, 0x29, 0xC5, 0x89, 0x6F, 0xB7, 0x62, 0x0E, 0xAA, 0x18, 0xBE, 0x1B,
   0xFC, 0x56, 0x3E, 0x4B, 0xC6, 0xD2, 0x79, 0x20, 0x9A, 0xDB, 0xC0, 0xFE, 0x78, 0xCD, 0x5A, 0xF4,
   0x1F, 0xDD, 0xA8, 0x33, 0x88, 0x07, 0xC7, 0x31, 0xB1, 0x12, 0x10, 0x59, 0x27, 0x80, 0xEC, 0x5F,
   0x60, 0x51, 0x7F, 0xA9, 0x19, 0xB5, 0x4A, 0x0D, 0x2D, 0xE5, 0x7A, 0x9F, 0x93, 0xC9, 0x9C, 0xEF,
   0xA0, 0xE0, 0x3B, 0x4D, 0xAE, 0x2A, 0xF5, 0xB0, 0xC8, 0xEB, 0xBB, 0x3C, 0x83, 0x53, 0x99, 0x61,
   0x17, 0x2B, 0x04, 0x7E, 0xBA, 0x77, 0xD6, 0x26, 0xE1, 0x69, 0x14, 0x63, 0x55, 0x21, 0x0C, 0x7D]

/-- The table `static const uint8_t Rcon[11]`. -/
def Rcon : List Nat :=
  [0x00, 0x01, 0x02, 0x04, 0x08, 0x10, 0x20, 0x40, 0x80, 0x1B, 0x36]

/-- The loop `for (int i = 0; i < n; ++i) body`, as the effect on the variables
the body writes: `for_loop n body s` runs `body 0`, ..., `body (n - 1)` in this
order, starting from `s`. -/
def for_loop {σ : Type} : Nat → (Nat → σ → σ) → σ → σ
  | 0, _, s => s
  | n + 1, body, s => body n (for_loop n body s)

/-- The function `memcpy(dst + off, src, n)` as the new contents of `dst`; the
`n` bytes are in bounds on both sides wherever the program calls it. -/
def memcpy (dst : List Nat) (off : Nat) (src : List Nat) (n : Nat) : List Nat :=
  dst.take off ++ src.take n ++ dst.drop (off + n)

/-- The function `memset(dst + off, v, n)` as the new contents of `dst`. -/
def memset (dst : List Nat) (off : Nat) (v : Nat) (n : Nat) : List Nat :=
  dst.take off ++ List.replicate n v ++ dst.drop (off + n)

/-- An array of `n` bytes: a list of length `n` whose entries are all below
256. -/
def Bytes (n : Nat) (l : List Nat) : Prop := l.length = n ∧ ∀ b ∈ l, b < 256

instance Bytes.decidable (n : Nat) (l : List Nat) : Decidable (Bytes n l) := by
  unfold Bytes
  infer_instance

/-- The function `xtime`: `(uint8_t)((x << 1) ^ ((x & 0x80) ? 0x1B : 0x00))`. -/
def xtime (x : Nat) : Nat := ((x <<< 1) ^^^ (if x &&& 0x80 ≠ 0 then 0x1B else 0x00)) % 256

/-- The loop `while (b) { if (b & 1) res ^= a; a = xtime(a); b >>= 1; }` of
`gmul`, returning the final `res`. -/
def gmul_loop (res a b : Nat) : Nat :=
  if _h : b = 0 then res
  else gmul_loop (if b &&& 1 ≠ 0 then res ^^^ a else res) (xtime a) (b >>> 1)
termination_by b
decreasing_by
  rw [Nat.shiftRight_eq_div_pow]
  exact Nat.div_lt_self (Nat.pos_of_ne_zero (by assumption)) (by norm_num)

/-- The function `gmul`, the multiplication of the field with 256 elements. -/
def gmul (a b : Nat) : Nat := gmul_loop 0 a b

/-- The array `uint8_t state[4][4]`, in memory order. -/
abbrev State : Type := List Nat

/-- Read access `state[r][c]`. -/
def State.get (state : State) (r c : Nat) : Nat := state.getD (4 * r + c) 0

/-- Write access `state[r][c] = v`. -/
def State.put (state : State) (r c v : Nat) : State := state.set (4 * r + c) v

/-- The function `SubBytes`. -/
def SubBytes (state : State) : State :=
  for_loop 4 (fun r st =>
    for_loop 4 (fun c st => st.put r c (sbox.getD (st.get r c) 0)) st) state

/-- The function `InvSubBytes`. -/
def InvSubBytes (state : State) : State :=
  for_loop 4 (fun r st =>
    for_loop 4 (fun c st => st.put r c (inv_sbox.getD (st.get r c) 0)) st) state

/-- The function `ShiftRows`: row 1 rotated left by 1, row 2 by 2, row 3 by 3,
each through the buffer `tmp`. -/
def ShiftRows (state : State) : State :=
  let tmp := [state.get 1 0, state.get 1 1, state.get 1 2, state.get 1 3]
  let state := (((state.put 1 0 (tmp.getD 1 0)).put 1 1 (tmp.getD 2 0)).put 1 2
    (tmp.getD 3 0)).put 1 3 (tmp.getD 0 0)
  let tmp := [state.get 2 0, state.get 2 1, state.get 2 2, state.get 2 3]
  let state := (((state.put 2 0 (tmp.getD 2 0)).put 2 1 (tmp.getD 3 0)).put 2 2
    (tmp.getD 0 0)).put 2 3 (tmp.getD 1 0)
  let tmp := [state.get 3 0, state.get 3 1, state.get 3 2, state.get 3 3]
  (((state.put 3 0 (tmp.getD 3 0)).put 3 1 (tmp.getD 0 0)).put 3 2
    (tmp.getD 1 0)).put 3 3 (tmp.getD 2 0)

/-- The function `InvShiftRows`: row 1 rotated right by 1, row 2 by 2, row 3
by 3. -/
def InvShiftRows (state : State) : State :=
  let tmp := [state.get 1 0, state.get 1 1, state.get 1 2, state.get 1 3]
  let state := (((state.put 1 0 (tmp.getD 3 0)).put 1 1 (tmp.getD 0 0)).put 1 2
    (tmp.getD 1 0)).put 1 3 (tmp.getD 2 0)
  let tmp := [state.get 2 0, state.get 2 1, state.get 2 2, state.get 2 3]
  let state := (((state.put 2 0 (tmp.getD 2 0)).put 2 1 (tmp.getD 3 0)).put 2 2
    (tmp.getD 0 0)).put 2 3 (tmp.getD 1 0)
  let tmp := [state.get 3 0, state.get 3 1, state.get 3 2, state.get 3 3]
  (((state.put 3 0 (tmp.getD 1 0)).put 3 1 (tmp.getD 2 0)).put 3 2
    (tmp.getD 3 0)).put 3 3 (tmp.getD 0 0)

/-- The function `MixColumns`. -/
def MixColumns (state : State) : State :=
  for_loop 4 (fun c st =>
    let a0 := st.get 0 c
    let a1 := st.get 1 c
    let a2 := st.get 2 c
    let a3 := st.get 3 c
    let t := a0 ^^^ a1 ^^^ a2 ^^^ a3
    let st := st.put 0 c (a0 ^^^ t ^^^ xtime (a0 ^^^ a1))
    let st := st.put 1 c (a1 ^^^ t ^^^ xtime (a1 ^^^ a2))
    let st := st.put 2 c (a2 ^^^ t ^^^ xtime (a2 ^^^ a3))
    st.put 3 c (a3 ^^^ t ^^^ xtime (a3 ^^^ a0))) state

/-- The function `InvMixColumns`; each entry is converted to `uint8_t`. -/
def InvMixColumns (state : State) : State :=
  for_loop 4 (fun c st =>
    let a0 := st.get 0 c
    let a1 := st.get 1 c
    let a2 := st.get 2 c
    let a3 := st.get 3 c
    let st := st.put 0 c
      ((gmul a0 0x0e ^^^ gmul a1 0x0b ^^^ gmul a2 0x0d ^^^ gmul a3 0x09) % 256)
    let st := st.put 1 c
      ((gmul a0 0x09 ^^^ gmul a1 0x0e ^^^ gmul a2 0x0b ^^^ gmul a3 0x0d) % 256)
    let st := st.put 2 c
      ((gmul a0 0x0d ^^^ gmul a1 0x09 ^^^ gmul a2 0x0e ^^^ gmul a3 0x0b) % 256)
    st.put 3 c
      ((gmul a0 0x0b ^^^ gmul a1 0x0d ^^^ gmul a2 0x09 ^^^ gmul a3 0x0e) % 256)) state

/-- The function `AddRoundKey`; `roundKey` is the array the pointer argument
points to. -/
def AddRoundKey (state : State) (roundKey : List Nat) : State :=
  for_loop 4 (fun c st =>
    for_loop 4 (fun r st => st.put r c (st.get r c ^^^ roundKey.getD (c * 4 + r) 0)) st) state

/-- The temporary word `temp` of one pass of the `while` loop of
`KeyExpansion`, just before it is XORed into the round keys: the last four
bytes generated, and at each multiple of 16 rotated, substituted through
`sbox` and combined with `Rcon[rconIter]`. -/
def KeyExpansion_temp (roundKeys : List Nat) (bytesGenerated rconIter : Nat) : List Nat :=
  let temp := for_loop 4 (fun i temp => temp.set i (roundKeys.getD (bytesGenerated - 4 + i) 0))
    [0, 0, 0, 0]
  if bytesGenerated % 16 = 0 then
    let t := temp.getD 0 0
    let temp := temp.set 0 (temp.getD 1 0)
    let temp := temp.set 1 (temp.getD 2 0)
    let temp := temp.set 2 (temp.getD 3 0)
    let temp := temp.set 3 t
    let temp := temp.set 0 (sbox.getD (temp.getD 0 0) 0)
    let temp := temp.set 1 (sbox.getD (temp.getD 1 0) 0)
    let temp := temp.set 2 (sbox.getD (temp.getD 2 0) 0)
    let temp := temp.set 3 (sbox.getD (temp.getD 3 0) 0)
    temp.set 0 (temp.getD 0 0 ^^^ Rcon.getD rconIter 0)
  else temp

/-- One pass of the body of the `while` loop of `KeyExpansion`, as the new
values of `roundKeys`, `bytesGenerated` and `rconIter`; the inner loop writes
`roundKeys[bytesGenerated]` and increments `bytesGenerated` four times. -/
def KeyExpansion_body (st : List Nat × Nat × Nat) : List Nat × Nat × Nat :=
  let roundKeys := st.1
  let bytesGenerated := st.2.1
  let rconIter := st.2.2
  let temp := KeyExpansion_temp roundKeys bytesGenerated rconIter
  (for_loop 4 (fun i rk =>
      rk.set (bytesGenerated + i) (rk.getD (bytesGenerated + i - 16) 0 ^^^ temp.getD i 0))
    roundKeys,
   bytesGenerated + 4,
   if bytesGenerated % 16 = 0 then rconIter + 1 else rconIter)

/-- The loop `while (bytesGenerated < 176) { ... }` of `KeyExpansion`,
returning the final `roundKeys`. -/
def KeyExpansion_loop (roundKeys : List Nat) (bytesGenerated rconIter : Nat) : List Nat :=
  if bytesGenerated < 176 then
    KeyExpansion_loop (KeyExpansion_body (roundKeys, bytesGenerated, rconIter)).1
      (bytesGenerated + 4) (KeyExpansion_body (roundKeys, bytesGenerated, rconIter)).2.2
  else roundKeys
termination_by 176 - bytesGenerated
decreasing_by omega

/-- The function `KeyExpansion`, returning the array `roundKeys[176]`, whose
first 16 bytes are the key. -/
def KeyExpansion (key : List Nat) : List Nat :=
  KeyExpansion_loop (memcpy (List.replicate 176 0) 0 key 16) 16 1

/-- The first `n` passes of the `while` loop of `KeyExpansion`. -/
def KeyExpansion_passes : Nat → List Nat × Nat × Nat → List Nat × Nat × Nat
  | 0, st => st
  | n + 1, st => KeyExpansion_passes n (KeyExpansion_body st)

/-- The function `bytes_to_state`, returning the array `state`. -/
def bytes_to_state (inp : List Nat) : State :=
  for_loop 4 (fun c st =>
    for_loop 4 (fun r st => st.put r c (inp.getD (c * 4 + r) 0)) st) (List.replicate 16 0)

/-- The function `state_to_bytes`, returning the array `out[16]`. -/
def state_to_bytes (state : State) : List Nat :=
  for_loop 4 (fun c out =>
    for_loop 4 (fun r out => out.set (c * 4 + r) (state.get r c)) out) (List.replicate 16 0)

/-- The loop `for (int round = 1; round <= 9; ++round)` of
`AES128_EncryptBlock`, after its first `n` passes. -/
def encrypt_rounds (roundKeys : List Nat) : Nat → State → State
  | 0, state => state
  | n + 1, state =>
    AddRoundKey (MixColumns (ShiftRows (SubBytes (encrypt_rounds roundKeys n state))))
      (roundKeys.drop ((n + 1) * 16))

/-- The function `AES128_EncryptBlock`, returning the array `out[16]`. -/
def AES128_EncryptBlock (inp roundKeys : List Nat) : List Nat :=
  let state := bytes_to_state inp
  let state := AddRoundKey state roundKeys
  let state := encrypt_rounds roundKeys 9 state
  let state := SubBytes state
  let state := ShiftRows state
  let state := AddRoundKey state (roundKeys.drop (10 * 16))
  state_to_bytes state

/-- The loop `for (int round = 9; round >= 1; --round)` of
`AES128_DecryptBlock`, with `n` passes still to do, the next one being round
`n`. -/
def decrypt_rounds (roundKeys : List Nat) : Nat → State → State
  | 0, state => state
  | n + 1, state =>
    decrypt_rounds roundKeys n
      (InvMixColumns (AddRoundKey (InvSubBytes (InvShiftRows state))
        (roundKeys.drop ((n + 1) * 16))))

/-- The function `AES128_DecryptBlock`, returning the array `out[16]`. -/
def AES128_DecryptBlock (inp roundKeys : List Nat) : List Nat :=
  let state := bytes_to_state inp
  let state := AddRoundKey state (roundKeys.drop (10 * 16))
  let state := decrypt_rounds roundKeys 9 state
  let state := InvShiftRows state
  let state := InvSubBytes state
  let state := AddRoundKey state roundKeys
  state_to_bytes state

/-- The block loop of the two ECB functions,
`for (offset = 0; offset < len; offset += 16) { memcpy(inblock, src + offset, 16);
F(inblock, roundKeys, outblock); memcpy(dst + offset, outblock, 16); }`,
from the current `offset` on, returning the final `dst`; `F` is the block
function.  Both callers have `len` a multiple of 16 below `2^64`, so that
`offset += 16` does not wrap. -/
def ecb_loop (F : List Nat → List Nat → List Nat) (src roundKeys : List Nat) (len : Nat)
    (offset : Nat) (dst : List Nat) : List Nat :=
  if offset < len then
    ecb_loop F src roundKeys len (offset + 16)
      (memcpy dst offset (F (memcpy (List.replicate 16 0) 0 (src.drop offset) 16) roundKeys) 16)
  else dst
termination_by len - offset
decreasing_by omega

/-- The function `AES128_ECB_Encrypt`, with `plaintext_len` the length of
`plaintext` and both `malloc` calls succeeding: the pair of the returned
buffer and `*out_len`.  Lengths are `size_t` values. -/
def AES128_ECB_Encrypt (plaintext key : List Nat) : List Nat × Nat :=
  let roundKeys := KeyExpansion key
  let plaintext_len := plaintext.length
  let block_size := 16
  let pad_len := block_size - plaintext_len % block_size
  let pad_len := if pad_len = 0 then block_size else pad_len
  let total_len := (plaintext_len + pad_len) % 2 ^ 64
  let buf := List.replicate total_len 0
  let buf := memcpy buf 0 plaintext plaintext_len
  let buf := memset buf plaintext_len (pad_len % 256) pad_len
  let out := List.replicate total_len 0
  let out := ecb_loop AES128_EncryptBlock buf roundKeys total_len 0 out
  (out, total_len)

/-- The loop `for (size_t i = 0; i < pad; ++i) if (buf[ciphertext_len - 1 - i] != pad) ...`
of `AES128_ECB_Decrypt`: whether its first `n` passes all find the byte
`pad`. -/
def padding_ok (buf : List Nat) (ciphertext_len pad : Nat) : Nat → Bool
  | 0 => true
  | n + 1 => padding_ok buf ciphertext_len pad n && buf.getD (ciphertext_len - 1 - n) 0 == pad

/-- The function `AES128_ECB_Decrypt`, with `ciphertext_len` the length of
`ciphertext` and both `malloc` calls succeeding: `none` is the result `NULL`,
otherwise the pair of the returned buffer, which holds `plain_len` bytes and a
terminating 0, and `*out_len`. -/
def AES128_ECB_Decrypt (ciphertext key : List Nat) : Option (List Nat × Nat) :=
  let ciphertext_len := ciphertext.length
  if ciphertext_len % 16 ≠ 0 then none
  else
    let roundKeys := KeyExpansion key
    let buf := List.replicate ciphertext_len 0
    let buf := ecb_loop AES128_DecryptBlock ciphertext roundKeys ciphertext_len 0 buf
    if ciphertext_len = 0 then none
    else
      let pad := buf.getD (ciphertext_len - 1) 0
      if pad < 1 ∨ pad > 16 then none
      else if padding_ok buf ciphertext_len pad pad = false then none
      else
        let plain_len := ciphertext_len - pad
        let out := List.replicate (plain_len + 1) 0
        let out := memcpy out 0 buf plain_len
        let out := out.set plain_len 0
        some (out, plain_len)

end AES

namespace AVL

/-! ## The AVL tree of `avltree.c`

A pointer to a node is a tree: `NULL` is `null`, and the nodes of a tree are
distinct objects.  An `int` is an integer; the `height` fields are far from
overflow for every balanced tree that fits in memory.  A function that would
dereference `NULL` returns `none`; `malloc` is assumed to succeed. -/

/-- The type `AVLNode *`: `NULL`, or a node with the fields `data`, `left`,
`right` and `height` of `struct AVLNode`. -/
inductive AVLNode where
  | null : AVLNode
  | node (data : Int) (left right : AVLNode) (height : Int) : AVLNode
deriving DecidableEq, Repr

open AVLNode

/-- The function `get_height`. -/
def get_height : AVLNode → Int
  | null => 0
  | node _ _ _ height => height

/-- The function `get_balance`. -/
def get_balance : AVLNode → Int
  | null => 0
  | node _ left right _ => get_height left - get_height right

/-- The function `update_height`, returning the node with its new `height`. -/
def update_height : AVLNode → AVLNode
  | null => null
  | node data left right _ =>
    node data left right
      (1 + (if get_height left > get_height right then get_height left else get_height right))

/-- The function `print_inorder`, as the list of the numbers printed. -/
def print_inorder : AVLNode → List Int
  | null => []
  | node data left right _ => print_inorder left ++ data :: print_inorder right

/-- The function `_find_min`: the leftmost node of a non-empty tree. -/
def _find_min : AVLNode → Option AVLNode
  | null => none
  | node data null right height => some (node data null right height)
  | node _ (node d l r h) _ _ => _find_min (node d l r h)

/-- The expression `node->data`. -/
def data_of : AVLNode → Option Int
  | null => none
  | node data _ _ _ => some data

/-- The function `right_rotate`. -/
def right_rotate : AVLNode → Option AVLNode
  | node ydata (node xdata xleft T2 xheight) yright yheight =>
    some (update_height (node xdata xleft (update_height (node ydata T2 yright yheight)) xheight))
  | _ => none

/-- The function `left_rotate`. -/
def left_rotate : AVLNode → Option AVLNode
  | node xdata xleft (node ydata T2 yright yheight) xheight =>
    some (update_height (node ydata (update_height (node xdata xleft T2 xheight)) yright yheight))
  | _ => none

/-- The function `create_node`. -/
def create_node (data : Int) : AVLNode := node data null null 1

/-- The C expression `p && q`, where evaluating `q` may dereference `NULL`. -/
def c_and (p : Bool) (q : Option Bool) : Option Bool := if p then q else some false

/-- Steps 2 to 4 of `_insert`, run on `root` after the recursive call has
replaced one of its children: update the height, then rotate according to the
balance factor and the position of `k`. -/
def insert_rebalance (root : AVLNode) (k : Int) : Option AVLNode :=
  match update_height root with
  | null => some null
  | node data left right height =>
    let root := node data left right height
    let balance := get_balance root
    match c_and (balance > 1) ((data_of left).map (fun d => decide (k < d))) with
    | none => none
    | some true => right_rotate root
    | some false =>
      match c_and (balance < -1) ((data_of right).map (fun d => decide (k > d))) with
      | none => none
      | some true => left_rotate root
      | some false =>
        match c_and (balance > 1) ((data_of left).map (fun d => decide (k > d))) with
        | none => none
        | some true =>
          match left_rotate left with
          | none => none
          | some left1 => right_rotate (node data left1 right height)
        | some false =>
          match c_and (balance < -1) ((data_of right).map (fun d => decide (k < d))) with
          | none => none
          | some true =>
            match right_rotate right with
            | none => none
            | some right1 => left_rotate (node data left right1 height)
          | some false => some root

/-- The function `_insert`. -/
def _insert : AVLNode → Int → Option AVLNode
  | null, k => some (create_node k)
  | node data left right height, k =>
    if k < data then
      match _insert left k with
      | none => none
      | some left1 => insert_rebalance (node data left1 right height) k
    else if k > data then
      match _insert right k with
      | none => none
      | some right1 => insert_rebalance (node data left right1 height) k
    else some (node data left right height)

/-- Steps 2 to 4 of `_delete`, run on the non-`NULL` `root` after the recursive
call has replaced one of its children: update the height, then rotate
according to the balance factors of the root and of its children. -/
def delete_rebalance (root : AVLNode) : Option AVLNode :=
  match update_height root with
  | null => some null
  | node data left right height =>
    let root := node data left right height
    let balance := get_balance root
    if balance > 1 ∧ get_balance left ≥ 0 then right_rotate root
    else if balance > 1 ∧ get_balance left < 0 then
      match left_rotate left with
      | none => none
      | some left1 => right_rotate (node data left1 right height)
    else if balance < -1 ∧ get_balance right ≤ 0 then left_rotate root
    else if balance < -1 ∧ get_balance right > 0 then
      match right_rotate right with
      | none => none
      | some right1 => left_rotate (node data left right1 height)
    else some root

/-- The function `_delete`. -/
def _delete : AVLNode → Int → Option AVLNode
  | null, _ => some null
  | node data left right height, k =>
    if k < data then
      match _delete left k with
      | none => none
      | some left1 => delete_rebalance (node data left1 right height)
    else if k > data then
      match _delete right k with
      | none => none
      | some right1 => delete_rebalance (node data left right1 height)
    else
      match left, right with
      | null, _ => some right
      | _, null => some left
      | _, _ =>
        match (_find_min right).bind data_of with
        | none => none
        | some temp_data =>
          match _delete right temp_data with
          | none => none
          | some right1 => delete_rebalance (node temp_data left right1 height)

/-- The height of a tree: the number of nodes on its longest path from the
root down. -/
def tree_height : AVLNode → Int
  | null => 0
  | node _ left right _ => 1 + max (tree_height left) (tree_height right)

/-- A strict binary search tree: at every node the keys of the left subtree
are smaller than `data` and those of the right subtree are larger. -/
def is_bst : AVLNode → Prop
  | null => True
  | node data left right _ =>
    is_bst left ∧ is_bst right ∧ (∀ x ∈ print_inorder left, x < data) ∧
      (∀ x ∈ print_inorder right, data < x)

/-- The height fields are correct: every node stores the height of its
subtree. -/
def heights_ok : AVLNode → Prop
  | null => True
  | node data left right height =>
    heights_ok left ∧ heights_ok right ∧ height = tree_height (node data left right height)

/-- Every balance factor, as `get_balance` computes it, is -1, 0 or 1. -/
def balanced : AVLNode → Prop
  | null => True
  | node data left right height =>
    balanced left ∧ balanced right ∧ -1 ≤ get_balance (node data left right height) ∧
      get_balance (node data left right height) ≤ 1

/-- The shape of an AVL tree, whatever the order of its keys: correct height
fields and balance factors in `{-1, 0, 1}`. -/
def avl (t : AVLNode) : Prop := heights_ok t ∧ balanced t

/-- The root of the result of `_insert(t, k)` when the tree has grown by one
level: `k` went to the side that is now the higher one. -/
def insert_grew (t : AVLNode) (k : Int) : Prop :=
  match t with
  | null => False
  | node data left right _ =>
    (k < data ∧ get_height left = get_height right + 1) ∨
      (k > data ∧ get_height right = get_height left + 1)

/-- A valid AVL tree: a strict binary search tree with correct height fields
and balance factors in `{-1, 0, 1}`. -/
def valid (t : AVLNode) : Prop := is_bst t ∧ heights_ok t ∧ balanced t

instance is_bst.decidable : (t : AVLNode) → Decidable (is_bst t)
  | null => isTrue trivial
  | node data left right _ =>
    have := is_bst.decidable left
    have := is_bst.decidable right
    inferInstanceAs (Decidable (is_bst left ∧ is_bst right ∧
      (∀ x ∈ print_inorder left, x < data) ∧ (∀ x ∈ print_inorder right, data < x)))

instance heights_ok.decidable : (t : AVLNode) → Decidable (heights_ok t)
  | null => isTrue trivial
  | node data left right height =>
    have := heights_ok.decidable left
    have := heights_ok.decidable right
    inferInstanceAs (Decidable (heights_ok left ∧ heights_ok right ∧
      height = tree_height (node data left right height)))

instance balanced.decidable : (t : AVLNode) → Decidable (balanced t)
  | null => isTrue trivial
  | node data left right height =>
    have := balanced.decidable left
    have := balanced.decidable right
    inferInstanceAs (Decidable (balanced left ∧ balanced right ∧
      -1 ≤ get_balance (node data left right height) ∧
      get_balance (node data left right height) ≤ 1))

instance valid.decidable (t : AVLNode) : Decidable (valid t) :=
  inferInstanceAs (Decidable (is_bst t ∧ heights_ok t ∧ balanced t))

end AVL

namespace MR

/-! ## Limb arrays and their values -/

theorem getD_set_list (l : List Nat) (i j w : Nat) :
    (l.set i w).getD j 0 = if i = j ∧ i < l.length then w else l.getD j 0 := by
  simp only [List.getD_eq_getElem?_getD, List.getElem?_set]
  by_cases h : i = j
  · subst h
    by_cases h2 : i < l.length
    · simp [h2]
    · simp [h2, List.getElem?_eq_none (Nat.le_of_not_lt h2)]
  · simp [h]

theorem Big512.limb_set (x : Big512) (i j w : Nat) :
    (x.set i w).limb j = if i = j ∧ i < x.v.length then w else x.limb j := by
  simp only [Big512.limb, Big512.set, getD_set_list]

theorem Big512.length_set (x : Big512) (i w : Nat) : (x.set i w).v.length = x.v.length := by
  simp [Big512.set]

theorem getD_lt_of_forall_mem (l : List Nat) (h : ∀ w ∈ l, w < 2 ^ 64) (i : Nat) :
    l.getD i 0 < 2 ^ 64 := by
  rw [List.getD_eq_getElem?_getD]
  by_cases hi : i < l.length
  · rw [List.getElem?_eq_getElem hi]
    exact h _ (List.getElem_mem hi)
  · rw [List.getElem?_eq_none (Nat.le_of_not_lt hi)]
    simp

theorem Big512.WF.limb_lt {x : Big512} (h : x.WF) (i : Nat) : x.limb i < 2 ^ 64 :=
  getD_lt_of_forall_mem x.v h.2 i

theorem Big512.WF.length {x : Big512} (h : x.WF) : x.v.length = 8 := h.1

theorem forall_mem_of_getD_lt (l : List Nat) (h : ∀ i, i < l.length → l.getD i 0 < 2 ^ 64) :
    ∀ w ∈ l, w < 2 ^ 64 := by
  intro w hw
  obtain ⟨i, hi, rfl⟩ := List.getElem_of_mem hw
  have := h i hi
  rwa [List.getD_eq_getElem?_getD, List.getElem?_eq_getElem hi] at this

theorem Big512.wf_of_limbs {x : Big512} (hl : x.v.length = 8)
    (h : ∀ i, i < 8 → x.limb i < 2 ^ 64) : x.WF :=
  ⟨hl, forall_mem_of_getD_lt x.v (fun i hi => h i (hl ▸ hi))⟩

theorem Big512.ext_limbs {x y : Big512} (hx : x.v.length = 8) (hy : y.v.length = 8)
    (h : ∀ i, i < 8 → x.limb i = y.limb i) : x = y := by
  cases x with | mk xv => cases y with | mk yv =>
  simp only [Big512.mk.injEq]
  simp only at hx hy
  apply List.ext_getElem (by rw [hx, hy])
  intro i h1 h2
  have := h i (hx ▸ h1)
  simpa [Big512.limb, List.getD_eq_getElem?_getD, List.getElem?_eq_getElem h1,
    List.getElem?_eq_getElem h2] using this

theorem limbsVal_congr {f g : Nat → Nat} (k : Nat) (h : ∀ i, i < k → f i = g i) :
    limbsVal f k = limbsVal g k := by
  induction k with
  | zero => rfl
  | succ k ih =>
    simp only [limbsVal]
    rw [ih (fun i hi => h i (Nat.lt_succ_of_lt hi)), h k (Nat.lt_succ_self k)]

theorem limbsVal_lt {f : Nat → Nat} (k : Nat) (h : ∀ i, i < k → f i < 2 ^ 64) :
    limbsVal f k < 2 ^ (64 * k) := by
  induction k with
  | zero => simp [limbsVal]
  | succ k ih =>
    simp only [limbsVal]
    have h1 := ih (fun i hi => h i (Nat.lt_succ_of_lt hi))
    have h2 : f k + 1 ≤ 2 ^ 64 := h k (Nat.lt_succ_self k)
    have h3 : 2 ^ (64 * (k + 1)) = 2 ^ 64 * 2 ^ (64 * k) := by
      rw [← pow_add]; congr 1; ring
    rw [h3]
    calc limbsVal f k + f k * 2 ^ (64 * k)
        < 2 ^ (64 * k) + f k * 2 ^ (64 * k) := by omega
      _ = (f k + 1) * 2 ^ (64 * k) := by ring
      _ ≤ 2 ^ 64 * 2 ^ (64 * k) := Nat.mul_le_mul_right _ h2

/-- The limbs of a bounded limb array are the base-`2^64` digits of its value. -/
theorem limbsVal_digit {f : Nat → Nat} (k : Nat) (h : ∀ i, i < k → f i < 2 ^ 64)
    (i : Nat) (hi : i < k) : limbsVal f k / 2 ^ (64 * i) % 2 ^ 64 = f i := by
  induction k with
  | zero => omega
  | succ k ih =>
    simp only [limbsVal]
    have hlt := limbsVal_lt k (fun j hj => h j (Nat.lt_succ_of_lt hj))
    by_cases hik : i = k
    · subst hik
      have hpos : 0 < 2 ^ (64 * i) := Nat.pow_pos (by norm_num)
      rw [Nat.add_mul_div_right _ _ hpos, Nat.div_eq_of_lt hlt, Nat.zero_add]
      exact Nat.mod_eq_of_lt (h i (Nat.lt_succ_self i))
    · have hik2 : i < k := by omega
      have h4 : 2 ^ (64 * k) = 2 ^ (64 * i) * (2 ^ 64 * 2 ^ (64 * (k - i - 1))) := by
        rw [← pow_add, ← pow_add]; congr 1; omega
      rw [h4, ← Nat.mul_assoc, ← Nat.mul_assoc, Nat.mul_assoc (f k), Nat.mul_comm (f k),
        Nat.mul_assoc, Nat.mul_assoc]
      rw [Nat.add_mul_div_left _ _ (Nat.pow_pos (by norm_num))]
      rw [Nat.add_mul_mod_self_left]
      exact ih (fun j hj => h j (Nat.lt_succ_of_lt hj)) hik2

theorem Big512.val_lt {x : Big512} (h : x.WF) : x.val < 2 ^ 512 :=
  limbsVal_lt 8 (fun i _ => h.limb_lt i)

theorem Big512.limb_eq_digit {x : Big512} (h : x.WF) (i : Nat) (hi : i < 8) :
    x.limb i = x.val / 2 ^ (64 * i) % 2 ^ 64 :=
  (limbsVal_digit 8 (fun j _ => h.limb_lt j) i hi).symm

/-- Two well-formed values with the same number are the same limb array. -/
theorem Big512.eq_of_val_eq {x y : Big512} (hx : x.WF) (hy : y.WF) (h : x.val = y.val) :
    x = y := by
  apply Big512.ext_limbs hx.1 hy.1
  intro i hi
  rw [Big512.limb_eq_digit hx i hi, Big512.limb_eq_digit hy i hi, h]

theorem Big512.ofNat_limb (n i : Nat) (hi : i < 8) :
    (Big512.ofNat n).limb i = n / 2 ^ (64 * i) % 2 ^ 64 := by
  simp only [Big512.limb, Big512.ofNat, List.getD_eq_getElem?_getD]
  rw [List.getElem?_map, List.getElem?_range hi]
  rfl

theorem Big512.ofNat_wf (n : Nat) : (Big512.ofNat n).WF := by
  apply Big512.wf_of_limbs
  · simp [Big512.ofNat]
  · intro i hi
    rw [Big512.ofNat_limb n i hi]
    exact Nat.mod_lt _ (by norm_num)

theorem limbsVal_digits (n k : Nat) :
    limbsVal (fun i => n / 2 ^ (64 * i) % 2 ^ 64) k = n % 2 ^ (64 * k) := by
  induction k with
  | zero => simp [limbsVal, Nat.mod_one]
  | succ k ih =>
    simp only [limbsVal]
    rw [ih]
    have h3 : 2 ^ (64 * (k + 1)) = 2 ^ (64 * k) * 2 ^ 64 := by
      rw [← pow_add]; congr 1
    rw [h3, Nat.mod_mul, Nat.mul_comm (n / 2 ^ (64 * k) % 2 ^ 64)]

theorem Big512.val_ofNat (n : Nat) : (Big512.ofNat n).val = n % 2 ^ 512 := by
  unfold Big512.val
  rw [limbsVal_congr 8 (fun i hi => Big512.ofNat_limb n i hi)]
  exact limbsVal_digits n 8

theorem Big512.val_ofNat_of_lt {n : Nat} (h : n < 2 ^ 512) : (Big512.ofNat n).val = n := by
  rw [Big512.val_ofNat, Nat.mod_eq_of_lt h]

theorem Big512.ofNat_val {x : Big512} (h : x.WF) : Big512.ofNat x.val = x :=
  Big512.eq_of_val_eq (Big512.ofNat_wf _) h
    (by rw [Big512.val_ofNat, Nat.mod_eq_of_lt (Big512.val_lt h)])

theorem Big512.eq_ofNat_of_val {x : Big512} (h : x.WF) {n : Nat} (hv : x.val = n) :
    x = Big512.ofNat n := by
  rw [← hv, Big512.ofNat_val h]

/-! ## `big_cmp` -/

theorem cmp_step_lt (A B x y P : Nat) (hA : A < P) (hB : B < P) :
    A + x * P < B + y * P ↔ (x < y ∨ (x = y ∧ A < B)) := by
  constructor
  · intro h
    by_contra hc
    have hyx : y ≤ x := by omega
    rcases Nat.eq_or_lt_of_le hyx with e | e
    · subst e; omega
    · have : (y + 1) * P ≤ x * P := Nat.mul_le_mul_right _ e
      have e2 : (y + 1) * P = y * P + P := by ring
      omega
  · rintro (h | ⟨rfl, h⟩)
    · have : (x + 1) * P ≤ y * P := Nat.mul_le_mul_right _ h
      have e2 : (x + 1) * P = x * P + P := by ring
      omega
    · omega

theorem big_cmp_loop_spec (a b : Big512) (ha : ∀ i, a.limb i < 2 ^ 64)
    (hb : ∀ i, b.limb i < 2 ^ 64) (k : Nat) :
    big_cmp_loop a b k =
      if limbsVal a.limb k < limbsVal b.limb k then -1
      else if limbsVal a.limb k > limbsVal b.limb k then 1 else 0 := by
  induction k with
  | zero => simp [big_cmp_loop, limbsVal]
  | succ k ih =>
    simp only [big_cmp_loop, limbsVal]
    have h1 := limbsVal_lt (f := a.limb) k (fun i _ => ha i)
    have h2 := limbsVal_lt (f := b.limb) k (fun i _ => hb i)
    have e1 := cmp_step_lt _ _ (a.limb k) (b.limb k) _ h1 h2
    have e2 := cmp_step_lt _ _ (b.limb k) (a.limb k) _ h2 h1
    rw [ih]
    simp only [gt_iff_lt, e1, e2]
    by_cases hlt : a.limb k < b.limb k
    · simp [hlt]
    · by_cases hgt : b.limb k < a.limb k
      · have : ¬ (a.limb k = b.limb k) := by omega
        simp [hlt, hgt, this]
      · have heq : a.limb k = b.limb k := by omega
        simp [heq]

/-- `big_cmp` orders well-formed values by the numbers they represent. -/
theorem big_cmp_spec {a b : Big512} (ha : a.WF) (hb : b.WF) :
    big_cmp a b = if a.val < b.val then -1 else if a.val > b.val then 1 else 0 :=
  big_cmp_loop_spec a b ha.limb_lt hb.limb_lt 8

theorem big_cmp_ge_iff {a b : Big512} (ha : a.WF) (hb : b.WF) :
    big_cmp a b ≥ 0 ↔ b.val ≤ a.val := by
  rw [big_cmp_spec ha hb]
  split_ifs <;> omega

theorem big_cmp_eq_zero_iff {a b : Big512} (ha : a.WF) (hb : b.WF) :
    big_cmp a b = 0 ↔ a.val = b.val := by
  rw [big_cmp_spec ha hb]
  split_ifs <;> simp <;> omega

/-! ## `big_sub` -/

theorem big_sub_loop_inv (res a b : Big512) (ha : ∀ i, a.limb i < 2 ^ 64)
    (hb : ∀ i, b.limb i < 2 ^ 64) (k : Nat) (hk : k ≤ res.v.length) :
    (big_sub_loop res a b k).1.v.length = res.v.length ∧
    (∀ j, j < k → (big_sub_loop res a b k).1.limb j < 2 ^ 64) ∧
    (∀ j, k ≤ j → (big_sub_loop res a b k).1.limb j = res.limb j) ∧
    (big_sub_loop res a b k).2 ≤ 1 ∧
    limbsVal (big_sub_loop res a b k).1.limb k + limbsVal b.limb k
      = limbsVal a.limb k + (big_sub_loop res a b k).2 * 2 ^ (64 * k) := by
  induction k with
  | zero => simp [big_sub_loop, limbsVal]
  | succ k ih =>
    obtain ⟨hlen, hlo, hhi, hc, hval⟩ := ih (Nat.le_of_succ_le hk)
    simp only [big_sub_loop]
    rcases hst : big_sub_loop res a b k with ⟨r1, c⟩
    rw [hst] at hlen hlo hhi hc hval
    simp only at hlen hlo hhi hc hval ⊢
    have hak := ha k
    have hbk := hb k
    have hklen : k < r1.v.length := by omega
    refine ⟨by rw [Big512.length_set, hlen], ?_, ?_, ?_, ?_⟩
    · intro j hj
      rw [Big512.limb_set]
      split_ifs with h
      · exact Nat.mod_lt _ (by norm_num)
      · exact hlo j (by
          rcases Nat.lt_succ_iff_lt_or_eq.mp hj with h1 | h1
          · exact h1
          · exact absurd ⟨h1.symm, hklen⟩ h)
    · intro j hj
      rw [Big512.limb_set]
      have : ¬ (k = j ∧ k < r1.v.length) := by omega
      rw [if_neg this]
      exact hhi j (by omega)
    · omega
    · simp only [limbsVal]
      rw [limbsVal_congr (f := (r1.set k _).limb) (g := r1.limb) k (by
        intro i hi
        rw [Big512.limb_set]
        have : ¬ (k = i ∧ k < r1.v.length) := by omega
        rw [if_neg this])]
      rw [Big512.limb_set, if_pos ⟨rfl, hklen⟩]
      have h3 : 2 ^ (64 * (k + 1)) = 2 ^ 64 * 2 ^ (64 * k) := by
        rw [← pow_add]; congr 1; ring
      rw [h3]
      generalize limbsVal r1.limb k = R at *
      generalize limbsVal a.limb k = A at *
      generalize limbsVal b.limb k = B at *
      generalize 2 ^ (64 * k) = P at *
      generalize a.limb k = x at *
      generalize b.limb k = y at *
      -- the limb-level borrow step
      have key : ∀ t, t = ((x + 2 ^ 128 - y % 2 ^ 128) % 2 ^ 128 + 2 ^ 128 - c % 2 ^ 128) % 2 ^ 128 →
          t % 2 ^ 64 + y + c = x + (t / 2 ^ 64 % 2) * 2 ^ 64 := by
        intro t ht
        omega
      have := key _ rfl
      generalize ((x + 2 ^ 128 - y % 2 ^ 128) % 2 ^ 128 + 2 ^ 128 - c % 2 ^ 128) % 2 ^ 128 = t at *
      generalize t % 2 ^ 64 = lo at *
      generalize t / 2 ^ 64 % 2 = c1 at *
      have e1 : (lo + y + c) * P = (x + c1 * 2 ^ 64) * P := by rw [this]
      have e2 : (lo + y + c) * P = lo * P + y * P + c * P := by ring
      have e3 : (x + c1 * 2 ^ 64) * P = x * P + c1 * (2 ^ 64 * P) := by ring
      omega

theorem big_sub_wf {a b : Big512} (ha : a.WF) (hb : b.WF) : (big_sub a b).WF := by
  obtain ⟨hlen, hlo, -, -, -⟩ :=
    big_sub_loop_inv a a b ha.limb_lt hb.limb_lt 8 (by rw [ha.1])
  exact Big512.wf_of_limbs (by rw [big_sub, hlen, ha.1]) (fun i hi => hlo i hi)

/-- `big_sub` computes the difference modulo `2^512`. -/
theorem big_sub_val_add {a b : Big512} (ha : a.WF) (hb : b.WF) :
    ∃ c, c ≤ 1 ∧ (big_sub a b).val + b.val = a.val + c * 2 ^ 512 := by
  obtain ⟨-, -, -, hc, hval⟩ :=
    big_sub_loop_inv a a b ha.limb_lt hb.limb_lt 8 (by rw [ha.1])
  exact ⟨_, hc, hval⟩

/-- Under its precondition `a ≥ b`, `big_sub` computes the exact difference. -/
theorem big_sub_val {a b : Big512} (ha : a.WF) (hb : b.WF) (h : b.val ≤ a.val) :
    (big_sub a b).val = a.val - b.val := by
  obtain ⟨c, hc, hv⟩ := big_sub_val_add ha hb
  have h1 := Big512.val_lt (big_sub_wf ha hb)
  have h2 := Big512.val_lt ha
  have h3 := Big512.val_lt hb
  rcases Nat.le_one_iff_eq_zero_or_eq_one.mp hc with rfl | rfl <;> omega

/-! ## `big_even` and `big_rshift1` -/

theorem limbsVal_mod_two (f : Nat → Nat) (k : Nat) :
    limbsVal f (k + 1) % 2 = f 0 % 2 := by
  induction k with
  | zero => simp [limbsVal]
  | succ k ih =>
    rw [limbsVal]
    have h : 2 ^ (64 * (k + 1)) = 2 * 2 ^ (64 * k + 63) := by
      rw [← pow_succ']; congr 1
    rw [h, ← Nat.mul_assoc, Nat.mul_comm (f (k + 1)) 2, Nat.mul_assoc, Nat.add_mul_mod_self_left]
    exact ih

theorem Big512.val_mod_two (x : Big512) : x.val % 2 = x.limb 0 % 2 :=
  limbsVal_mod_two x.limb 7

theorem big_even_iff (x : Big512) : big_even x = true ↔ x.val % 2 = 0 := by
  simp [big_even, Nat.and_one_is_mod, Big512.val_mod_two]

theorem lor_high_bit (a c : Nat) (ha : a < 2 ^ 63) (hc : c ≤ 1) :
    a ||| (c * 2 ^ 63 % 2 ^ 64) = a + c * 2 ^ 63 := by
  rcases Nat.le_one_iff_eq_zero_or_eq_one.mp hc with rfl | rfl
  · simp
  · have h : (1 * 2 ^ 63 % 2 ^ 64 : Nat) = 2 ^ 63 := by norm_num
    rw [h, Nat.one_mul, Nat.lor_comm, Nat.add_comm]
    apply Nat.eq_of_testBit_eq
    intro i
    rw [Nat.testBit_lor, Nat.testBit_two_pow]
    by_cases hi : i < 63
    · have h1 : (63 = i) = False := by simp; omega
      rw [Nat.testBit_two_pow_add_gt hi]
      simp [h1]
    · by_cases hi2 : i = 63
      · subst hi2
        rw [Nat.testBit_two_pow_add_eq]
        simp [Nat.testBit_lt_two_pow ha]
      · have hlt : 2 ^ 63 + a < 2 ^ i := by
          have : 2 ^ 64 ≤ 2 ^ i := Nat.pow_le_pow_right (by norm_num) (by omega)
          omega
        have hlt2 : a < 2 ^ i := by omega
        have h1 : (63 = i) = False := by simp; omega
        rw [Nat.testBit_lt_two_pow hlt, Nat.testBit_lt_two_pow hlt2]
        simp [h1]

/-- Limbs of the result of the loop of `big_rshift1`. -/
theorem big_rshift1_loop_limb (k : Nat) (x : Big512) (carry : Nat) (hk : k ≤ x.v.length)
    (j : Nat) :
    (big_rshift1_loop k x carry).v.length = x.v.length ∧
    (big_rshift1_loop k x carry).limb j =
      if j < k then
        (x.limb j / 2) ||| ((if j + 1 = k then carry else x.limb (j + 1) &&& 1) * 2 ^ 63 % 2 ^ 64)
      else x.limb j := by
  induction k generalizing x carry with
  | zero => simp [big_rshift1_loop]
  | succ k ih =>
    simp only [big_rshift1_loop]
    have hk2 : k < x.v.length := hk
    obtain ⟨h1, h2⟩ := ih (x.set k ((x.limb k / 2) ||| (carry * 2 ^ 63 % 2 ^ 64)))
      (x.limb k &&& 1) (by rw [Big512.length_set]; omega)
    refine ⟨by rw [h1, Big512.length_set], ?_⟩
    rw [h2]
    by_cases hj : j < k
    · have hne : ¬ (k = j ∧ k < x.v.length) := by omega
      have hne2 : ¬ (k = j + 1 ∧ k < x.v.length) ↔ ¬ (j + 1 = k) := by
        constructor
        · intro h h3; exact h ⟨h3.symm, hk2⟩
        · intro h h3; exact h h3.1.symm
      have hjk : j < k + 1 := by omega
      have hjk2 : ¬ (j + 1 = k + 1) := by omega
      simp only [hj, hjk, hjk2, if_true, if_false, Big512.limb_set, hne]
      by_cases hjk3 : j + 1 = k
      · have : k = j + 1 ∧ k < x.v.length := ⟨hjk3.symm, hk2⟩
        simp [hjk3]
      · have : ¬ (k = j + 1 ∧ k < x.v.length) := hne2.mpr hjk3
        simp [hjk3, this]
    · by_cases hjk : j = k
      · subst hjk
        simp [Big512.limb_set, hk2]
      · have h3 : ¬ (j < k + 1) := by omega
        have hne : ¬ (k = j ∧ k < x.v.length) := by omega
        simp [hj, h3, Big512.limb_set, hne]

theorem big_rshift1_limb {x : Big512} (hx : x.WF) (j : Nat) (hj : j < 8) :
    (big_rshift1 x).limb j = x.limb j / 2 + (x.limb (j + 1) % 2) * 2 ^ 63 := by
  have h := (big_rshift1_loop_limb 8 x 0 (by rw [hx.1]) j).2
  rw [big_rshift1, h, if_pos hj]
  have hlt : x.limb j / 2 < 2 ^ 63 := by
    have := hx.limb_lt j
    omega
  by_cases h7 : j + 1 = 8
  · have h8 : x.limb (j + 1) = 0 := by
      rw [h7]
      simp [Big512.limb, List.getD_eq_getElem?_getD, List.getElem?_eq_none, hx.1]
    rw [if_pos h7, h8]
    simp
  · rw [if_neg h7, Nat.and_one_is_mod]
    exact lor_high_bit _ _ hlt (by omega)

theorem big_rshift1_wf {x : Big512} (hx : x.WF) : (big_rshift1 x).WF := by
  apply Big512.wf_of_limbs
  · rw [big_rshift1, (big_rshift1_loop_limb 8 x 0 (by rw [hx.1]) 0).1, hx.1]
  · intro i hi
    rw [big_rshift1_limb hx i hi]
    have := hx.limb_lt i
    omega

theorem limbsVal_shift (f : Nat → Nat) (k : Nat) :
    2 * limbsVal (fun j => f j / 2 + (f (j + 1) % 2) * 2 ^ 63) k + f 0 % 2
      = limbsVal f k + (f k % 2) * 2 ^ (64 * k) := by
  induction k with
  | zero => simp [limbsVal]
  | succ k ih =>
    simp only [limbsVal]
    have h3 : 2 ^ (64 * (k + 1)) = 2 ^ 64 * 2 ^ (64 * k) := by
      rw [← pow_add]; congr 1; ring
    rw [h3]
    have e1 : 2 * (limbsVal (fun j => f j / 2 + (f (j + 1) % 2) * 2 ^ 63) k
        + (f k / 2 + (f (k + 1) % 2) * 2 ^ 63) * 2 ^ (64 * k))
        = 2 * limbsVal (fun j => f j / 2 + (f (j + 1) % 2) * 2 ^ 63) k
          + (2 * (f k / 2)) * 2 ^ (64 * k) + (f (k + 1) % 2) * (2 ^ 64 * 2 ^ (64 * k)) := by ring
    have e2 : f k * 2 ^ (64 * k) = (2 * (f k / 2)) * 2 ^ (64 * k) + (f k % 2) * 2 ^ (64 * k) := by
      rw [← Nat.add_mul, Nat.div_add_mod]
    omega

/-- `big_rshift1` halves the represented number. -/
theorem big_rshift1_val {x : Big512} (hx : x.WF) : (big_rshift1 x).val = x.val / 2 := by
  have h := limbsVal_shift x.limb 8
  have h8 : x.limb 8 = 0 := by
    simp [Big512.limb, List.getD_eq_getElem?_getD, List.getElem?_eq_none, hx.1]
  rw [h8] at h
  have hc : (big_rshift1 x).val = limbsVal (fun j => x.limb j / 2 + (x.limb (j + 1) % 2) * 2 ^ 63) 8 :=
    limbsVal_congr 8 (fun i hi => big_rshift1_limb hx i hi)
  rw [hc]
  have : x.val = limbsVal x.limb 8 := rfl
  omega

/-! ## The schoolbook product of `big_mulmod` -/

theorem limbsVal_update (f g : Nat → Nat) (p w k : Nat) (hp : p < k)
    (hg : ∀ j, g j = if p = j then w else f j) :
    limbsVal g k + f p * 2 ^ (64 * p) = limbsVal f k + w * 2 ^ (64 * p) := by
  induction k with
  | zero => omega
  | succ k ih =>
    simp only [limbsVal]
    by_cases hpk : p = k
    · subst hpk
      rw [limbsVal_congr (f := g) (g := f) p (by
        intro i hi
        rw [hg i, if_neg (by omega)])]
      rw [hg p, if_pos rfl]
      omega
    · have := ih (by omega)
      rw [hg k, if_neg hpk]
      omega

theorem limbsVal_set (l : List Nat) (p w k : Nat) (hp : p < k) (hl : p < l.length) :
    limbsVal (fun j => (l.set p w).getD j 0) k + l.getD p 0 * 2 ^ (64 * p)
      = limbsVal (fun j => l.getD j 0) k + w * 2 ^ (64 * p) :=
  limbsVal_update (fun j => l.getD j 0) _ p w k hp (by
    intro j
    show (l.set p w).getD j 0 = if p = j then w else l.getD j 0
    rw [getD_set_list]
    by_cases h : p = j
    · subst h
      rw [if_pos ⟨rfl, hl⟩, if_pos rfl]
    · rw [if_neg (fun hh => h hh.1), if_neg h])

theorem limbsVal_mod_low (f : Nat → Nat) (m k : Nat) (h : ∀ i, i < m → f i < 2 ^ 64) :
    limbsVal f (m + k) % 2 ^ (64 * m) = limbsVal f m := by
  induction k with
  | zero => exact Nat.mod_eq_of_lt (limbsVal_lt m h)
  | succ k ih =>
    rw [← Nat.add_assoc, limbsVal]
    have h3 : 2 ^ (64 * (m + k)) = 2 ^ (64 * m) * 2 ^ (64 * k) := by
      rw [← pow_add]; congr 1; ring
    rw [h3, ← Nat.mul_assoc, Nat.mul_comm (f (m + k)), Nat.mul_assoc, Nat.add_mul_mod_self_left]
    exact ih

theorem mul_step_arith (x p q c : Nat) (hx : x < 2 ^ 64) (hp : p < 2 ^ 64) (hq : q < 2 ^ 64)
    (hc : c < 2 ^ 64) :
    (x + (p * q) % 2 ^ 128 + c) % 2 ^ 128 = x + p * q + c ∧ (x + p * q + c) / 2 ^ 64 < 2 ^ 64 := by
  have h1 : p * q ≤ (2 ^ 64 - 1) * (2 ^ 64 - 1) :=
    Nat.mul_le_mul (by omega) (by omega)
  have h2 : p * q < 2 ^ 128 := by
    have : (2 ^ 64 - 1) * (2 ^ 64 - 1) < 2 ^ 128 := by norm_num
    omega
  have h3 : ((2 : Nat) ^ 64 - 1) * (2 ^ 64 - 1) = 2 ^ 128 - 2 * 2 ^ 64 + 1 := by norm_num
  rw [Nat.mod_eq_of_lt h2]
  constructor
  · apply Nat.mod_eq_of_lt
    omega
  · omega

/-- Invariant of the inner multiplication loop. -/
theorem mul_inner_inv (a b : Big512) (ha : ∀ i, a.limb i < 2 ^ 64) (hb : ∀ i, b.limb i < 2 ^ 64)
    (i : Nat) (tmp : List Nat) (htmp : ∀ p, tmp.getD p 0 < 2 ^ 64) (j : Nat)
    (hj : i + j ≤ tmp.length) :
    (mul_inner a b i tmp j).1.length = tmp.length ∧
    (∀ p, (mul_inner a b i tmp j).1.getD p 0 < 2 ^ 64) ∧
    (∀ p, i + j ≤ p → (mul_inner a b i tmp j).1.getD p 0 = tmp.getD p 0) ∧
    (mul_inner a b i tmp j).2 < 2 ^ 64 ∧
    limbsVal (fun p => (mul_inner a b i tmp j).1.getD p 0) tmp.length
        + (mul_inner a b i tmp j).2 * 2 ^ (64 * (i + j))
      = limbsVal (fun p => tmp.getD p 0) tmp.length
        + a.limb i * limbsVal b.limb j * 2 ^ (64 * i) := by
  induction j with
  | zero =>
    refine ⟨rfl, htmp, fun p _ => rfl, by show (0 : Nat) < 2 ^ 64; norm_num, ?_⟩
    show limbsVal (fun p => tmp.getD p 0) tmp.length + 0 * _ = _ + _ * 0 * _
    omega
  | succ j ih =>
    obtain ⟨hlen, hbd, hhi, hc, hval⟩ := ih (by omega)
    simp only [mul_inner]
    rcases hst : mul_inner a b i tmp j with ⟨t1, c⟩
    rw [hst] at hlen hbd hhi hc hval
    simp only at hlen hbd hhi hc hval ⊢
    obtain ⟨ht, hcarry⟩ := mul_step_arith (t1.getD (i + j) 0) (a.limb i) (b.limb j) c
      (hbd _) (ha i) (hb j) hc
    rw [ht]
    have hpos : i + j < t1.length := by omega
    refine ⟨by rw [List.length_set, hlen], ?_, ?_, hcarry, ?_⟩
    · intro p
      rw [getD_set_list]
      split_ifs
      · exact Nat.mod_lt _ (by norm_num)
      · exact hbd p
    · intro p hp
      rw [getD_set_list, if_neg (by omega)]
      exact hhi p (by omega)
    · have hset := limbsVal_set t1 (i + j) ((t1.getD (i + j) 0 + a.limb i * b.limb j + c) % 2 ^ 64)
        tmp.length (by omega) hpos
      simp only [limbsVal]
      have e1 : 2 ^ (64 * (i + (j + 1))) = 2 ^ 64 * 2 ^ (64 * (i + j)) := by
        rw [← pow_add]; congr 1; ring
      have e2 : a.limb i * (limbsVal b.limb j + b.limb j * 2 ^ (64 * j)) * 2 ^ (64 * i)
          = a.limb i * limbsVal b.limb j * 2 ^ (64 * i)
            + (a.limb i * b.limb j) * 2 ^ (64 * (i + j)) := by
        have : 2 ^ (64 * (i + j)) = 2 ^ (64 * j) * 2 ^ (64 * i) := by
          rw [← pow_add, Nat.mul_add, Nat.add_comm]
        rw [this]; ring
      rw [e1, e2]
      generalize t1.getD (i + j) 0 = x at *
      generalize a.limb i * b.limb j = pq at *
      generalize 2 ^ (64 * (i + j)) = Q at *
      have e3 : (x + pq + c) * Q = ((x + pq + c) % 2 ^ 64) * Q
          + (x + pq + c) / 2 ^ 64 * (2 ^ 64 * Q) := by
        conv_lhs => rw [← Nat.mod_add_div (x + pq + c) (2 ^ 64)]
        ring
      have e4 : (x + pq + c) * Q = x * Q + pq * Q + c * Q := by ring
      omega

/-- Invariant of the outer multiplication loop: after `i` rows the buffer
holds the product of the low `i` limbs of `a` with `b`. -/
theorem mul_outer_inv (a b : Big512) (ha : ∀ i, a.limb i < 2 ^ 64) (hb : ∀ i, b.limb i < 2 ^ 64)
    (i : Nat) (hi : i ≤ 8) :
    (mul_outer a b i).length = 16 ∧
    (∀ p, (mul_outer a b i).getD p 0 < 2 ^ 64) ∧
    (∀ p, i + 8 ≤ p → (mul_outer a b i).getD p 0 = 0) ∧
    limbsVal (fun p => (mul_outer a b i).getD p 0) 16 = limbsVal a.limb i * limbsVal b.limb 8 := by
  induction i with
  | zero =>
    refine ⟨by simp [mul_outer, LIMBS], ?_, ?_, ?_⟩
    · intro p
      simp [mul_outer, List.getD_eq_getElem?_getD, List.getElem?_replicate]
      split_ifs <;> simp
    · intro p _
      simp [mul_outer, List.getD_eq_getElem?_getD, List.getElem?_replicate]
      split_ifs <;> simp
    · have : ∀ p, (mul_outer a b 0).getD p 0 = 0 := by
        intro p
        simp [mul_outer, List.getD_eq_getElem?_getD, List.getElem?_replicate]
        split_ifs <;> simp
      simp only [limbsVal, this]
      simp
  | succ i ih =>
    obtain ⟨hlen, hbd, hz, hval⟩ := ih (by omega)
    obtain ⟨h1, h2, h3, h4, h5⟩ := mul_inner_inv a b ha hb i (mul_outer a b i) hbd 8
      (by rw [hlen]; omega)
    simp only [mul_outer, LIMBS]
    rcases hst : mul_inner a b i (mul_outer a b i) 8 with ⟨t1, c⟩
    rw [hst] at h1 h2 h3 h4 h5
    simp only at h1 h2 h3 h4 h5 ⊢
    have hz1 : t1.getD (i + 8) 0 = 0 := by rw [h3 _ (le_refl _)]; exact hz _ (le_refl _)
    have hc : (t1.getD (i + 8) 0 + c) % 2 ^ 128 = c := by
      rw [hz1, Nat.zero_add]
      exact Nat.mod_eq_of_lt (by omega)
    rw [hc]
    refine ⟨by rw [List.length_set, h1, hlen], ?_, ?_, ?_⟩
    · intro p
      rw [getD_set_list]
      split_ifs
      · exact h4
      · exact h2 p
    · intro p hp
      rw [getD_set_list, if_neg (by omega), h3 p (by omega)]
      exact hz p (by omega)
    · have hset := limbsVal_set t1 (i + 8) c 16 (by omega) (by rw [h1, hlen]; omega)
      rw [hz1, Nat.zero_mul, Nat.add_zero] at hset
      rw [hset]
      rw [hlen, hval] at h5
      simp only [limbsVal] at h5 ⊢
      have e : (limbsVal a.limb i + a.limb i * 2 ^ (64 * i)) * limbsVal b.limb 8
          = limbsVal a.limb i * limbsVal b.limb 8
            + a.limb i * limbsVal b.limb 8 * 2 ^ (64 * i) := by
        simp only [limbsVal]; ring
      simp only [limbsVal] at e
      rw [e]
      omega

theorem mul_low_limb (a b : Big512) (ha : ∀ i, a.limb i < 2 ^ 64) (hb : ∀ i, b.limb i < 2 ^ 64)
    (i : Nat) (hi : i < 8) : (mul_low a b).limb i = (mul_outer a b 8).getD i 0 := by
  simp only [mul_low, Big512.limb, List.getD_eq_getElem?_getD]
  rw [List.getElem?_map, List.getElem?_range hi]
  simp only [Option.map_some', Option.getD_some]
  have := (mul_outer_inv a b ha hb 8 (le_refl _)).2.1 i
  rw [List.getD_eq_getElem?_getD] at this
  exact Nat.mod_eq_of_lt this

theorem mul_low_wf {a b : Big512} (ha : a.WF) (hb : b.WF) : (mul_low a b).WF := by
  apply Big512.wf_of_limbs
  · simp [mul_low]
  · intro i hi
    rw [mul_low_limb a b ha.limb_lt hb.limb_lt i hi]
    exact (mul_outer_inv a b ha.limb_lt hb.limb_lt 8 (le_refl _)).2.1 i

/-- The value handed to the reduction loop is the product truncated to its
low 512 bits. -/
theorem mul_low_val {a b : Big512} (ha : a.WF) (hb : b.WF) :
    (mul_low a b).val = (a.val * b.val) % 2 ^ 512 := by
  obtain ⟨-, hbd, -, hval⟩ := mul_outer_inv a b ha.limb_lt hb.limb_lt 8 (le_refl _)
  have h1 : (mul_low a b).val = limbsVal (fun p => (mul_outer a b 8).getD p 0) 8 :=
    limbsVal_congr 8 (fun i hi => mul_low_limb a b ha.limb_lt hb.limb_lt i hi)
  have h2 := limbsVal_mod_low (fun p => (mul_outer a b 8).getD p 0) 8 8 (fun i _ => hbd i)
  rw [h1, ← h2]
  show _ = (limbsVal a.limb 8 * limbsVal b.limb 8) % 2 ^ 512
  rw [← hval]

/-! ## `big_mulmod` -/

/-- With enough fuel the reduction loop returns the remainder. -/
theorem reduce_loop_spec {m : Big512} (hm : m.WF) (hpos : 0 < m.val) (fuel : Nat) (r : Big512)
    (hr : r.WF) (hf : r.val / m.val < fuel) :
    reduce_loop m fuel r = some (Big512.ofNat (r.val % m.val)) := by
  induction fuel generalizing r with
  | zero => exact absurd hf (Nat.not_lt_zero _)
  | succ fuel ih =>
    simp only [reduce_loop]
    by_cases hge : big_cmp r m ≥ 0
    · rw [if_pos hge]
      have hle : m.val ≤ r.val := (big_cmp_ge_iff hr hm).mp hge
      have hv := big_sub_val hr hm hle
      rw [ih (big_sub r m) (big_sub_wf hr hm) (by
        have h1 := Nat.sub_mul_div r.val m.val 1 (by omega)
        rw [Nat.mul_one] at h1
        have : 1 ≤ r.val / m.val := (Nat.one_le_div_iff hpos).mpr hle
        rw [hv, h1]
        omega)]
      rw [hv, ← Nat.mod_eq_sub_mod hle]
    · rw [if_neg hge]
      have hlt : r.val < m.val := by
        have := (big_cmp_ge_iff hr hm).not.mp hge
        omega
      rw [Nat.mod_eq_of_lt hlt, Big512.ofNat_val hr]

theorem mulmodN_lt (a b m : Nat) (hm : 0 < m) : mulmodN a b m < m := Nat.mod_lt _ hm

/-- With enough fuel `big_mulmod` returns the 512-bit truncation of the
product, reduced modulo `mod`. -/
theorem big_mulmod_spec {a b m : Big512} (ha : a.WF) (hb : b.WF) (hm : m.WF) (hpos : 0 < m.val)
    (fuel : Nat) (hf : (a.val * b.val % 2 ^ 512) / m.val < fuel) :
    big_mulmod fuel a b m = some (Big512.ofNat (mulmodN a.val b.val m.val)) := by
  unfold big_mulmod
  rw [reduce_loop_spec hm hpos fuel (mul_low a b) (mul_low_wf ha hb)
    (by rw [mul_low_val ha hb]; exact hf), mul_low_val ha hb]
  rfl

theorem div_lt_of_fuel (x m fuel : Nat) (hf : 2 ^ 512 ≤ fuel) : (x % 2 ^ 512) / m < fuel := by
  have h1 : x % 2 ^ 512 < 2 ^ 512 := Nat.mod_lt _ (by norm_num)
  have h2 : (x % 2 ^ 512) / m ≤ x % 2 ^ 512 := Nat.div_le_self _ _
  omega

theorem big_mulmod_spec_full {a b m : Big512} (ha : a.WF) (hb : b.WF) (hm : m.WF)
    (hpos : 0 < m.val) (fuel : Nat) (hf : 2 ^ 512 ≤ fuel) :
    ∃ r, big_mulmod fuel a b m = some r ∧ r.WF ∧ r.val = mulmodN a.val b.val m.val := by
  refine ⟨_, big_mulmod_spec ha hb hm hpos fuel (div_lt_of_fuel _ _ _ hf), Big512.ofNat_wf _, ?_⟩
  rw [Big512.val_ofNat_of_lt]
  exact lt_trans (mulmodN_lt _ _ _ hpos) (Big512.val_lt hm)

/-! ## `big_powmod` -/

theorem big_one_wf : big_one.WF := by decide

theorem big_one_val : big_one.val = 1 := by decide

theorem big_zero_wf : big_zero.WF := by decide

theorem big_zero_val : big_zero.val = 0 := by decide

/-- The bit test of `big_powmod` reads bit `i` of the exponent. -/
theorem exp_bit_iff {e : Big512} (he : e.WF) (i : Nat) (hi : i < 512) :
    e.limb (i / 64) &&& 2 ^ (i % 64) ≠ 0 ↔ e.val.testBit i = true := by
  rw [Nat.and_two_pow]
  have hpos : 0 < 2 ^ (i % 64) := Nat.pow_pos (by norm_num)
  have h1 : (e.limb (i / 64)).testBit (i % 64) = e.val.testBit i := by
    rw [Big512.limb_eq_digit he (i / 64) (by omega), Nat.testBit_mod_two_pow,
      ← Nat.shiftRight_eq_div_pow, Nat.testBit_shiftRight]
    have h2 : 64 * (i / 64) + i % 64 = i := Nat.div_add_mod i 64
    have h3 : i % 64 < 64 := Nat.mod_lt _ (by norm_num)
    simp [h2, h3]
  rw [h1]
  cases h : e.val.testBit i
  · simp
  · simp

theorem big_powmod_loop_spec {base e m : Big512} (hbase : base.WF) (he : e.WF) (hm : m.WF)
    (hpos : 0 < m.val) (fuel : Nat) (hf : 2 ^ 512 ≤ fuel) (i : Nat) (hi : i ≤ 512) :
    ∃ result b, big_powmod_loop fuel base e m i = some (result, b) ∧ result.WF ∧ b.WF ∧
      result.val = (powmodN_loop base.val e.val m.val i).1 ∧
      b.val = (powmodN_loop base.val e.val m.val i).2 := by
  induction i with
  | zero => exact ⟨big_one, base, rfl, big_one_wf, hbase, big_one_val, rfl⟩
  | succ i ih =>
    obtain ⟨result, b, hst, hrw, hbw, hrv, hbv⟩ := ih (by omega)
    simp only [big_powmod_loop, powmodN_loop, hst]
    rcases hN : powmodN_loop base.val e.val m.val i with ⟨rN, bN⟩
    rw [hN] at hrv hbv
    simp only at hrv hbv ⊢
    obtain ⟨b1, hb1, hb1w, hb1v⟩ := big_mulmod_spec_full hbw hbw hm hpos fuel hf
    by_cases hbit : e.val.testBit i = true
    · obtain ⟨r1, hr1, hr1w, hr1v⟩ := big_mulmod_spec_full hrw hbw hm hpos fuel hf
      rw [if_pos ((exp_bit_iff he i (by omega)).mpr hbit), hr1]
      simp only [hb1]
      exact ⟨r1, b1, rfl, hr1w, hb1w, by rw [hr1v, hrv, hbv, if_pos hbit],
        by rw [hb1v, hbv]⟩
    · rw [if_neg (fun h => hbit ((exp_bit_iff he i (by omega)).mp h))]
      simp only [hb1]
      exact ⟨result, b1, rfl, hrw, hb1w, by rw [hrv, if_neg hbit], by rw [hb1v, hbv]⟩

/-- With enough fuel `big_powmod` returns the number `powmodN` computes. -/
theorem big_powmod_spec {base e m : Big512} (hbase : base.WF) (he : e.WF) (hm : m.WF)
    (hpos : 0 < m.val) (fuel : Nat) (hf : 2 ^ 512 ≤ fuel) :
    ∃ r, big_powmod fuel base e m = some r ∧ r.WF ∧
      r.val = powmodN base.val e.val m.val := by
  obtain ⟨result, b, hst, hrw, -, hrv, -⟩ :=
    big_powmod_loop_spec hbase he hm hpos fuel hf 512 (le_refl _)
  refine ⟨result, ?_, hrw, hrv⟩
  unfold big_powmod big_copy
  show Option.map _ (big_powmod_loop fuel base e m 512) = _
  rw [hst]
  rfl

/-! ## `big_rand` and the witness of a round -/

theorem big_rand_limb_lt (rand : Nat → Nat) (pos : Nat) : big_rand_limb rand pos < 2 ^ 64 := by
  unfold big_rand_limb
  exact Nat.xor_lt_two_pow (Nat.mod_lt _ (by norm_num)) (Nat.mod_lt _ (by norm_num))

theorem big_rand_limb_congr (rand rand2 : Nat → Nat) (pos : Nat)
    (h : ∀ j, pos ≤ j → j < pos + 3 → rand2 j = rand j) :
    big_rand_limb rand2 pos = big_rand_limb rand pos := by
  unfold big_rand_limb
  rw [h pos (le_refl _) (by omega), h (pos + 1) (by omega) (by omega),
    h (pos + 2) (by omega) (by omega)]

theorem big_rand_loop_inv (rand : Nat → Nat) (pos : Nat) (x : Big512) (k : Nat)
    (hk : k ≤ x.v.length) :
    (big_rand_loop rand pos x k).v.length = x.v.length ∧
    ∀ j, (big_rand_loop rand pos x k).limb j =
      if j < k then big_rand_limb rand (pos + 3 * j) else x.limb j := by
  induction k with
  | zero => simp [big_rand_loop]
  | succ k ih =>
    obtain ⟨h1, h2⟩ := ih (by omega)
    simp only [big_rand_loop]
    refine ⟨by rw [Big512.length_set, h1], ?_⟩
    intro j
    rw [Big512.limb_set, h1, h2]
    by_cases hj : k = j
    · subst hj
      have : k < x.v.length := hk
      simp [this]
    · have : ¬ (k = j ∧ k < x.v.length) := fun h => hj h.1
      rw [if_neg this]
      by_cases hj2 : j < k
      · simp [hj2, Nat.lt_succ_of_lt hj2]
      · have : ¬ (j < k + 1) := by omega
        simp [hj2, this]

theorem big_rand_loop_congr (rand rand2 : Nat → Nat) (pos : Nat) (x : Big512) (k : Nat)
    (h : ∀ j, pos ≤ j → j < pos + 3 * k → rand2 j = rand j) :
    big_rand_loop rand2 pos x k = big_rand_loop rand pos x k := by
  induction k with
  | zero => rfl
  | succ k ih =>
    simp only [big_rand_loop]
    rw [ih (fun j h1 h2 => h j h1 (by omega)),
      big_rand_limb_congr rand rand2 (pos + 3 * k) (fun j h1 h2 => h j (by omega) (by omega))]

/-- The value drawn by `big_rand` depends only on the `3 * LIMBS` values of
`rand()` it consumes. -/
theorem big_rand_congr (rand rand2 : Nat → Nat) (pos : Nat)
    (h : ∀ j, pos ≤ j → j < pos + 24 → rand2 j = rand j) :
    big_rand rand2 pos = big_rand rand pos := by
  unfold big_rand
  rw [big_rand_loop_congr rand rand2 pos big_zero 8 (fun j h1 h2 => h j h1 (by omega))]

theorem big_rand_snd (rand : Nat → Nat) (pos : Nat) : (big_rand rand pos).2 = pos + 24 := rfl

theorem Big512.set_wf {x : Big512} (hx : x.WF) (i : Nat) {w : Nat} (hw : w < 2 ^ 64) :
    (x.set i w).WF := by
  apply Big512.wf_of_limbs
  · rw [Big512.length_set, hx.1]
  · intro j _
    rw [Big512.limb_set]
    split_ifs
    · exact hw
    · exact hx.limb_lt j

theorem big_rand_wf (rand : Nat → Nat) (pos : Nat) : (big_rand rand pos).1.WF := by
  obtain ⟨h1, h2⟩ := big_rand_loop_inv rand pos big_zero 8 (by decide)
  have hx1 : (big_rand_loop rand pos big_zero 8).WF := by
    apply Big512.wf_of_limbs
    · rw [h1]; rfl
    · intro j hj
      rw [h2, if_pos hj]
      exact big_rand_limb_lt _ _
  unfold big_rand
  have hx2 := Big512.set_wf hx1 (LIMBS - 1)
    (Nat.or_lt_two_pow (hx1.limb_lt (LIMBS - 1)) (by norm_num : 2 ^ 63 < 2 ^ 64))
  exact Big512.set_wf hx2 0 (Nat.or_lt_two_pow (hx2.limb_lt 0) (by norm_num : 1 < 2 ^ 64))

theorem draw_witness_snd (nm1 : Big512) (rand : Nat → Nat) (pos : Nat) :
    (draw_witness nm1 rand pos).2 = pos + 24 := rfl

theorem draw_witness_wf {nm1 : Big512} (h : nm1.WF) (rand : Nat → Nat) (pos : Nat) :
    (draw_witness nm1 rand pos).1.WF := by
  have hw := big_rand_wf rand pos
  unfold draw_witness
  rcases hr : big_rand rand pos with ⟨a, p⟩
  rw [hr] at hw
  simp only at hw ⊢
  split_ifs
  · exact big_sub_wf hw h
  · exact hw

theorem draw_witness_congr (nm1 : Big512) (rand rand2 : Nat → Nat) (pos : Nat)
    (h : ∀ j, pos ≤ j → j < pos + 24 → rand2 j = rand j) :
    draw_witness nm1 rand2 pos = draw_witness nm1 rand pos := by
  unfold draw_witness
  rw [big_rand_congr rand rand2 pos h]

/-! ## The decomposition `n - 1 = d * 2^s` -/

theorem decompose_loop_spec (fuel : Nat) (d : Big512) (s : Nat) (hd : d.WF) (hpos : 0 < d.val)
    (hlt : d.val < 2 ^ fuel) :
    ∃ d1 s1, decompose_loop fuel d s = some (d1, s1) ∧ d1.WF ∧ d1.val % 2 = 1 ∧ s ≤ s1 ∧
      d.val = d1.val * 2 ^ (s1 - s) := by
  induction fuel generalizing d s with
  | zero => simp at hlt; omega
  | succ fuel ih =>
    simp only [decompose_loop]
    by_cases he : big_even d = true
    · rw [if_pos he]
      have hev : d.val % 2 = 0 := (big_even_iff d).mp he
      have hv := big_rshift1_val hd
      obtain ⟨d1, s1, h1, h2, h3, h4, h5⟩ := ih (big_rshift1 d) (s + 1) (big_rshift1_wf hd)
        (by rw [hv]; omega) (by rw [hv]; rw [pow_succ] at hlt; omega)
      refine ⟨d1, s1, h1, h2, h3, by omega, ?_⟩
      have e : s1 - s = (s1 - (s + 1)) + 1 := by omega
      rw [e, pow_succ, ← Nat.mul_assoc, ← h5, hv]
      omega
    · rw [if_neg he]
      refine ⟨d, s, rfl, hd, ?_, le_refl _, by simp⟩
      have := (big_even_iff d).not.mp he
      omega

theorem n_minus1_wf {n : Big512} (hn : n.WF) : (big_sub (big_copy n) big_one).WF :=
  big_sub_wf hn big_one_wf

theorem n_minus1_val {n : Big512} (hn : n.WF) (h1 : 1 ≤ n.val) :
    (big_sub (big_copy n) big_one).val = n.val - 1 := by
  have := big_sub_val hn big_one_wf (by rw [big_one_val]; exact h1)
  rw [big_one_val] at this
  exact this

theorem decompose_spec {n : Big512} (hn : n.WF) (hodd : n.val % 2 = 1) (h3 : 3 ≤ n.val)
    (fuel : Nat) (hf : 512 ≤ fuel) :
    ∃ d s, decompose fuel n = some (d, s) ∧ d.WF ∧ d.val % 2 = 1 ∧ 1 ≤ s ∧
      n.val - 1 = d.val * 2 ^ s := by
  have hv := n_minus1_val hn (by omega)
  have hlt := Big512.val_lt hn
  have hpow : 2 ^ 512 ≤ 2 ^ fuel := Nat.pow_le_pow_right (by norm_num) hf
  obtain ⟨d, s, h1, h2, h3, -, h5⟩ := decompose_loop_spec fuel (big_sub (big_copy n) big_one) 0
    (n_minus1_wf hn) (by rw [hv]; omega) (by rw [hv]; omega)
  rw [hv, Nat.sub_zero] at h5
  refine ⟨d, s, h1, h2, h3, ?_, h5⟩
  by_contra hs
  have : s = 0 := by omega
  rw [this, pow_zero, Nat.mul_one] at h5
  omega

/-- An odd part and an exponent determine each other. -/
theorem odd_mul_pow_unique (d1 d2 s1 s2 : Nat) (h1 : d1 % 2 = 1) (h2 : d2 % 2 = 1)
    (h : d1 * 2 ^ s1 = d2 * 2 ^ s2) : d1 = d2 ∧ s1 = s2 := by
  induction s1 generalizing s2 with
  | zero =>
    cases s2 with
    | zero => simpa using h
    | succ s2 =>
      rw [pow_zero, Nat.mul_one, pow_succ, ← Nat.mul_assoc] at h
      omega
  | succ s1 ih =>
    cases s2 with
    | zero =>
      rw [pow_zero, Nat.mul_one, pow_succ, ← Nat.mul_assoc] at h
      omega
    | succ s2 =>
      rw [pow_succ, pow_succ, ← Nat.mul_assoc, ← Nat.mul_assoc] at h
      have := ih s2 (by omega)
      omega

theorem decompose_eq {n d : Big512} {s : Nat} (hn : n.WF) (hodd : n.val % 2 = 1)
    (h3 : 3 ≤ n.val) (hd : d.WF) (hdodd : d.val % 2 = 1) (hdec : n.val - 1 = d.val * 2 ^ s)
    (fuel : Nat) (hf : 512 ≤ fuel) : decompose fuel n = some (d, s) := by
  obtain ⟨d1, s1, h1, h2, h3, -, h5⟩ := decompose_spec hn hodd h3 fuel hf
  obtain ⟨e1, e2⟩ := odd_mul_pow_unique d1.val d.val s1 s h3 hdodd (by rw [← h5, hdec])
  rw [h1, Big512.eq_of_val_eq h2 hd e1, e2]

/-! ## The rounds of `miller_rabin` -/

theorem square_chain_shift (fuel : Nat) (n x x1 : Big512) (h : big_mulmod fuel x x n = some x1)
    (r : Nat) : square_chain fuel n x (r + 1) = square_chain fuel n x1 r := by
  induction r with
  | zero => simp [square_chain, h]
  | succ r ih =>
    rw [square_chain, ih]
    rfl

/-- The squaring loop sets `cont` exactly when one of the `k` squarings
reaches `n_minus1`. -/
theorem squaring_loop_spec {n nm1 : Big512} (hn : n.WF) (hpos : 0 < n.val) (hnm1 : nm1.WF)
    (fuel : Nat) (hf : 2 ^ 512 ≤ fuel) (k : Nat) (x : Big512) (hx : x.WF) :
    ∃ c, squaring_loop fuel n nm1 k x = some c ∧ (c = 0 ∨ c = 1) ∧
      (c = 1 ↔ ∃ r, 1 ≤ r ∧ r ≤ k ∧
        ∃ xr, square_chain fuel n x r = some xr ∧ xr.val = nm1.val) := by
  induction k generalizing x with
  | zero =>
    refine ⟨0, rfl, Or.inl rfl, ?_⟩
    constructor
    · intro h; exact absurd h (by norm_num)
    · rintro ⟨r, h1, h2, -⟩; omega
  | succ k ih =>
    obtain ⟨x1, hx1, hx1w, -⟩ := big_mulmod_spec_full hx hx hn hpos fuel hf
    simp only [squaring_loop, hx1]
    by_cases hc : big_cmp x1 nm1 = 0
    · rw [if_pos hc]
      refine ⟨1, rfl, Or.inr rfl, ?_⟩
      constructor
      · intro _
        exact ⟨1, le_refl _, by omega, x1, by simp [square_chain, hx1],
          (big_cmp_eq_zero_iff hx1w hnm1).mp hc⟩
      · intro _; rfl
    · rw [if_neg hc]
      obtain ⟨c, h1, h2, h3⟩ := ih x1 hx1w
      refine ⟨c, h1, h2, ?_⟩
      rw [h3]
      constructor
      · rintro ⟨r, hr1, hr2, xr, hxr, hv⟩
        exact ⟨r + 1, by omega, by omega, xr,
          by rw [square_chain_shift fuel n x x1 hx1]; exact hxr, hv⟩
      · rintro ⟨r, hr1, hr2, xr, hxr, hv⟩
        cases r with
        | zero => omega
        | succ r =>
          rw [square_chain_shift fuel n x x1 hx1] at hxr
          cases r with
          | zero =>
            simp only [square_chain, Option.some.injEq] at hxr
            subst hxr
            exact absurd ((big_cmp_eq_zero_iff hx1w hnm1).mpr hv) hc
          | succ r => exact ⟨r + 1, by omega, by omega, xr, hxr, hv⟩

theorem rounds_loop_succ (fuel : Nat) (n n_minus1 d one : Big512) (s : Nat) (rand : Nat → Nat)
    (k pos : Nat) :
    rounds_loop fuel n n_minus1 d one s rand (k + 1) pos =
      match draw_witness n_minus1 rand pos with
      | (a, pos1) =>
        match big_powmod fuel a d n with
        | none => none
        | some x =>
          if big_cmp x one = 0 ∨ big_cmp x n_minus1 = 0 then
            rounds_loop fuel n n_minus1 d one s rand k pos1
          else
            match squaring_loop fuel n n_minus1 (s - 1) x with
            | none => none
            | some cont =>
              if cont = 0 then some (0, pos1)
              else rounds_loop fuel n n_minus1 d one s rand k pos1 := rfl

/-- One round of the code passes (the loop goes on) exactly when the round
passes in the sense of `round_passes`; otherwise the verdict is 0 at once. -/
theorem rounds_loop_step {n d : Big512} (hn : n.WF) (h1 : 1 ≤ n.val) (hd : d.WF)
    (fuel : Nat) (hf : 2 ^ 512 ≤ fuel) (s : Nat) (rand : Nat → Nat) (k pos : Nat) :
    (round_passes fuel n d s (draw_witness (big_sub (big_copy n) big_one) rand pos).1 ∧
      rounds_loop fuel n (big_sub (big_copy n) big_one) d big_one s rand (k + 1) pos
        = rounds_loop fuel n (big_sub (big_copy n) big_one) d big_one s rand k (pos + 24)) ∨
    (¬ round_passes fuel n d s (draw_witness (big_sub (big_copy n) big_one) rand pos).1 ∧
      rounds_loop fuel n (big_sub (big_copy n) big_one) d big_one s rand (k + 1) pos
        = some (0, pos + 24)) := by
  have hnm1 := n_minus1_wf hn
  have hnv := n_minus1_val hn h1
  have haw := draw_witness_wf hnm1 rand pos
  have hsnd := draw_witness_snd (big_sub (big_copy n) big_one) rand pos
  rw [rounds_loop_succ]
  rcases hdw : draw_witness (big_sub (big_copy n) big_one) rand pos with ⟨a, p1⟩
  rw [hdw] at haw hsnd
  simp only at haw hsnd ⊢
  subst hsnd
  obtain ⟨x, hx, hxw, -⟩ := big_powmod_spec haw hd hn (by omega) fuel hf
  obtain ⟨c, hc, hc01, hciff⟩ := squaring_loop_spec hn (by omega) hnm1 fuel hf (s - 1) x hxw
  simp only [hx, hc]
  have e1 : big_cmp x big_one = 0 ↔ x.val = 1 := by
    rw [big_cmp_eq_zero_iff hxw big_one_wf, big_one_val]
  have e2 : big_cmp x (big_sub (big_copy n) big_one) = 0 ↔ x.val = n.val - 1 := by
    rw [big_cmp_eq_zero_iff hxw hnm1, hnv]
  simp only [e1, e2]
  by_cases hp : x.val = 1 ∨ x.val = n.val - 1
  · left
    rw [if_pos hp]
    exact ⟨⟨x, hx, hp.elim Or.inl (fun h => Or.inr (Or.inl h))⟩, rfl⟩
  · rw [if_neg hp]
    rcases hc01 with rfl | rfl
    · right
      refine ⟨?_, by simp⟩
      rintro ⟨x0, hx0, hcase⟩
      rw [hx] at hx0
      cases hx0
      rcases hcase with h | h | h
      · exact hp (Or.inl h)
      · exact hp (Or.inr h)
      · rw [← hnv] at h
        exact absurd (hciff.mpr h) (by norm_num)
    · left
      refine ⟨⟨x, hx, Or.inr (Or.inr ?_)⟩, by simp⟩
      rw [← hnv]
      exact hciff.mp rfl

/-- The round loop returns 1 exactly when each of its `k` rounds passes. -/
theorem rounds_loop_spec {n d : Big512} (hn : n.WF) (h1 : 1 ≤ n.val) (hd : d.WF)
    (fuel : Nat) (hf : 2 ^ 512 ≤ fuel) (s : Nat) (rand : Nat → Nat) (k pos : Nat) :
    ∃ v p, rounds_loop fuel n (big_sub (big_copy n) big_one) d big_one s rand k pos = some (v, p) ∧
      (v = 0 ∨ v = 1) ∧
      (v = 1 ↔ ∀ i, i < k → round_passes fuel n d s (round_base n rand pos i)) := by
  induction k generalizing pos with
  | zero => exact ⟨1, pos, rfl, Or.inr rfl, by simp⟩
  | succ k ih =>
    have hb0 : round_base n rand pos 0
        = (draw_witness (big_sub (big_copy n) big_one) rand pos).1 := by
      simp [round_base]
    have hbs : ∀ i, round_base n rand pos (i + 1) = round_base n rand (pos + 24) i := by
      intro i
      simp only [round_base]
      congr 2
      ring
    rcases rounds_loop_step hn h1 hd fuel hf s rand k pos with ⟨hp, he⟩ | ⟨hp, he⟩
    · obtain ⟨v, p, h2, h3, h4⟩ := ih (pos + 24)
      refine ⟨v, p, by rw [he, h2], h3, ?_⟩
      rw [h4]
      constructor
      · intro h i hi
        cases i with
        | zero => rw [hb0]; exact hp
        | succ i => rw [hbs]; exact h i (by omega)
      · intro h i hi
        rw [← hbs]
        exact h (i + 1) (by omega)
    · refine ⟨0, pos + 24, he, Or.inl rfl, ?_⟩
      constructor
      · intro h; exact absurd h (by norm_num)
      · intro h
        exact absurd (hb0 ▸ h 0 (by omega)) hp

/-- Short-circuit of the round loop: once round `i` fails the verdict is 0, no
value of `rand()` after round `i` is drawn, and a stream that agrees on the
values drawn so far gives the same run. -/
theorem rounds_loop_short_circuit {n d : Big512} (hn : n.WF) (h1 : 1 ≤ n.val) (hd : d.WF)
    (fuel : Nat) (hf : 2 ^ 512 ≤ fuel) (s : Nat) (rand rand2 : Nat → Nat) (k pos i : Nat)
    (hi : i < k) (hfail : ¬ round_passes fuel n d s (round_base n rand pos i))
    (hagree : ∀ j, pos ≤ j → j < pos + 24 * (i + 1) → rand2 j = rand j) :
    ∃ p, p ≤ pos + 24 * (i + 1) ∧
      rounds_loop fuel n (big_sub (big_copy n) big_one) d big_one s rand k pos = some (0, p) ∧
      rounds_loop fuel n (big_sub (big_copy n) big_one) d big_one s rand2 k pos = some (0, p) := by
  induction k generalizing pos i with
  | zero => omega
  | succ k ih =>
    have hdw := draw_witness_congr (big_sub (big_copy n) big_one) rand rand2 pos
      (fun j h1 h2 => hagree j h1 (by omega))
    have hb0 : round_base n rand pos 0
        = (draw_witness (big_sub (big_copy n) big_one) rand pos).1 := by
      simp [round_base]
    have hbs : ∀ i, round_base n rand pos (i + 1) = round_base n rand (pos + 24) i := by
      intro i
      simp only [round_base]
      congr 2
      ring
    rcases rounds_loop_step hn h1 hd fuel hf s rand k pos with ⟨hp, he⟩ | ⟨hp, he⟩
    · rcases rounds_loop_step hn h1 hd fuel hf s rand2 k pos with ⟨hp2, he2⟩ | ⟨hp2, he2⟩
      · cases i with
        | zero => rw [hb0] at hfail; exact absurd hp hfail
        | succ i =>
          rw [hbs] at hfail
          obtain ⟨p, h2, h3, h4⟩ := ih (pos + 24) i (by omega) hfail
            (fun j h1 h2 => hagree j (by omega) (by omega))
          exact ⟨p, by omega, by rw [he, h3], by rw [he2, h4]⟩
      · rw [hdw] at hp2; exact absurd hp hp2
    · rcases rounds_loop_step hn h1 hd fuel hf s rand2 k pos with ⟨hp2, he2⟩ | ⟨hp2, he2⟩
      · rw [hdw] at hp2; exact absurd hp2 hp
      · exact ⟨pos + 24, by omega, he, he2⟩

theorem limb_zero_odd {n : Big512} (hodd : n.val % 2 = 1) : ¬ (n.limb 0 % 2 = 0) := by
  rw [← Big512.val_mod_two]; omega

/-! ## `miller_rabin` -/

theorem miller_rabin_odd {n : Big512} (hodd : n.val % 2 = 1) (fuel : Nat) (rounds : Int)
    (rand : Nat → Nat) (pos : Nat) :
    miller_rabin fuel n rounds rand pos =
      match decompose fuel n with
      | none => none
      | some (d, s) =>
        rounds_loop fuel n (big_sub (big_copy n) big_one) d big_one s rand rounds.toNat pos := by
  unfold miller_rabin
  exact if_neg (limb_zero_odd hodd)

theorem miller_rabin_eq_rounds {n d : Big512} {s : Nat} (hn : n.WF) (hodd : n.val % 2 = 1)
    (h3 : 3 ≤ n.val) (hd : d.WF) (hdodd : d.val % 2 = 1) (hdec : n.val - 1 = d.val * 2 ^ s)
    (fuel : Nat) (hf : 2 ^ 512 ≤ fuel) (rounds : Int) (rand : Nat → Nat) (pos : Nat) :
    miller_rabin fuel n rounds rand pos =
      rounds_loop fuel n (big_sub (big_copy n) big_one) d big_one s rand rounds.toNat pos := by
  have h512 : 512 ≤ fuel := le_trans (by norm_num) hf
  rw [miller_rabin_odd hodd, decompose_eq hn hodd h3 hd hdodd hdec fuel h512]

theorem powmod_eval {base e m : Big512} (hb : base.WF) (he : e.WF) (hm : m.WF)
    (hpos : 0 < m.val) {r : Nat} (hr : powmodN base.val e.val m.val = r) :
    big_powmod (2 ^ 512) base e m = some (Big512.ofNat r) := by
  obtain ⟨x, hx, hxw, hxv⟩ := big_powmod_spec hb he hm hpos (2 ^ 512) (le_refl _)
  rw [hx, Big512.eq_ofNat_of_val hxw (hxv.trans hr)]

theorem mulmod_eval {a b m : Big512} (ha : a.WF) (hb : b.WF) (hm : m.WF)
    (hpos : 0 < m.val) {r : Nat} (hr : mulmodN a.val b.val m.val = r) :
    big_mulmod (2 ^ 512) a b m = some (Big512.ofNat r) := by
  rw [big_mulmod_spec ha hb hm hpos (2 ^ 512) (div_lt_of_fuel _ _ _ (le_refl _)), hr]

theorem round_fails_of {fuel : Nat} {n d a x : Big512} {s : Nat}
    (hx : big_powmod fuel a d n = some x) (h1 : x.val ≠ 1) (h2 : x.val ≠ n.val - 1)
    (h3 : ∀ r, 1 ≤ r → r ≤ s - 1 → ∀ xr, square_chain fuel n x r = some xr → xr.val ≠ n.val - 1) :
    ¬ round_passes fuel n d s a := by
  rintro ⟨x0, hx0, hcase⟩
  rw [hx] at hx0
  cases hx0
  rcases hcase with h | h | ⟨r, hr1, hr2, xr, hxr, hv⟩
  · exact h1 h
  · exact h2 h
  · exact h3 r hr1 hr2 xr hxr hv

/-- With every `rand()` call returning 0, the round of `miller_rabin(7, ...)`
draws `a = 2^511 - 5`, gets `x = 2` from `big_powmod(a, 3, 7)` and fails. -/
theorem seven_round_fails :
    ¬ round_passes (2 ^ 512) (Big512.ofNat 7) (Big512.ofNat 3) 1
      (round_base (Big512.ofNat 7) (fun _ => 0) 0 0) := by
  have ha : round_base (Big512.ofNat 7) (fun _ => 0) 0 0 = Big512.ofNat (2 ^ 511 - 5) := by
    decide
  rw [ha]
  have hx : big_powmod (2 ^ 512) (Big512.ofNat (2 ^ 511 - 5)) (Big512.ofNat 3) (Big512.ofNat 7)
      = some (Big512.ofNat 2) :=
    powmod_eval (Big512.ofNat_wf _) (Big512.ofNat_wf _) (Big512.ofNat_wf _) (by decide)
      (by decide)
  refine round_fails_of hx (by decide) (by decide) ?_
  intro r h1 h2
  omega

/-- When round 0 fails, `miller_rabin` with at least one round returns 0 after
the `3 * LIMBS` draws of that round. -/
theorem miller_rabin_first_round_fails {n d : Big512} {s : Nat} (hn : n.WF)
    (hodd : n.val % 2 = 1) (h3 : 3 ≤ n.val) (hd : d.WF) (hdodd : d.val % 2 = 1)
    (hdec : n.val - 1 = d.val * 2 ^ s) (fuel : Nat) (hf : 2 ^ 512 ≤ fuel) (R : Nat)
    (rand : Nat → Nat) (pos : Nat)
    (hfail : ¬ round_passes fuel n d s (round_base n rand pos 0)) :
    miller_rabin fuel n ((R + 1 : Nat) : Int) rand pos = some (0, pos + 24) := by
  rw [miller_rabin_eq_rounds hn hodd h3 hd hdodd hdec fuel hf, Int.toNat_ofNat]
  have hb0 : round_base n rand pos 0
      = (draw_witness (big_sub (big_copy n) big_one) rand pos).1 := by
    simp [round_base]
  rw [hb0] at hfail
  rcases rounds_loop_step hn (by omega) hd fuel hf s rand R pos with ⟨hp, -⟩ | ⟨-, he⟩
  · exact absurd hp hfail
  · exact he

/-! ## A 512-bit prime -/

theorem modpow_loop_spec (base e m : Nat) (i : Nat) :
    (modpow_loop base e m i).1 = base ^ (e % 2 ^ i) % m ∧
    (modpow_loop base e m i).2 = base ^ (2 ^ i) % m := by
  induction i with
  | zero => simp [modpow_loop, Nat.mod_one]
  | succ i ih =>
    simp only [modpow_loop]
    rcases hst : modpow_loop base e m i with ⟨r, b⟩
    rw [hst] at ih
    obtain ⟨h1, h2⟩ := ih
    simp only at h1 h2 ⊢
    constructor
    · rw [Nat.mod_pow_succ, Nat.testBit_to_div_mod]
      rcases Nat.mod_two_eq_zero_or_one (e / 2 ^ i) with hb | hb
      · simp [hb, h1]
      · simp only [hb, decide_True, if_true, Nat.mul_one]
        rw [h1, h2, pow_add, ← Nat.mul_mod]
    · rw [h2, ← Nat.mul_mod, pow_succ, pow_mul, ← pow_two, ← pow_mul]

theorem modpow_eq (base e m : Nat) (he : e < 2 ^ 512) : modpow base e m = base ^ e % m := by
  rw [modpow, (modpow_loop_spec base e m 512).1, Nat.mod_eq_of_lt he]

theorem zmod_pow_eq_one_iff (p a e : Nat) (he : e < 2 ^ 512) :
    ((a : ZMod p)) ^ e = 1 ↔ modpow a e p = 1 % p := by
  rw [modpow_eq a e p he, ← Nat.cast_pow, ← Nat.cast_one (R := ZMod p),
    ZMod.natCast_eq_natCast_iff']

theorem proth512_pred : proth512 - 1 = 7 ^ 4 * 2 ^ 500 := by decide

/-- The number `2401 * 2^500 + 1` is prime (Lucas test with base 3; the prime
divisors of `proth512 - 1` are 2 and 7). -/
theorem proth512_prime : Nat.Prime proth512 := by
  apply lucas_primality proth512 ((3 : Nat) : ZMod proth512)
  · rw [zmod_pow_eq_one_iff proth512 3 _ (by decide)]
    decide
  · intro q hq hdvd
    have hlt : (proth512 - 1) / q < 2 ^ 512 :=
      lt_of_le_of_lt (Nat.div_le_self _ _) (by decide)
    rw [Ne, zmod_pow_eq_one_iff proth512 3 _ hlt]
    have hq27 : q = 7 ∨ q = 2 := by
      rw [proth512_pred] at hdvd
      rcases (Nat.Prime.dvd_mul hq).mp hdvd with h | h
      · left
        exact (Nat.prime_dvd_prime_iff_eq hq (by norm_num)).mp (hq.dvd_of_dvd_pow h)
      · right
        exact (Nat.prime_dvd_prime_iff_eq hq Nat.prime_two).mp (hq.dvd_of_dvd_pow h)
    rcases hq27 with rfl | rfl
    · decide
    · decide

/-- With every `rand()` call returning 0, the round of `miller_rabin` on the
prime `proth512` draws `a = 2^511 + 1 < n - 1`.  Its square is `1` modulo
`2^512`, so `big_powmod(a, 2401, n)` returns `a` itself and every further
squaring returns 1: the round fails. -/
theorem proth512_round_fails :
    ¬ round_passes (2 ^ 512) (Big512.ofNat proth512) (Big512.ofNat 2401) 500
      (round_base (Big512.ofNat proth512) (fun _ => 0) 0 0) := by
  have ha : round_base (Big512.ofNat proth512) (fun _ => 0) 0 0 = Big512.ofNat (2 ^ 511 + 1) := by
    decide
  rw [ha]
  have hx : big_powmod (2 ^ 512) (Big512.ofNat (2 ^ 511 + 1)) (Big512.ofNat 2401)
      (Big512.ofNat proth512) = some (Big512.ofNat (2 ^ 511 + 1)) :=
    powmod_eval (Big512.ofNat_wf _) (Big512.ofNat_wf _) (Big512.ofNat_wf _) (by decide)
      (by decide)
  have hsq0 : big_mulmod (2 ^ 512) (Big512.ofNat (2 ^ 511 + 1)) (Big512.ofNat (2 ^ 511 + 1))
      (Big512.ofNat proth512) = some (Big512.ofNat 1) :=
    mulmod_eval (Big512.ofNat_wf _) (Big512.ofNat_wf _) (Big512.ofNat_wf _) (by decide)
      (by decide)
  have hsq1 : big_mulmod (2 ^ 512) (Big512.ofNat 1) (Big512.ofNat 1) (Big512.ofNat proth512)
      = some (Big512.ofNat 1) :=
    mulmod_eval (Big512.ofNat_wf _) (Big512.ofNat_wf _) (Big512.ofNat_wf _) (by decide)
      (by decide)
  have hchain : ∀ r, square_chain (2 ^ 512) (Big512.ofNat proth512)
      (Big512.ofNat (2 ^ 511 + 1)) (r + 1) = some (Big512.ofNat 1) := by
    intro r
    induction r with
    | zero => simp only [square_chain, hsq0]
    | succ r ih => rw [square_chain, ih]; exact hsq1
  refine round_fails_of hx (by decide) (by decide) ?_
  intro r h1 _ xr hxr
  obtain ⟨r1, rfl⟩ : ∃ r1, r = r1 + 1 := ⟨r - 1, by omega⟩
  rw [hchain r1] at hxr
  cases hxr
  decide

/-! ## The claims -/

/-- C1 (the code departs from the claim): `big_mulmod` does not compute the
modular product when the product needs more than 512 bits.  At
`a = b = 2^256` and `mod = 2^512 - 1`, both factors below the modulus, the
code returns 0 (with fuel 1, a single evaluation of the loop condition, and
with fuel `2^512`), while `(a * b) mod mod = 1`. -/
theorem C1_big_mulmod_drops_high_limbs :
    (Big512.ofNat (2 ^ 256)).WF ∧ (Big512.ofNat (2 ^ 512 - 1)).WF ∧
    (Big512.ofNat (2 ^ 256)).val = 2 ^ 256 ∧ (Big512.ofNat (2 ^ 512 - 1)).val = 2 ^ 512 - 1 ∧
    big_mulmod 1 (Big512.ofNat (2 ^ 256)) (Big512.ofNat (2 ^ 256)) (Big512.ofNat (2 ^ 512 - 1))
      = some big_zero ∧
    big_mulmod (2 ^ 512) (Big512.ofNat (2 ^ 256)) (Big512.ofNat (2 ^ 256))
      (Big512.ofNat (2 ^ 512 - 1)) = some big_zero ∧
    big_zero.val = 0 ∧ (2 ^ 256 * 2 ^ 256) % (2 ^ 512 - 1) = 1 := by
  have hw1 := Big512.ofNat_wf (2 ^ 256)
  have hw2 := Big512.ofNat_wf (2 ^ 512 - 1)
  have hz : Big512.ofNat 0 = big_zero := by decide
  refine ⟨hw1, hw2, by decide, by decide, ?_, ?_, by decide, by decide⟩
  · rw [big_mulmod_spec hw1 hw1 hw2 (by decide) 1 (by decide)]
    have : mulmodN (Big512.ofNat (2 ^ 256)).val (Big512.ofNat (2 ^ 256)).val
        (Big512.ofNat (2 ^ 512 - 1)).val = 0 := by decide
    rw [this, hz]
  · rw [mulmod_eval hw1 hw1 hw2 (by decide) (by decide : mulmodN _ _ _ = 0), hz]

/-- C2 (the code departs from the claim): `big_powmod` does not compute
`base^exp mod mod` when an intermediate product needs more than 512 bits.  At
`base = 2^256`, `exp = 2`, `mod = 2^512 - 1` (so `mod > 1` and `base < mod`)
the code returns 0, while `base^exp mod mod = 1`. -/
theorem C2_big_powmod_drops_high_limbs :
    (Big512.ofNat (2 ^ 256)).val = 2 ^ 256 ∧ (Big512.ofNat 2).val = 2 ∧
    (Big512.ofNat (2 ^ 512 - 1)).val = 2 ^ 512 - 1 ∧
    big_powmod (2 ^ 512) (Big512.ofNat (2 ^ 256)) (Big512.ofNat 2) (Big512.ofNat (2 ^ 512 - 1))
      = some big_zero ∧
    big_zero.val = 0 ∧ (2 ^ 256) ^ 2 % (2 ^ 512 - 1) = 1 := by
  have hz : Big512.ofNat 0 = big_zero := by decide
  refine ⟨by decide, by decide, by decide, ?_, by decide, by decide⟩
  rw [powmod_eval (Big512.ofNat_wf _) (Big512.ofNat_wf _) (Big512.ofNat_wf _) (by decide)
    (by decide : powmodN _ _ _ = 0), hz]

/-- C3 (the code departs from the claim): the prime 7 is rejected.  With one
round and every `rand()` call returning 0, `miller_rabin(7, 1)` returns 0
(Composite) after the 24 draws of its only round. -/
theorem C3_miller_rabin_rejects_seven :
    (Big512.ofNat 7).val = 7 ∧
    miller_rabin (2 ^ 512) (Big512.ofNat 7) 1 (fun _ => 0) 0 = some (0, 24) := by
  refine ⟨by decide, ?_⟩
  exact miller_rabin_first_round_fails (Big512.ofNat_wf 7) (by decide) (by decide)
    (Big512.ofNat_wf 3) (by decide) (by decide) (2 ^ 512) (le_refl _) 0 (fun _ => 0) 0
    seven_round_fails

/-- C4 (the code departs from the claim): a Composite verdict is returned for
a prime.  `n = 2401 * 2^500 + 1` is an odd 512-bit prime, yet with one round
and every `rand()` call returning 0, `miller_rabin(n, 1)` returns 0. -/
theorem C4_composite_verdict_on_prime :
    Nat.Prime (Big512.ofNat proth512).val ∧ (Big512.ofNat proth512).val = 2401 * 2 ^ 500 + 1 ∧
    (Big512.ofNat proth512).val % 2 = 1 ∧ 3 ≤ (Big512.ofNat proth512).val ∧
    miller_rabin (2 ^ 512) (Big512.ofNat proth512) 1 (fun _ => 0) 0 = some (0, 24) := by
  have hv : (Big512.ofNat proth512).val = proth512 := by decide
  refine ⟨by rw [hv]; exact proth512_prime, by decide, by decide, by decide, ?_⟩
  exact miller_rabin_first_round_fails (Big512.ofNat_wf proth512) (by decide) (by decide)
    (Big512.ofNat_wf 2401) (by decide) (by decide) (2 ^ 512) (le_refl _) 0 (fun _ => 0) 0
    proth512_round_fails

/-- C5: for every odd `n >= 3` with `n - 1 = d * 2^s`, `d` odd, and every round
count `R >= 0`, `miller_rabin(n, R)` returns a verdict, 0 or 1, and it is 1
exactly when each of the `R` rounds passes, where the round with base `a`
passes iff `x0 = big_powmod(a, d, n)` is 1 or `n - 1`, or one of the squares
`x_r = big_mulmod(x_{r-1}, x_{r-1}, n)`, `r = 1 .. s-1`, is `n - 1`. -/
theorem C5_verdict_iff_all_rounds_pass (n d : Big512) (s R : Nat) (rand : Nat → Nat)
    (pos fuel : Nat) (hn : n.WF) (hodd : n.val % 2 = 1) (h3 : 3 ≤ n.val) (hd : d.WF)
    (hdodd : d.val % 2 = 1) (hdec : n.val - 1 = d.val * 2 ^ s) (hf : 2 ^ 512 ≤ fuel) :
    ∃ v p, miller_rabin fuel n (R : Int) rand pos = some (v, p) ∧ (v = 0 ∨ v = 1) ∧
      (v = 1 ↔ ∀ i, i < R → round_passes fuel n d s (round_base n rand pos i)) := by
  rw [miller_rabin_eq_rounds hn hodd h3 hd hdodd hdec fuel hf, Int.toNat_ofNat]
  exact rounds_loop_spec hn (by omega) hd fuel hf s rand R pos

/-- Witness for C5: the theorem applied to `n = 7`, `d = 3`, `s = 1`, two rounds
and the all-zero stream. -/
theorem C5_verdict_iff_all_rounds_pass_witness :
    (Big512.ofNat 7).WF ∧ (Big512.ofNat 7).val % 2 = 1 ∧ 3 ≤ (Big512.ofNat 7).val ∧
    (Big512.ofNat 3).WF ∧ (Big512.ofNat 3).val % 2 = 1 ∧
    (Big512.ofNat 7).val - 1 = (Big512.ofNat 3).val * 2 ^ 1 ∧
    ∃ v p, miller_rabin (2 ^ 512) (Big512.ofNat 7) ((2 : Nat) : Int) (fun _ => 0) 0 = some (v, p) ∧
      (v = 0 ∨ v = 1) ∧
      (v = 1 ↔ ∀ i, i < 2 → round_passes (2 ^ 512) (Big512.ofNat 7) (Big512.ofNat 3) 1
        (round_base (Big512.ofNat 7) (fun _ => 0) 0 i)) :=
  ⟨by decide, by decide, by decide, by decide, by decide, by decide,
    C5_verdict_iff_all_rounds_pass (Big512.ofNat 7) (Big512.ofNat 3) 1 2 (fun _ => 0) 0 (2 ^ 512)
      (by decide) (by decide) (by decide) (by decide) (by decide) (by decide) (le_refl _)⟩

/-- C6 (the code departs from the claim): the base of a round can leave
`[2, n-2]`.  For the odd 512-bit candidate `n = 2^511 + 1` and every `rand()`
call returning 0, `big_rand` draws `2^511 + 1 = n`, the single conditional
subtraction of `n - 1` leaves 1, and `miller_rabin` hands the base 1 to
`big_powmod`. -/
theorem C6_witness_below_two :
    (Big512.ofNat (2 ^ 511 + 1)).WF ∧ (Big512.ofNat (2 ^ 511 + 1)).val = 2 ^ 511 + 1 ∧
    (big_rand (fun _ => 0) 0).1.val = 2 ^ 511 + 1 ∧
    (round_base (Big512.ofNat (2 ^ 511 + 1)) (fun _ => 0) 0 0).val = 1 := by
  decide

/-- C7: for every odd `n >= 3` the halving loop of `miller_rabin` terminates
(512 evaluations of its condition suffice) and leaves `d` odd, `s >= 1` and
`n - 1 = d * 2^s`; for `n = 221` it yields `d = 55` and `s = 2`. -/
theorem C7_decompose (n : Big512) (fuel : Nat) (hn : n.WF) (hodd : n.val % 2 = 1)
    (h3 : 3 ≤ n.val) (hf : 512 ≤ fuel) :
    (∃ d s, decompose fuel n = some (d, s) ∧ d.val % 2 = 1 ∧ 1 ≤ s ∧
      n.val - 1 = d.val * 2 ^ s) ∧
    (Big512.ofNat 221).val = 221 ∧ (Big512.ofNat 55).val = 55 ∧
    decompose fuel (Big512.ofNat 221) = some (Big512.ofNat 55, 2) := by
  obtain ⟨d, s, h1, -, h2, h4, h5⟩ := decompose_spec hn hodd h3 fuel hf
  exact ⟨⟨d, s, h1, h2, h4, h5⟩, by decide, by decide,
    decompose_eq (Big512.ofNat_wf 221) (by decide) (by decide) (Big512.ofNat_wf 55) (by decide)
      (by decide) fuel hf⟩

/-- Witness for C7: the theorem applied to `n = 97` with fuel 512. -/
theorem C7_decompose_witness :
    (Big512.ofNat 97).WF ∧ (Big512.ofNat 97).val % 2 = 1 ∧ 3 ≤ (Big512.ofNat 97).val ∧
    ((∃ d s, decompose 512 (Big512.ofNat 97) = some (d, s) ∧ d.val % 2 = 1 ∧ 1 ≤ s ∧
      (Big512.ofNat 97).val - 1 = d.val * 2 ^ s) ∧
    (Big512.ofNat 221).val = 221 ∧ (Big512.ofNat 55).val = 55 ∧
    decompose 512 (Big512.ofNat 221) = some (Big512.ofNat 55, 2)) :=
  ⟨by decide, by decide, by decide,
    C7_decompose (Big512.ofNat 97) 512 (by decide) (by decide) (by decide) (le_refl _)⟩

/-- C8: a candidate whose least-significant bit is 0 is rejected at once:
whatever the fuel, the round count and the stream of `rand()`,
`miller_rabin` returns 0 and the index of the next `rand()` call is unchanged
(no value is drawn). -/
theorem C8_even_rejected (fuel : Nat) (n : Big512) (rounds : Int) (rand : Nat → Nat) (pos : Nat)
    (heven : n.limb 0 % 2 = 0) : miller_rabin fuel n rounds rand pos = some (0, pos) := by
  unfold miller_rabin
  rw [if_pos heven]

/-- Witness for C8: the theorem applied to `n = 2` and to `n = 0`. -/
theorem C8_even_rejected_witness :
    ((Big512.ofNat 2).limb 0 % 2 = 0 ∧
      miller_rabin 0 (Big512.ofNat 2) 10 (fun k => k) 5 = some (0, 5)) ∧
    (big_zero.limb 0 % 2 = 0 ∧ miller_rabin 0 big_zero 10 (fun k => k) 5 = some (0, 5)) :=
  ⟨⟨by decide, C8_even_rejected 0 (Big512.ofNat 2) 10 (fun k => k) 5 (by decide)⟩,
    ⟨by decide, C8_even_rejected 0 big_zero 10 (fun k => k) 5 (by decide)⟩⟩

theorem decompose_loop_zero (fuel s : Nat) : decompose_loop fuel big_zero s = none := by
  induction fuel generalizing s with
  | zero => rfl
  | succ fuel ih =>
    have h1 : big_even big_zero = true := by decide
    have h2 : big_rshift1 big_zero = big_zero := by decide
    simp only [decompose_loop, h1, h2, if_true]
    exact ih (s + 1)

/-- C9 (the code departs from the claim): `miller_rabin(1, rounds)` does not
terminate.  `n = 1` is odd, `d = n - 1 = 0` is even and stays 0 under
`big_rshift1`, so the halving loop never exits: whatever the fuel, the round
count and the stream, the model returns no verdict. -/
theorem C9_miller_rabin_one_diverges (fuel : Nat) (rounds : Int) (rand : Nat → Nat) (pos : Nat) :
    (Big512.ofNat 1).val = 1 ∧ miller_rabin fuel (Big512.ofNat 1) rounds rand pos = none := by
  refine ⟨by decide, ?_⟩
  rw [miller_rabin_odd (by decide)]
  have h : decompose fuel (Big512.ofNat 1) = none := by
    unfold decompose
    have : big_copy (big_sub (big_copy (Big512.ofNat 1)) big_one) = big_zero := by decide
    rw [this]
    exact decompose_loop_zero fuel 0
  rw [h]

/-- C10: short-circuit.  For odd `n >= 3` with `n - 1 = d * 2^s`, `d` odd: if
round `i < R` of `miller_rabin(n, R)` fails, the verdict is 0, the run stops
at or before the last `rand()` call of round `i`, and a run on any stream that
agrees with this one on the calls up to the end of round `i` returns the same
verdict 0 at the same point. -/
theorem C10_short_circuit (n d : Big512) (s R i : Nat) (rand rand2 : Nat → Nat)
    (pos fuel : Nat) (hn : n.WF) (hodd : n.val % 2 = 1) (h3 : 3 ≤ n.val) (hd : d.WF)
    (hdodd : d.val % 2 = 1) (hdec : n.val - 1 = d.val * 2 ^ s) (hf : 2 ^ 512 ≤ fuel)
    (hi : i < R) (hfail : ¬ round_passes fuel n d s (round_base n rand pos i))
    (hagree : ∀ j, pos ≤ j → j < pos + 24 * (i + 1) → rand2 j = rand j) :
    ∃ p, p ≤ pos + 24 * (i + 1) ∧
      miller_rabin fuel n (R : Int) rand pos = some (0, p) ∧
      miller_rabin fuel n (R : Int) rand2 pos = some (0, p) := by
  rw [miller_rabin_eq_rounds hn hodd h3 hd hdodd hdec fuel hf,
    miller_rabin_eq_rounds hn hodd h3 hd hdodd hdec fuel hf, Int.toNat_ofNat]
  exact rounds_loop_short_circuit hn (by omega) hd fuel hf s rand rand2 R pos i hi hfail hagree

/-- Witness for C10: `n = 7`, three rounds, round 0 fails on the all-zero
stream; the second stream differs from call 24 on. -/
theorem C10_short_circuit_witness :
    ∃ p, p ≤ 0 + 24 * (0 + 1) ∧
      miller_rabin (2 ^ 512) (Big512.ofNat 7) ((3 : Nat) : Int) (fun _ => 0) 0 = some (0, p) ∧
      miller_rabin (2 ^ 512) (Big512.ofNat 7) ((3 : Nat) : Int)
        (fun j => if j < 24 then 0 else j) 0 = some (0, p) :=
  C10_short_circuit (Big512.ofNat 7) (Big512.ofNat 3) 1 3 0 (fun _ => 0)
    (fun j => if j < 24 then 0 else j) 0 (2 ^ 512) (by decide) (by decide) (by decide)
    (by decide) (by decide) (by decide) (le_refl _) (by decide) seven_round_fails
    (fun j _ h2 => by simp only [if_pos (show j < 24 by omega)])

/-! ## Evaluating a round on numbers -/

theorem chainN_lt (m x : Nat) (hm : 0 < m) (hx : x < 2 ^ 512) (hm2 : m ≤ 2 ^ 512) (r : Nat) :
    chainN m x r < 2 ^ 512 := by
  cases r with
  | zero => exact hx
  | succ r => exact lt_of_lt_of_le (mulmodN_lt _ _ _ hm) hm2

/-- With enough fuel the squaring chain of a round holds the numbers `chainN`. -/
theorem square_chain_eval {n x : Big512} (hn : n.WF) (hpos : 0 < n.val) (hx : x.WF)
    (fuel : Nat) (hf : 2 ^ 512 ≤ fuel) (r : Nat) :
    square_chain fuel n x r = some (Big512.ofNat (chainN n.val x.val r)) := by
  induction r with
  | zero => simp only [square_chain, chainN, Big512.ofNat_val hx]
  | succ r ih =>
    have hlt := chainN_lt n.val x.val hpos (Big512.val_lt hx) (le_of_lt (Big512.val_lt hn)) r
    simp only [square_chain, ih, chainN]
    rw [big_mulmod_spec (Big512.ofNat_wf _) (Big512.ofNat_wf _) hn hpos fuel
      (div_lt_of_fuel _ _ _ hf), Big512.val_ofNat_of_lt hlt]

theorem squaring_loop_succ (fuel : Nat) (n nm1 x : Big512) (k : Nat) :
    squaring_loop fuel n nm1 (k + 1) x =
      match big_mulmod fuel x x n with
      | none => none
      | some x1 =>
        if big_cmp x1 nm1 = 0 then some 1
        else squaring_loop fuel n nm1 k x1 := rfl

/-! ## `big_powmod` on small moduli -/

theorem mulmodN_small {x y m : Nat} (hx : x < m) (hy : y < m) (hm : m ≤ 2 ^ 256) :
    mulmodN x y m = x * y % m := by
  unfold mulmodN
  have h1 : x * y < 2 ^ 256 * 2 ^ 256 :=
    Nat.mul_lt_mul'' (lt_of_lt_of_le hx hm) (lt_of_lt_of_le hy hm)
  have h2 : (2 : Nat) ^ 256 * 2 ^ 256 = 2 ^ 512 := by norm_num
  rw [Nat.mod_eq_of_lt (show x * y < 2 ^ 512 by rw [← h2]; exact h1)]

theorem powmodN_loop_small (base e m : Nat) (hm1 : 1 < m) (hm : m ≤ 2 ^ 256) (hb : base < m)
    (i : Nat) :
    (powmodN_loop base e m i).1 = base ^ (e % 2 ^ i) % m ∧
    (powmodN_loop base e m i).2 = base ^ (2 ^ i) % m := by
  induction i with
  | zero =>
    simp only [powmodN_loop, pow_zero, Nat.mod_one, pow_one]
    exact ⟨(Nat.mod_eq_of_lt hm1).symm, (Nat.mod_eq_of_lt hb).symm⟩
  | succ i ih =>
    simp only [powmodN_loop]
    rcases hst : powmodN_loop base e m i with ⟨r, b⟩
    rw [hst] at ih
    obtain ⟨h1, h2⟩ := ih
    simp only at h1 h2 ⊢
    have hpos : 0 < m := by omega
    have hr : r < m := by rw [h1]; exact Nat.mod_lt _ hpos
    have hbm : b < m := by rw [h2]; exact Nat.mod_lt _ hpos
    rw [mulmodN_small hr hbm hm, mulmodN_small hbm hbm hm]
    constructor
    · rw [Nat.mod_pow_succ, Nat.testBit_to_div_mod]
      rcases Nat.mod_two_eq_zero_or_one (e / 2 ^ i) with hb | hb
      · simp [hb, h1]
      · simp only [hb, decide_True, if_true, Nat.mul_one]
        rw [h1, h2, pow_add, ← Nat.mul_mod]
    · rw [h2, ← Nat.mul_mod, pow_succ, pow_mul, ← pow_two, ← pow_mul]

/-- On a modulus of at most 256 bits and a reduced base, no product is
truncated and `powmodN` is the modular power. -/
theorem powmodN_small (base e m : Nat) (hm1 : 1 < m) (hm : m ≤ 2 ^ 256) (hb : base < m)
    (he : e < 2 ^ 512) : powmodN base e m = base ^ e % m := by
  unfold powmodN
  rw [(powmodN_loop_small base e m hm1 hm hb (LIMBS * 64)).1]
  show base ^ (e % 2 ^ 512) % m = _
  rw [Nat.mod_eq_of_lt he]

theorem powmod_ref_eq (base m : Nat) (hm1 : 1 < m) (e : Nat) :
    powmod_ref base m e = base ^ e % m := by
  induction e with
  | zero => simp only [powmod_ref, pow_zero]; exact (Nat.mod_eq_of_lt hm1).symm
  | succ e ih => rw [powmod_ref, ih, pow_succ, Nat.mod_mul_mod]

theorem powmodN_loop_zero_exp (base m : Nat) (i : Nat) : (powmodN_loop base 0 m i).1 = 1 := by
  induction i with
  | zero => rfl
  | succ i ih =>
    simp only [powmodN_loop]
    rcases hst : powmodN_loop base 0 m i with ⟨r, b⟩
    rw [hst] at ih
    simp only at ih ⊢
    simp [ih]

theorem powmodN_zero_exp (base m : Nat) : powmodN base 0 m = 1 :=
  powmodN_loop_zero_exp base m (LIMBS * 64)

/-! ## The textbook example `n = 221` -/

theorem n221_minus1 : big_sub (big_copy (Big512.ofNat 221)) big_one = Big512.ofNat 220 := by
  decide

theorem powmod_174 :
    big_powmod (2 ^ 512) (Big512.ofNat 174) (Big512.ofNat 55) (Big512.ofNat 221)
      = some (Big512.ofNat 47) :=
  powmod_eval (Big512.ofNat_wf _) (Big512.ofNat_wf _) (Big512.ofNat_wf _) (by decide) (by decide)

theorem powmod_137 :
    big_powmod (2 ^ 512) (Big512.ofNat 137) (Big512.ofNat 55) (Big512.ofNat 221)
      = some (Big512.ofNat 188) :=
  powmod_eval (Big512.ofNat_wf _) (Big512.ofNat_wf _) (Big512.ofNat_wf _) (by decide) (by decide)

theorem squaring_47 :
    squaring_loop (2 ^ 512) (Big512.ofNat 221) (big_sub (big_copy (Big512.ofNat 221)) big_one)
      (2 - 1) (Big512.ofNat 47) = some 1 := by
  have h : big_mulmod (2 ^ 512) (Big512.ofNat 47) (Big512.ofNat 47) (Big512.ofNat 221)
      = some (Big512.ofNat 220) :=
    mulmod_eval (Big512.ofNat_wf _) (Big512.ofNat_wf _) (Big512.ofNat_wf _) (by decide)
      (by decide)
  rw [n221_minus1]
  show squaring_loop _ _ _ (0 + 1) _ = _
  rw [squaring_loop_succ, h]
  decide

theorem squaring_188 :
    squaring_loop (2 ^ 512) (Big512.ofNat 221) (big_sub (big_copy (Big512.ofNat 221)) big_one)
      (2 - 1) (Big512.ofNat 188) = some 0 := by
  have h : big_mulmod (2 ^ 512) (Big512.ofNat 188) (Big512.ofNat 188) (Big512.ofNat 221)
      = some (Big512.ofNat 205) :=
    mulmod_eval (Big512.ofNat_wf _) (Big512.ofNat_wf _) (Big512.ofNat_wf _) (by decide)
      (by decide)
  rw [n221_minus1]
  show squaring_loop _ _ _ (0 + 1) _ = _
  rw [squaring_loop_succ, h]
  decide

/-- The round of `n = 221` with base 174 passes: `x0 = 47` and
`x1 = 47^2 mod 221 = 220 = n - 1`. -/
theorem round_174_passes :
    round_passes (2 ^ 512) (Big512.ofNat 221) (Big512.ofNat 55) 2 (Big512.ofNat 174) := by
  refine ⟨Big512.ofNat 47, powmod_174, Or.inr (Or.inr ⟨1, le_refl _, le_refl _,
    Big512.ofNat (chainN (Big512.ofNat 221).val (Big512.ofNat 47).val 1), ?_, by decide⟩)⟩
  exact square_chain_eval (Big512.ofNat_wf _) (by decide) (Big512.ofNat_wf _) (2 ^ 512)
    (le_refl _) 1

/-- The round of `n = 221` with base 137 fails: `x0 = 188` and
`x1 = 188^2 mod 221 = 205`. -/
theorem round_137_fails :
    ¬ round_passes (2 ^ 512) (Big512.ofNat 221) (Big512.ofNat 55) 2 (Big512.ofNat 137) := by
  refine round_fails_of powmod_137 (by decide) (by decide) ?_
  intro r h1 h2 xr hxr
  have hr : r = 1 := by omega
  subst hr
  rw [square_chain_eval (Big512.ofNat_wf _) (by decide) (Big512.ofNat_wf _) (2 ^ 512)
    (le_refl _) 1] at hxr
  cases hxr
  decide

/-! ## Claims C11 to C20 -/

/-- C11 as stated fails: for `n = 221` (`d = 55`, `s = 2`) the round run with
base `a = 174` passes, it does not detect compositeness. -/
theorem C11_base_174_is_a_strong_liar :
    (Big512.ofNat 221).val = 221 ∧ (Big512.ofNat 55).val = 55 ∧ (Big512.ofNat 174).val = 174 ∧
    round_passes (2 ^ 512) (Big512.ofNat 221) (Big512.ofNat 55) 2 (Big512.ofNat 174) :=
  ⟨by decide, by decide, by decide, round_174_passes⟩

/-- C11 amended: for `n = 221` (`d = 55`, `s = 2`) the round run with base
`a = 174` gives `x = big_powmod(174, 55, 221) = 47`, the squaring loop reaches
`220 = n - 1` and sets `cont = 1`: the round passes (174 is a strong liar).
The base `a = 137` gives `x = 188`, the squaring loop ends with `cont = 0`
(`188^2 mod 221 = 205`): the round does not pass and the verdict is
Composite. -/
theorem C11_textbook_example :
    (big_powmod (2 ^ 512) (Big512.ofNat 174) (Big512.ofNat 55) (Big512.ofNat 221)
        = some (Big512.ofNat 47) ∧
      squaring_loop (2 ^ 512) (Big512.ofNat 221)
        (big_sub (big_copy (Big512.ofNat 221)) big_one) (2 - 1) (Big512.ofNat 47) = some 1 ∧
      round_passes (2 ^ 512) (Big512.ofNat 221) (Big512.ofNat 55) 2 (Big512.ofNat 174)) ∧
    (big_powmod (2 ^ 512) (Big512.ofNat 137) (Big512.ofNat 55) (Big512.ofNat 221)
        = some (Big512.ofNat 188) ∧
      squaring_loop (2 ^ 512) (Big512.ofNat 221)
        (big_sub (big_copy (Big512.ofNat 221)) big_one) (2 - 1) (Big512.ofNat 188) = some 0 ∧
      ¬ round_passes (2 ^ 512) (Big512.ofNat 221) (Big512.ofNat 55) 2 (Big512.ofNat 137)) :=
  ⟨⟨powmod_174, squaring_47, round_174_passes⟩, ⟨powmod_137, squaring_188, round_137_fails⟩⟩

/-- With every `rand()` call returning 0, the round of `miller_rabin(561, ...)`
draws `a = 2^511 - 559`, gets `x = 163` from `big_powmod(a, 35, 561)`, and the
three squarings give 202, 412, 322, never 560. -/
theorem carmichael_round_fails :
    ¬ round_passes (2 ^ 512) (Big512.ofNat 561) (Big512.ofNat 35) 4
      (round_base (Big512.ofNat 561) (fun _ => 0) 0 0) := by
  have ha : round_base (Big512.ofNat 561) (fun _ => 0) 0 0 = Big512.ofNat (2 ^ 511 - 559) := by
    decide
  rw [ha]
  have hx : big_powmod (2 ^ 512) (Big512.ofNat (2 ^ 511 - 559)) (Big512.ofNat 35)
      (Big512.ofNat 561) = some (Big512.ofNat 163) :=
    powmod_eval (Big512.ofNat_wf _) (Big512.ofNat_wf _) (Big512.ofNat_wf _) (by decide)
      (by decide)
  refine round_fails_of hx (by decide) (by decide) ?_
  intro r h1 h2 xr hxr
  rw [square_chain_eval (Big512.ofNat_wf _) (by decide) (Big512.ofNat_wf _) (2 ^ 512)
    (le_refl _) r] at hxr
  cases hxr
  have hr : r = 1 ∨ r = 2 ∨ r = 3 := by omega
  rcases hr with rfl | rfl | rfl <;> decide

/-- C12: the Carmichael number 561 is detectable: for every round count
`R >= 1` there is a stream of `rand()` values (the all-zero stream) on which
`miller_rabin(561, R)` returns 0. -/
theorem C12_carmichael_detectable (R : Nat) (hR : 1 ≤ R) :
    ∃ rand : Nat → Nat, ∃ p,
      miller_rabin (2 ^ 512) (Big512.ofNat 561) (R : Int) rand 0 = some (0, p) := by
  obtain ⟨R1, rfl⟩ : ∃ R1, R = R1 + 1 := ⟨R - 1, by omega⟩
  exact ⟨fun _ => 0, 0 + 24,
    miller_rabin_first_round_fails (Big512.ofNat_wf 561) (by decide) (by decide)
      (Big512.ofNat_wf 35) (by decide) (by decide) (2 ^ 512) (le_refl _) R1 (fun _ => 0) 0
      carmichael_round_fails⟩

/-- Witness for C12: five rounds. -/
theorem C12_carmichael_detectable_witness :
    (1 : Nat) ≤ 5 ∧ ∃ rand : Nat → Nat, ∃ p,
      miller_rabin (2 ^ 512) (Big512.ofNat 561) ((5 : Nat) : Int) rand 0 = some (0, p) :=
  ⟨by decide, C12_carmichael_detectable 5 (by decide)⟩

/-- C13: on small operands `big_powmod` matches the slow reference: for every
exponent and every base below a modulus with `1 < mod <= 2^256`, the result
of `big_powmod(base, exp, mod)` is `ref(exp)`, where `ref(0) = 1` and
`ref(e+1) = (ref(e) * base) mod mod`. -/
theorem C13_powmod_matches_reference (base exp mod : Big512) (fuel : Nat) (hb : base.WF)
    (he : exp.WF) (hm : mod.WF) (hm1 : 1 < mod.val) (hm2 : mod.val ≤ 2 ^ 256)
    (hlt : base.val < mod.val) (hf : 2 ^ 512 ≤ fuel) :
    ∃ r, big_powmod fuel base exp mod = some r ∧ r.WF ∧
      r.val = powmod_ref base.val mod.val exp.val := by
  obtain ⟨r, h1, h2, h3⟩ := big_powmod_spec hb he hm (by omega) fuel hf
  refine ⟨r, h1, h2, ?_⟩
  rw [h3, powmodN_small _ _ _ hm1 hm2 hlt (Big512.val_lt he), powmod_ref_eq _ _ hm1]

/-- Witness for C13: `base = 174`, `exp = 55`, `mod = 221`. -/
theorem C13_powmod_matches_reference_witness :
    (1 < (Big512.ofNat 221).val ∧ (Big512.ofNat 221).val ≤ 2 ^ 256 ∧
      (Big512.ofNat 174).val < (Big512.ofNat 221).val) ∧
    ∃ r, big_powmod (2 ^ 512) (Big512.ofNat 174) (Big512.ofNat 55) (Big512.ofNat 221) = some r ∧
      r.WF ∧ r.val = powmod_ref (Big512.ofNat 174).val (Big512.ofNat 221).val
        (Big512.ofNat 55).val :=
  ⟨⟨by decide, by decide, by decide⟩,
    C13_powmod_matches_reference (Big512.ofNat 174) (Big512.ofNat 55) (Big512.ofNat 221)
      (2 ^ 512) (Big512.ofNat_wf _) (Big512.ofNat_wf _) (Big512.ofNat_wf _) (by decide)
      (by decide) (by decide) (le_refl _)⟩

/-- C14: zero exponent: for every 512-bit `x` and every modulus `mod > 1`,
`big_powmod(x, 0, mod)` is the value 1, limb 0 equal to 1 and all other limbs
0. -/
theorem C14_powmod_zero_exponent (x exp mod : Big512) (fuel : Nat) (hx : x.WF) (he : exp.WF)
    (he0 : exp.val = 0) (hm : mod.WF) (hm1 : 1 < mod.val) (hf : 2 ^ 512 ≤ fuel) :
    big_powmod fuel x exp mod = some big_one ∧ big_one.v = [1, 0, 0, 0, 0, 0, 0, 0] := by
  obtain ⟨r, h1, h2, h3⟩ := big_powmod_spec hx he hm (by omega) fuel hf
  rw [he0, powmodN_zero_exp] at h3
  rw [h1, Big512.eq_of_val_eq h2 big_one_wf (by rw [h3, big_one_val])]
  exact ⟨rfl, rfl⟩

/-- Witness for C14: `x = 2^511 + 12345`, `mod = 2^512 - 1`. -/
theorem C14_powmod_zero_exponent_witness :
    (big_zero.val = 0 ∧ 1 < (Big512.ofNat (2 ^ 512 - 1)).val) ∧
    big_powmod (2 ^ 512) (Big512.ofNat (2 ^ 511 + 12345)) big_zero (Big512.ofNat (2 ^ 512 - 1))
      = some big_one ∧ big_one.v = [1, 0, 0, 0, 0, 0, 0, 0] :=
  ⟨⟨by decide, by decide⟩,
    C14_powmod_zero_exponent (Big512.ofNat (2 ^ 511 + 12345)) big_zero
      (Big512.ofNat (2 ^ 512 - 1)) (2 ^ 512) (Big512.ofNat_wf _) big_zero_wf (by decide)
      (Big512.ofNat_wf _) (by decide) (le_refl _)⟩

/-- C15: range of `big_mulmod`: for all `a` and `b`, below the modulus or not,
and every `mod != 0`, the reduction loop terminates (fuel `2^512` is enough)
and the result `r` satisfies `0 <= val(r) < val(mod)`. -/
theorem C15_mulmod_range (a b mod : Big512) (fuel : Nat) (ha : a.WF) (hb : b.WF) (hm : mod.WF)
    (hm0 : mod.val ≠ 0) (hf : 2 ^ 512 ≤ fuel) :
    ∃ r, big_mulmod fuel a b mod = some r ∧ r.WF ∧ 0 ≤ r.val ∧ r.val < mod.val := by
  have hpos : 0 < mod.val := Nat.pos_of_ne_zero hm0
  obtain ⟨r, h1, h2, h3⟩ := big_mulmod_spec_full ha hb hm hpos fuel hf
  exact ⟨r, h1, h2, Nat.zero_le _, by rw [h3]; exact mulmodN_lt _ _ _ hpos⟩

/-- Witness for C15: both factors above the modulus 7. -/
theorem C15_mulmod_range_witness :
    (Big512.ofNat 7).val ≠ 0 ∧
    ∃ r, big_mulmod (2 ^ 512) (Big512.ofNat (2 ^ 511 - 5)) (Big512.ofNat (2 ^ 300))
      (Big512.ofNat 7) = some r ∧ r.WF ∧ 0 ≤ r.val ∧ r.val < (Big512.ofNat 7).val :=
  ⟨by decide,
    C15_mulmod_range (Big512.ofNat (2 ^ 511 - 5)) (Big512.ofNat (2 ^ 300)) (Big512.ofNat 7)
      (2 ^ 512) (Big512.ofNat_wf _) (Big512.ofNat_wf _) (Big512.ofNat_wf _) (by decide)
      (le_refl _)⟩

/-- C16: `big_mulmod` is commutative: for every `mod != 0` and all `a`, `b`
(in particular all `a, b < mod`), `big_mulmod(a, b, mod)` and
`big_mulmod(b, a, mod)` return the same eight limbs. -/
theorem C16_mulmod_comm (a b mod : Big512) (fuel : Nat) (ha : a.WF) (hb : b.WF) (hm : mod.WF)
    (hm0 : mod.val ≠ 0) (hf : 2 ^ 512 ≤ fuel) :
    ∃ r, big_mulmod fuel a b mod = some r ∧ big_mulmod fuel b a mod = some r ∧ r.WF := by
  have hpos : 0 < mod.val := Nat.pos_of_ne_zero hm0
  refine ⟨_, big_mulmod_spec ha hb hm hpos fuel (div_lt_of_fuel _ _ _ hf), ?_,
    Big512.ofNat_wf _⟩
  rw [big_mulmod_spec hb ha hm hpos fuel (div_lt_of_fuel _ _ _ hf)]
  unfold mulmodN
  rw [Nat.mul_comm]

/-- Witness for C16: two 512-bit factors below a 512-bit modulus. -/
theorem C16_mulmod_comm_witness :
    ((Big512.ofNat proth512).val ≠ 0 ∧
      (Big512.ofNat (2 ^ 511 + 1)).val < (Big512.ofNat proth512).val ∧
      (Big512.ofNat (3 ^ 300)).val < (Big512.ofNat proth512).val) ∧
    ∃ r, big_mulmod (2 ^ 512) (Big512.ofNat (2 ^ 511 + 1)) (Big512.ofNat (3 ^ 300))
        (Big512.ofNat proth512) = some r ∧
      big_mulmod (2 ^ 512) (Big512.ofNat (3 ^ 300)) (Big512.ofNat (2 ^ 511 + 1))
        (Big512.ofNat proth512) = some r ∧ r.WF :=
  ⟨⟨by decide, by decide, by decide⟩,
    C16_mulmod_comm (Big512.ofNat (2 ^ 511 + 1)) (Big512.ofNat (3 ^ 300))
      (Big512.ofNat proth512) (2 ^ 512) (Big512.ofNat_wf _) (Big512.ofNat_wf _)
      (Big512.ofNat_wf _) (by decide) (le_refl _)⟩

/-- C17: zero annihilates: for every `a` and every `mod != 0`,
`big_mulmod(a, 0, mod)` is the all-zero value (the reduction loop exits at its
first test). -/
theorem C17_mulmod_zero (a mod : Big512) (fuel : Nat) (ha : a.WF) (hm : mod.WF)
    (hm0 : mod.val ≠ 0) (hf : 1 ≤ fuel) :
    big_mulmod fuel a big_zero mod = some big_zero ∧ big_zero.v = [0, 0, 0, 0, 0, 0, 0, 0] := by
  have hpos : 0 < mod.val := Nat.pos_of_ne_zero hm0
  have hz : Big512.ofNat 0 = big_zero := by decide
  rw [big_mulmod_spec ha big_zero_wf hm hpos fuel (by rw [big_zero_val]; simp; omega)]
  unfold mulmodN
  rw [big_zero_val, Nat.mul_zero, Nat.zero_mod, Nat.zero_mod, hz]
  exact ⟨rfl, rfl⟩

/-- Witness for C17: `a = 2^511 + 1`, `mod = 7`, fuel 1. -/
theorem C17_mulmod_zero_witness :
    (Big512.ofNat 7).val ≠ 0 ∧
    big_mulmod 1 (Big512.ofNat (2 ^ 511 + 1)) big_zero (Big512.ofNat 7) = some big_zero ∧
    big_zero.v = [0, 0, 0, 0, 0, 0, 0, 0] :=
  ⟨by decide,
    C17_mulmod_zero (Big512.ofNat (2 ^ 511 + 1)) (Big512.ofNat 7) 1 (Big512.ofNat_wf _)
      (Big512.ofNat_wf _) (by decide) (le_refl _)⟩

theorem val_eq_iff_limbs {a b : Big512} (ha : a.WF) (hb : b.WF) :
    a.val = b.val ↔ ∀ i, i < 8 → a.limb i = b.limb i := by
  constructor
  · intro h i _
    rw [Big512.eq_of_val_eq ha hb h]
  · intro h
    rw [Big512.ext_limbs ha.1 hb.1 h]

theorem big_cmp_cases {a b : Big512} (ha : a.WF) (hb : b.WF) :
    (big_cmp a b = -1 ∧ a.val < b.val) ∨ (big_cmp a b = 0 ∧ a.val = b.val) ∨
      (big_cmp a b = 1 ∧ b.val < a.val) := by
  rw [big_cmp_spec ha hb]
  by_cases h1 : a.val < b.val
  · left; rw [if_pos h1]; exact ⟨rfl, h1⟩
  · by_cases h2 : a.val > b.val
    · right; right; rw [if_neg h1, if_pos h2]; exact ⟨rfl, h2⟩
    · right; left; rw [if_neg h1, if_neg h2]; exact ⟨rfl, by omega⟩

theorem big_cmp_lt_iff {a b : Big512} (ha : a.WF) (hb : b.WF) :
    big_cmp a b = -1 ↔ a.val < b.val := by
  rcases big_cmp_cases ha hb with ⟨h, hv⟩ | ⟨h, hv⟩ | ⟨h, hv⟩ <;> rw [h] <;>
    constructor <;> intro h2 <;> omega

/-- C18: `big_cmp` agrees with the numeric order of the represented values:
it returns -1 iff `val(a) < val(b)`, 0 iff `val(a) = val(b)` (equivalently all
eight limbs are equal), and 1 iff `val(a) > val(b)`. -/
theorem C18_big_cmp_order (a b : Big512) (ha : a.WF) (hb : b.WF) :
    (big_cmp a b = -1 ↔ a.val < b.val) ∧ (big_cmp a b = 0 ↔ a.val = b.val) ∧
    (a.val = b.val ↔ ∀ i, i < 8 → a.limb i = b.limb i) ∧
    (big_cmp a b = 1 ↔ a.val > b.val) := by
  refine ⟨?_, ?_, val_eq_iff_limbs ha hb, ?_⟩ <;>
    rcases big_cmp_cases ha hb with ⟨h, hv⟩ | ⟨h, hv⟩ | ⟨h, hv⟩ <;> rw [h] <;>
    constructor <;> intro h2 <;> omega

/-- Witness for C18: two values that differ only in the top limb. -/
theorem C18_big_cmp_order_witness :
    (big_cmp (Big512.ofNat (2 ^ 500 + 7)) (Big512.ofNat (2 ^ 511 + 1)) = -1 ↔
      (Big512.ofNat (2 ^ 500 + 7)).val < (Big512.ofNat (2 ^ 511 + 1)).val) ∧
    (big_cmp (Big512.ofNat (2 ^ 500 + 7)) (Big512.ofNat (2 ^ 511 + 1)) = 0 ↔
      (Big512.ofNat (2 ^ 500 + 7)).val = (Big512.ofNat (2 ^ 511 + 1)).val) ∧
    ((Big512.ofNat (2 ^ 500 + 7)).val = (Big512.ofNat (2 ^ 511 + 1)).val ↔
      ∀ i, i < 8 → (Big512.ofNat (2 ^ 500 + 7)).limb i = (Big512.ofNat (2 ^ 511 + 1)).limb i) ∧
    (big_cmp (Big512.ofNat (2 ^ 500 + 7)) (Big512.ofNat (2 ^ 511 + 1)) = 1 ↔
      (Big512.ofNat (2 ^ 500 + 7)).val > (Big512.ofNat (2 ^ 511 + 1)).val) :=
  C18_big_cmp_order (Big512.ofNat (2 ^ 500 + 7)) (Big512.ofNat (2 ^ 511 + 1)) (by decide)
    (by decide)

/-- C19: `big_cmp` is a total order: exactly one of `big_cmp(a,b) = -1`,
`a = b` limb-wise, `big_cmp(a,b) = 1` holds; `big_cmp(a,b) = -big_cmp(b,a)`;
and `big_cmp(a,b) = -1` with `big_cmp(b,c) = -1` gives `big_cmp(a,c) = -1`. -/
theorem C19_big_cmp_total_order (a b c : Big512) (ha : a.WF) (hb : b.WF) (hc : c.WF) :
    ((big_cmp a b = -1 ∧ ¬ (∀ i, i < 8 → a.limb i = b.limb i) ∧ big_cmp a b ≠ 1) ∨
      (big_cmp a b ≠ -1 ∧ (∀ i, i < 8 → a.limb i = b.limb i) ∧ big_cmp a b ≠ 1) ∨
      (big_cmp a b ≠ -1 ∧ ¬ (∀ i, i < 8 → a.limb i = b.limb i) ∧ big_cmp a b = 1)) ∧
    big_cmp a b = - big_cmp b a ∧
    (big_cmp a b = -1 → big_cmp b c = -1 → big_cmp a c = -1) := by
  have hl := val_eq_iff_limbs ha hb
  refine ⟨?_, ?_, ?_⟩
  · rcases big_cmp_cases ha hb with ⟨h, hv⟩ | ⟨h, hv⟩ | ⟨h, hv⟩
    · left
      exact ⟨h, fun hh => by have := hl.mpr hh; omega, by rw [h]; decide⟩
    · right; left
      exact ⟨by rw [h]; decide, hl.mp hv, by rw [h]; decide⟩
    · right; right
      exact ⟨by rw [h]; decide, fun hh => by have := hl.mpr hh; omega, h⟩
  · rcases big_cmp_cases ha hb with ⟨h, hv⟩ | ⟨h, hv⟩ | ⟨h, hv⟩ <;>
      rcases big_cmp_cases hb ha with ⟨h2, hv2⟩ | ⟨h2, hv2⟩ | ⟨h2, hv2⟩ <;>
      omega
  · intro h1 h2
    have e1 := (big_cmp_lt_iff ha hb).mp h1
    have e2 := (big_cmp_lt_iff hb hc).mp h2
    exact (big_cmp_lt_iff ha hc).mpr (lt_trans e1 e2)

/-- Witness for C19: three values in increasing order. -/
theorem C19_big_cmp_total_order_witness :
    ((big_cmp (Big512.ofNat 5) (Big512.ofNat (2 ^ 64)) = -1 ∧
        ¬ (∀ i, i < 8 → (Big512.ofNat 5).limb i = (Big512.ofNat (2 ^ 64)).limb i) ∧
        big_cmp (Big512.ofNat 5) (Big512.ofNat (2 ^ 64)) ≠ 1) ∨
      (big_cmp (Big512.ofNat 5) (Big512.ofNat (2 ^ 64)) ≠ -1 ∧
        (∀ i, i < 8 → (Big512.ofNat 5).limb i = (Big512.ofNat (2 ^ 64)).limb i) ∧
        big_cmp (Big512.ofNat 5) (Big512.ofNat (2 ^ 64)) ≠ 1) ∨
      (big_cmp (Big512.ofNat 5) (Big512.ofNat (2 ^ 64)) ≠ -1 ∧
        ¬ (∀ i, i < 8 → (Big512.ofNat 5).limb i = (Big512.ofNat (2 ^ 64)).limb i) ∧
        big_cmp (Big512.ofNat 5) (Big512.ofNat (2 ^ 64)) = 1)) ∧
    big_cmp (Big512.ofNat 5) (Big512.ofNat (2 ^ 64))
      = - big_cmp (Big512.ofNat (2 ^ 64)) (Big512.ofNat 5) ∧
    (big_cmp (Big512.ofNat 5) (Big512.ofNat (2 ^ 64)) = -1 →
      big_cmp (Big512.ofNat (2 ^ 64)) (Big512.ofNat (2 ^ 511 + 1)) = -1 →
      big_cmp (Big512.ofNat 5) (Big512.ofNat (2 ^ 511 + 1)) = -1) :=
  C19_big_cmp_total_order (Big512.ofNat 5) (Big512.ofNat (2 ^ 64)) (Big512.ofNat (2 ^ 511 + 1))
    (by decide) (by decide) (by decide)

/-- C20: `big_sub` is exact under its precondition: for all `a`, `b` with
`val(a) >= val(b)`, `val(big_sub(a, b)) = val(a) - val(b)`; in particular
`big_sub(a, a)` is the all-zero value for every `a`. -/
theorem C20_big_sub_exact (a b : Big512) (ha : a.WF) (hb : b.WF) (h : a.val ≥ b.val) :
    (big_sub a b).val = a.val - b.val ∧ big_sub a a = big_zero ∧
    big_zero.v = [0, 0, 0, 0, 0, 0, 0, 0] := by
  refine ⟨big_sub_val ha hb h, ?_, rfl⟩
  apply Big512.eq_of_val_eq (big_sub_wf ha ha) big_zero_wf
  rw [big_sub_val ha ha (le_refl _), big_zero_val, Nat.sub_self]

/-- Witness for C20: a borrow that runs through all eight limbs,
`2^511 - 1`. -/
theorem C20_big_sub_exact_witness :
    (Big512.ofNat (2 ^ 511)).val ≥ (Big512.ofNat 1).val ∧
    (big_sub (Big512.ofNat (2 ^ 511)) (Big512.ofNat 1)).val
      = (Big512.ofNat (2 ^ 511)).val - (Big512.ofNat 1).val ∧
    big_sub (Big512.ofNat (2 ^ 511)) (Big512.ofNat (2 ^ 511)) = big_zero ∧
    big_zero.v = [0, 0, 0, 0, 0, 0, 0, 0] :=
  ⟨by decide,
    C20_big_sub_exact (Big512.ofNat (2 ^ 511)) (Big512.ofNat 1) (by decide) (by decide)
      (by decide)⟩

/-! ## Claims C21, C22, C29, C30: shifts, candidates, the product buffer -/

theorem big_rshift1_iterate {x : Big512} (hx : x.WF) (k : Nat) :
    (big_rshift1^[k] x).WF ∧ (big_rshift1^[k] x).val = x.val / 2 ^ k := by
  induction k generalizing x with
  | zero => exact ⟨hx, by simp⟩
  | succ k ih =>
    rw [Function.iterate_succ_apply]
    obtain ⟨h1, h2⟩ := ih (big_rshift1_wf hx)
    refine ⟨h1, ?_⟩
    rw [h2, big_rshift1_val hx, Nat.div_div_eq_div_mul, pow_succ']

/-- C21: `big_rshift1` is a logical right shift of the whole 512-bit value:
applied `k` times (any `k`, in particular `k < 512`) it gives
`floor(val(x) / 2^k)`; after one application
bit 511 is 0 and bit `j` of the result is bit `j+1` of `x`, so for an even
value the low bit of the result is bit 1 of the value. -/
theorem C21_rshift1_logical_shift (x : Big512) (k : Nat) (hx : x.WF) :
    (big_rshift1^[k] x).val = x.val / 2 ^ k ∧
    (big_rshift1 x).val.testBit 511 = false ∧
    (∀ j, (big_rshift1 x).val.testBit j = x.val.testBit (j + 1)) ∧
    (x.val % 2 = 0 → (big_rshift1 x).val.testBit 0 = x.val.testBit 1) := by
  have hv := big_rshift1_val hx
  have hbit : ∀ j, (big_rshift1 x).val.testBit j = x.val.testBit (j + 1) := by
    intro j
    rw [hv, Nat.testBit_succ]
  refine ⟨(big_rshift1_iterate hx k).2, ?_, hbit, fun _ => hbit 0⟩
  apply Nat.testBit_lt_two_pow
  have := Big512.val_lt hx
  rw [hv]
  omega

/-- Witness for C21: `x = 2^511 + 2^64 + 6`, shifted 65 times. -/
theorem C21_rshift1_logical_shift_witness :
    (Big512.ofNat (2 ^ 511 + 2 ^ 64 + 6)).WF ∧
    ((big_rshift1^[65] (Big512.ofNat (2 ^ 511 + 2 ^ 64 + 6))).val
        = (Big512.ofNat (2 ^ 511 + 2 ^ 64 + 6)).val / 2 ^ 65 ∧
      (big_rshift1 (Big512.ofNat (2 ^ 511 + 2 ^ 64 + 6))).val.testBit 511 = false ∧
      (∀ j, (big_rshift1 (Big512.ofNat (2 ^ 511 + 2 ^ 64 + 6))).val.testBit j
        = (Big512.ofNat (2 ^ 511 + 2 ^ 64 + 6)).val.testBit (j + 1)) ∧
      ((Big512.ofNat (2 ^ 511 + 2 ^ 64 + 6)).val % 2 = 0 →
        (big_rshift1 (Big512.ofNat (2 ^ 511 + 2 ^ 64 + 6))).val.testBit 0
          = (Big512.ofNat (2 ^ 511 + 2 ^ 64 + 6)).val.testBit 1)) :=
  ⟨by decide,
    C21_rshift1_logical_shift (Big512.ofNat (2 ^ 511 + 2 ^ 64 + 6)) 65 (by decide)⟩

theorem two_pow_le_lor (a i : Nat) : 2 ^ i ≤ a ||| 2 ^ i := by
  apply Nat.testBit_implies_ge
  rw [Nat.testBit_or, Nat.testBit_two_pow_self, Bool.or_true]

/-- C22: whatever the values returned by `rand()`, the value produced by
`big_rand` is odd and has bit 511 set: `2^511 <= val(x) < 2^512` and
`val(x) mod 2 = 1`. -/
theorem C22_big_rand_shape (rand : Nat → Nat) (pos : Nat) :
    2 ^ 511 ≤ (big_rand rand pos).1.val ∧ (big_rand rand pos).1.val < 2 ^ 512 ∧
    (big_rand rand pos).1.val % 2 = 1 := by
  have hwf := big_rand_wf rand pos
  obtain ⟨h1, -⟩ := big_rand_loop_inv rand pos big_zero 8 (by decide)
  have hlen : (big_rand_loop rand pos big_zero 8).v.length = 8 := by rw [h1]; rfl
  have hl0 : (big_rand rand pos).1.limb 0 % 2 = 1 := by
    unfold big_rand
    simp only [Big512.limb_set, Big512.length_set, hlen]
    simp only [true_and, Nat.lt_add_one, Nat.zero_lt_succ, if_true]
    exact Nat.or_mod_two_eq_one.mpr (Or.inr rfl)
  have hl7 : 2 ^ 63 ≤ (big_rand rand pos).1.limb 7 := by
    unfold big_rand
    simp only [Big512.limb_set, Big512.length_set, hlen]
    simp only [LIMBS, Nat.add_one_sub_one, true_and, Nat.lt_add_one, if_true,
      (by decide : ¬ (0 = 7 ∧ 0 < 8)), if_false]
    exact two_pow_le_lor _ 63
  refine ⟨?_, Big512.val_lt hwf, by rw [Big512.val_mod_two]; exact hl0⟩
  have hv : (big_rand rand pos).1.val
      = limbsVal (big_rand rand pos).1.limb 7 + (big_rand rand pos).1.limb 7 * 2 ^ (64 * 7) :=
    rfl
  rw [hv]
  have : (2 : Nat) ^ 511 = 2 ^ 63 * 2 ^ (64 * 7) := by norm_num
  rw [this]
  exact le_trans (Nat.mul_le_mul_right _ hl7) (Nat.le_add_left _ _)

theorem limbsVal_eq_sum (f : Nat → Nat) (k : Nat) :
    limbsVal f k = ∑ i in Finset.range k, f i * 2 ^ (64 * i) := by
  induction k with
  | zero => rfl
  | succ k ih => rw [limbsVal, Finset.sum_range_succ, ih]

/-- C29: the schoolbook product is exact: after the nested multiplication
loops of `big_mulmod` every entry `tmp[k]`, `k = 0..15`, is below `2^64` and
the sum of `tmp[k] * 2^(64*k)` is `val(a) * val(b)`; at every step `(i, j)` the
128-bit accumulator `t = tmp[i+j] + a[i]*b[j] + carry` is at most `2^128 - 1`,
so no step wraps around. -/
theorem C29_schoolbook_product_exact (a b : Big512) (ha : a.WF) (hb : b.WF) :
    (∀ k, k < 16 → (mul_outer a b LIMBS).getD k 0 < 2 ^ 64) ∧
    ∑ k in Finset.range 16, (mul_outer a b LIMBS).getD k 0 * 2 ^ (64 * k) = a.val * b.val ∧
    (∀ i j, i < 8 → j < 8 →
      (mul_inner a b i (mul_outer a b i) j).1.getD (i + j) 0 + a.limb i * b.limb j
        + (mul_inner a b i (mul_outer a b i) j).2 ≤ 2 ^ 128 - 1) := by
  obtain ⟨-, hbd, -, hval⟩ := mul_outer_inv a b ha.limb_lt hb.limb_lt 8 (le_refl _)
  refine ⟨fun k _ => hbd k, ?_, ?_⟩
  · rw [← limbsVal_eq_sum]
    exact hval
  · intro i j hi hj
    obtain ⟨hlen, hbd2, -, -⟩ := mul_outer_inv a b ha.limb_lt hb.limb_lt i (by omega)
    obtain ⟨-, h2, -, h4, -⟩ := mul_inner_inv a b ha.limb_lt hb.limb_lt i (mul_outer a b i)
      hbd2 j (by rw [hlen]; omega)
    have hx := h2 (i + j)
    have hp : a.limb i * b.limb j ≤ (2 ^ 64 - 1) * (2 ^ 64 - 1) :=
      Nat.mul_le_mul (by have := ha.limb_lt i; omega) (by have := hb.limb_lt j; omega)
    have h3 : ((2 : Nat) ^ 64 - 1) * (2 ^ 64 - 1) = 2 ^ 128 - 2 * 2 ^ 64 + 1 := by norm_num
    omega

/-- Witness for C29: two full-width factors. -/
theorem C29_schoolbook_product_exact_witness :
    (∀ k, k < 16 → (mul_outer (Big512.ofNat (2 ^ 512 - 1)) (Big512.ofNat (2 ^ 512 - 1))
        LIMBS).getD k 0 < 2 ^ 64) ∧
    ∑ k in Finset.range 16, (mul_outer (Big512.ofNat (2 ^ 512 - 1))
        (Big512.ofNat (2 ^ 512 - 1)) LIMBS).getD k 0 * 2 ^ (64 * k)
      = (Big512.ofNat (2 ^ 512 - 1)).val * (Big512.ofNat (2 ^ 512 - 1)).val ∧
    (∀ i j, i < 8 → j < 8 →
      (mul_inner (Big512.ofNat (2 ^ 512 - 1)) (Big512.ofNat (2 ^ 512 - 1)) i
          (mul_outer (Big512.ofNat (2 ^ 512 - 1)) (Big512.ofNat (2 ^ 512 - 1)) i) j).1.getD
          (i + j) 0
        + (Big512.ofNat (2 ^ 512 - 1)).limb i * (Big512.ofNat (2 ^ 512 - 1)).limb j
        + (mul_inner (Big512.ofNat (2 ^ 512 - 1)) (Big512.ofNat (2 ^ 512 - 1)) i
          (mul_outer (Big512.ofNat (2 ^ 512 - 1)) (Big512.ofNat (2 ^ 512 - 1)) i) j).2
        ≤ 2 ^ 128 - 1) :=
  C29_schoolbook_product_exact (Big512.ofNat (2 ^ 512 - 1)) (Big512.ofNat (2 ^ 512 - 1))
    (by decide) (by decide)

/-- C30 (the code departs from the claim): a factor handed to `big_mulmod` is
not below the modulus.  For `n = 7` and every `rand()` call returning 0, the
base of round 0 is `a = 2^511 - 5`; `d = 3` has bit 0 set, so iteration 0 of
`big_powmod(a, d, n)` calls `big_mulmod(result = 1, b = a, mod = 7)` with the
second factor `a >= n`. -/
theorem C30_factor_not_below_modulus :
    (Big512.ofNat 7).val = 7 ∧
    decompose (2 ^ 512) (Big512.ofNat 7) = some (Big512.ofNat 3, 1) ∧
    round_base (Big512.ofNat 7) (fun _ => 0) 0 0 = Big512.ofNat (2 ^ 511 - 5) ∧
    big_powmod_loop (2 ^ 512) (Big512.ofNat (2 ^ 511 - 5)) (big_copy (Big512.ofNat 3))
      (Big512.ofNat 7) 0 = some (big_one, Big512.ofNat (2 ^ 511 - 5)) ∧
    (big_copy (Big512.ofNat 3)).limb (0 / 64) &&& 2 ^ (0 % 64) ≠ 0 ∧
    (Big512.ofNat 7).val ≤ (Big512.ofNat (2 ^ 511 - 5)).val := by
  refine ⟨by decide, ?_, by decide, rfl, by decide, by decide⟩
  exact decompose_eq (Big512.ofNat_wf 7) (by decide) (by decide) (Big512.ofNat_wf 3) (by decide)
    (by decide) (2 ^ 512) (by norm_num)

/-! ## Claim C28: the external form -/

theorem word_of_bytes8 (w : Nat) (hw : w < 2 ^ 64) : word_of_bytes (bytes8 w) = w := by
  simp only [bytes8, word_of_bytes, List.range, List.range.loop, List.map, List.foldl]
  norm_num
  omega

theorem bytes8_word (l : List Nat) (hl : l.length = 8) (hb : ∀ b ∈ l, b < 256) :
    bytes8 (word_of_bytes l) = l := by
  match l, hl with
  | [b0, b1, b2, b3, b4, b5, b6, b7], _ =>
    simp only [List.mem_cons, List.mem_singleton, forall_eq_or_imp, forall_eq,
      List.not_mem_nil, false_implies, implies_true, and_true] at hb
    obtain ⟨h0, h1, h2, h3, h4, h5, h6, h7⟩ := hb
    simp only [bytes8, word_of_bytes, List.range, List.range.loop, List.map, List.foldl]
    norm_num
    refine ⟨?_, ?_, ?_, ?_, ?_, ?_, ?_, ?_⟩ <;> omega

theorem hex16_bytes8 (w : Nat) (hw : w < 2 ^ 64) :
    hex16 w = (bytes8 w).flatMap hex_of_byte := by
  simp only [hex16, bytes8, hex_of_byte, List.range, List.range.loop, List.map, List.flatMap,
    List.flatten, List.append, List.cons_append, List.nil_append, Nat.mod_eq_of_lt hw]
  norm_num
  refine ⟨?_, ?_, ?_, ?_, ?_, ?_, ?_, ?_⟩ <;> congr 1 <;> omega

theorem big_print_loop_eq (x : Big512) (hx : x.WF) (k : Nat) :
    big_print_loop x k = (to_bytes_loop x k).flatMap hex_of_byte := by
  induction k with
  | zero => rfl
  | succ k ih =>
    rw [big_print_loop, to_bytes_loop, List.flatMap_append, ih, hex16_bytes8 _ (hx.limb_lt k)]

theorem to_bytes_of_wf (x0 x1 x2 x3 x4 x5 x6 x7 : Nat) :
    Big512.to_bytes ⟨[x0, x1, x2, x3, x4, x5, x6, x7]⟩
      = bytes8 x7 ++ (bytes8 x6 ++ (bytes8 x5 ++ (bytes8 x4 ++ (bytes8 x3 ++ (bytes8 x2
          ++ (bytes8 x1 ++ (bytes8 x0 ++ []))))))) := rfl

theorem bytes8_length (w : Nat) : (bytes8 w).length = 8 := by
  simp [bytes8]

theorem bytes8_lt (w : Nat) : ∀ b ∈ bytes8 w, b < 256 := by
  intro b hb
  simp only [bytes8, List.mem_map] at hb
  obtain ⟨m, -, rfl⟩ := hb
  exact Nat.mod_lt _ (by norm_num)

theorem take_drop_chunks (a0 a1 a2 a3 a4 a5 a6 a7 : List Nat) (h0 : a0.length = 8)
    (h1 : a1.length = 8) (h2 : a2.length = 8) (h3 : a3.length = 8) (h4 : a4.length = 8)
    (h5 : a5.length = 8) (h6 : a6.length = 8) (h7 : a7.length = 8) (j : Nat) (hj : j < 8) :
    ((a0 ++ (a1 ++ (a2 ++ (a3 ++ (a4 ++ (a5 ++ (a6 ++ (a7 ++ [])))))))).drop (8 * j)).take 8
      = [a0, a1, a2, a3, a4, a5, a6, a7].getD j [] := by
  have dn : ∀ (n : Nat) (a r : List Nat), a.length = 8 → 8 ≤ n →
      (a ++ r).drop n = r.drop (n - 8) := by
    intro n a r h hn
    rw [List.drop_append_eq_append_drop, h, List.drop_of_length_le (by omega), List.nil_append]
  have t : ∀ (a r : List Nat), a.length = 8 → (a ++ r).take 8 = a := by
    intro a r h
    rw [List.take_append_eq_append_take, h, Nat.sub_self, List.take_zero, List.append_nil,
      List.take_of_length_le (by omega)]
  interval_cases j
  · exact t _ _ h0
  · rw [dn 8 _ _ h0 (by norm_num)]; exact t _ _ h1
  · rw [dn 16 _ _ h0 (by norm_num), dn 8 _ _ h1 (by norm_num)]; exact t _ _ h2
  · rw [dn 24 _ _ h0 (by norm_num), dn 16 _ _ h1 (by norm_num), dn 8 _ _ h2 (by norm_num)]
    exact t _ _ h3
  · rw [dn 32 _ _ h0 (by norm_num), dn 24 _ _ h1 (by norm_num), dn 16 _ _ h2 (by norm_num),
      dn 8 _ _ h3 (by norm_num)]
    exact t _ _ h4
  · rw [dn 40 _ _ h0 (by norm_num), dn 32 _ _ h1 (by norm_num), dn 24 _ _ h2 (by norm_num),
      dn 16 _ _ h3 (by norm_num), dn 8 _ _ h4 (by norm_num)]
    exact t _ _ h5
  · rw [dn 48 _ _ h0 (by norm_num), dn 40 _ _ h1 (by norm_num), dn 32 _ _ h2 (by norm_num),
      dn 24 _ _ h3 (by norm_num), dn 16 _ _ h4 (by norm_num), dn 8 _ _ h5 (by norm_num)]
    exact t _ _ h6
  · rw [dn 56 _ _ h0 (by norm_num), dn 48 _ _ h1 (by norm_num), dn 40 _ _ h2 (by norm_num),
      dn 32 _ _ h3 (by norm_num), dn 24 _ _ h4 (by norm_num), dn 16 _ _ h5 (by norm_num),
      dn 8 _ _ h6 (by norm_num)]
    exact t _ _ h7

theorem of_bytes_chunks (a0 a1 a2 a3 a4 a5 a6 a7 : List Nat) (h0 : a0.length = 8)
    (h1 : a1.length = 8) (h2 : a2.length = 8) (h3 : a3.length = 8) (h4 : a4.length = 8)
    (h5 : a5.length = 8) (h6 : a6.length = 8) (h7 : a7.length = 8) :
    Big512.of_bytes (a0 ++ (a1 ++ (a2 ++ (a3 ++ (a4 ++ (a5 ++ (a6 ++ (a7 ++ []))))))))
      = ⟨[word_of_bytes a7, word_of_bytes a6, word_of_bytes a5, word_of_bytes a4,
          word_of_bytes a3, word_of_bytes a2, word_of_bytes a1, word_of_bytes a0]⟩ := by
  have c := take_drop_chunks a0 a1 a2 a3 a4 a5 a6 a7 h0 h1 h2 h3 h4 h5 h6 h7
  have c0 := c 0 (by norm_num)
  have c1 := c 1 (by norm_num)
  have c2 := c 2 (by norm_num)
  have c3 := c 3 (by norm_num)
  have c4 := c 4 (by norm_num)
  have c5 := c 5 (by norm_num)
  have c6 := c 6 (by norm_num)
  have c7 := c 7 (by norm_num)
  simp only [Nat.reduceMul, List.getD_cons_zero, List.getD_cons_succ] at c0 c1 c2 c3 c4 c5 c6 c7
  simp only [Big512.of_bytes, LIMBS, List.range, List.range.loop, List.map, Nat.sub_zero,
    Nat.reduceSub, Nat.reduceMul, c0, c1, c2, c3, c4, c5, c6, c7]

theorem split_chunks (bs : List Nat) (hl : bs.length = 64) :
    bs = (bs.drop (8 * 0)).take 8 ++ ((bs.drop (8 * 1)).take 8 ++ ((bs.drop (8 * 2)).take 8
      ++ ((bs.drop (8 * 3)).take 8 ++ ((bs.drop (8 * 4)).take 8 ++ ((bs.drop (8 * 5)).take 8
      ++ ((bs.drop (8 * 6)).take 8 ++ ((bs.drop (8 * 7)).take 8 ++ []))))))) := by
  have step : ∀ (n : Nat) (l : List Nat), l.drop n = (l.drop n).take 8 ++ l.drop (n + 8) := by
    intro n l
    rw [← List.drop_drop, List.take_append_drop]
  have e := step 0 bs
  rw [List.drop_zero] at e
  have hnil : bs.drop 64 = [] := List.drop_of_length_le (by omega)
  conv_lhs => rw [e, step 8 bs, step 16 bs, step 24 bs, step 32 bs, step 40 bs, step 48 bs,
    step 56 bs, hnil]
  simp only [Nat.zero_add, Nat.reduceMul, Nat.reduceAdd, List.drop_zero]

theorem chunk_length (bs : List Nat) (hl : bs.length = 64) (j : Nat) (hj : j < 8) :
    ((bs.drop (8 * j)).take 8).length = 8 := by
  rw [List.length_take, List.length_drop, hl]
  omega

theorem chunk_lt (bs : List Nat) (hb : ∀ b ∈ bs, b < 256) (j : Nat) :
    ∀ b ∈ (bs.drop (8 * j)).take 8, b < 256 :=
  fun b h => hb b (List.mem_of_mem_drop (List.mem_of_mem_take h))

/-- C28: the external form round-trips.  The 64-byte big-endian form of a
512-bit value, which `big_print` emits as 128 hex digits, most significant
limb first, followed by a newline, decodes back to the same value, and
re-encoding a decoded byte string gives the same bytes. -/
theorem C28_external_form_round_trip (x : Big512) (bs : List Nat) (hx : x.WF)
    (hl : bs.length = 64) (hb : ∀ b ∈ bs, b < 256) :
    x.to_bytes.length = 64 ∧ (∀ b ∈ x.to_bytes, b < 256) ∧
    big_print x = x.to_bytes.flatMap hex_of_byte ++ [Char.ofNat 10] ∧
    Big512.of_bytes x.to_bytes = x ∧
    (Big512.of_bytes bs).WF ∧ (Big512.of_bytes bs).to_bytes = bs := by
  have hlen8 := bytes8_length
  refine ⟨?_, ?_, ?_, ?_, ?_, ?_⟩
  · simp [Big512.to_bytes, to_bytes_loop, bytes8_length]
  · intro b h
    simp only [Big512.to_bytes, to_bytes_loop, LIMBS, List.mem_append, List.not_mem_nil,
      or_false] at h
    rcases h with h | h | h | h | h | h | h | h <;> exact bytes8_lt _ b h
  · rw [big_print, big_print_loop_eq x hx]
    rfl
  · obtain ⟨v⟩ := x
    obtain ⟨hlv, hbv⟩ := hx
    match v, hlv with
    | [x0, x1, x2, x3, x4, x5, x6, x7], _ =>
      simp only [List.mem_cons, List.mem_singleton, forall_eq_or_imp, forall_eq,
        List.not_mem_nil, false_implies, implies_true, and_true] at hbv
      obtain ⟨b0, b1, b2, b3, b4, b5, b6, b7⟩ := hbv
      rw [to_bytes_of_wf, of_bytes_chunks _ _ _ _ _ _ _ _ (hlen8 _) (hlen8 _) (hlen8 _)
        (hlen8 _) (hlen8 _) (hlen8 _) (hlen8 _) (hlen8 _)]
      rw [word_of_bytes8 _ b0, word_of_bytes8 _ b1, word_of_bytes8 _ b2, word_of_bytes8 _ b3,
        word_of_bytes8 _ b4, word_of_bytes8 _ b5, word_of_bytes8 _ b6, word_of_bytes8 _ b7]
  · apply Big512.wf_of_limbs
    · simp [Big512.of_bytes]
    · intro i hi
      have hw : ∀ l : List Nat, l.length = 8 → (∀ b ∈ l, b < 256) →
          word_of_bytes l < 2 ^ 64 := by
        intro l h8 hlt
        match l, h8 with
        | [c0, c1, c2, c3, c4, c5, c6, c7], _ =>
          simp only [List.mem_cons, forall_eq_or_imp, forall_eq,
            List.not_mem_nil, false_implies, implies_true, and_true] at hlt
          obtain ⟨b0, b1, b2, b3, b4, b5, b6, b7⟩ := hlt
          simp only [word_of_bytes, List.foldl]
          omega
      simp only [Big512.of_bytes, Big512.limb, List.getD_eq_getElem?_getD]
      rw [List.getElem?_map, List.getElem?_range hi]
      exact hw _ (chunk_length bs hl (7 - i) (by omega)) (chunk_lt bs hb (7 - i))
  · have hs := split_chunks bs hl
    have hc := chunk_length bs hl
    have e : Big512.of_bytes bs = Big512.of_bytes ((bs.drop (8 * 0)).take 8
        ++ ((bs.drop (8 * 1)).take 8 ++ ((bs.drop (8 * 2)).take 8
        ++ ((bs.drop (8 * 3)).take 8 ++ ((bs.drop (8 * 4)).take 8 ++ ((bs.drop (8 * 5)).take 8
        ++ ((bs.drop (8 * 6)).take 8 ++ ((bs.drop (8 * 7)).take 8 ++ [])))))))) := by
      rw [← hs]
    rw [e, of_bytes_chunks _ _ _ _ _ _ _ _ (hc 0 (by norm_num)) (hc 1 (by norm_num))
      (hc 2 (by norm_num)) (hc 3 (by norm_num)) (hc 4 (by norm_num)) (hc 5 (by norm_num))
      (hc 6 (by norm_num)) (hc 7 (by norm_num)), to_bytes_of_wf]
    rw [bytes8_word _ (hc 0 (by norm_num)) (chunk_lt bs hb 0),
      bytes8_word _ (hc 1 (by norm_num)) (chunk_lt bs hb 1),
      bytes8_word _ (hc 2 (by norm_num)) (chunk_lt bs hb 2),
      bytes8_word _ (hc 3 (by norm_num)) (chunk_lt bs hb 3),
      bytes8_word _ (hc 4 (by norm_num)) (chunk_lt bs hb 4),
      bytes8_word _ (hc 5 (by norm_num)) (chunk_lt bs hb 5),
      bytes8_word _ (hc 6 (by norm_num)) (chunk_lt bs hb 6),
      bytes8_word _ (hc 7 (by norm_num)) (chunk_lt bs hb 7)]
    exact hs.symm

/-- Witness for C28: the value `2^511 + 1` and the byte string
`0, 1, ..., 63`. -/
theorem C28_external_form_round_trip_witness :
    ((Big512.ofNat (2 ^ 511 + 1)).WF ∧ (List.range 64).length = 64 ∧
      ∀ b ∈ List.range 64, b < 256) ∧
    ((Big512.ofNat (2 ^ 511 + 1)).to_bytes.length = 64 ∧
      (∀ b ∈ (Big512.ofNat (2 ^ 511 + 1)).to_bytes, b < 256) ∧
      big_print (Big512.ofNat (2 ^ 511 + 1))
        = (Big512.ofNat (2 ^ 511 + 1)).to_bytes.flatMap hex_of_byte ++ [Char.ofNat 10] ∧
      Big512.of_bytes (Big512.ofNat (2 ^ 511 + 1)).to_bytes = Big512.ofNat (2 ^ 511 + 1) ∧
      (Big512.of_bytes (List.range 64)).WF ∧
      (Big512.of_bytes (List.range 64)).to_bytes = List.range 64) :=
  ⟨⟨by decide, by decide, by decide⟩,
    C28_external_form_round_trip (Big512.ofNat (2 ^ 511 + 1)) (List.range 64) (by decide)
      (by decide) (by decide)⟩

end MR

namespace RSA

/-! ## The 64-bit `modexp` -/

/-- C27: `modexp` is not modular exponentiation on all of `uint64_t`: the
products `result * base` and `base * base` wrap around modulo `2^64`.  With
`base = 2^32`, `exp = 2`, `mod = 2^64 - 1` it returns 0 where
`base^exp mod mod = 1`; with the modulus `1000000007 * 1000000009` of the size
the text demo generates, the character code 65 and the public exponent 65537
it returns 524686751237726795 where the power is 122637187800901808. -/
theorem C27_modexp_wraps :
    modexp 65 (2 ^ 32) 2 (2 ^ 64 - 1) = some 0 ∧ (2 ^ 32) ^ 2 % (2 ^ 64 - 1) = 1 ∧
    1000000007 * 1000000009 = 1000000016000000063 ∧ 1000000016000000063 < 2 ^ 64 ∧
    modexp 65 65 65537 1000000016000000063 = some 524686751237726795 ∧
    65 ^ 65537 % 1000000016000000063 = 122637187800901808 := by
  refine ⟨by decide, by decide, by decide, by decide, by decide, ?_⟩
  rw [← MR.modpow_eq 65 65537 1000000016000000063 (by norm_num)]
  decide

end RSA

namespace AES

/-! ## AES: the field arithmetic of `xtime` and `gmul` -/

theorem and_128 (x : Nat) : (x &&& 0x80 ≠ 0) ↔ x.testBit 7 = true := by
  have h := Nat.and_two_pow x 7
  norm_num at h
  rw [h]
  cases x.testBit 7 <;> simp

theorem xtime_eq (x : Nat) :
    xtime x = ((x <<< 1) ^^^ (if x.testBit 7 = true then 27 else 0)) % 2 ^ 8 := by
  unfold xtime
  by_cases h : x.testBit 7 = true
  · rw [if_pos ((and_128 x).2 h), if_pos h]
    norm_num
  · rw [if_neg (fun h2 => h ((and_128 x).1 h2)), if_neg h]
    norm_num

theorem xtime_lt (x : Nat) : xtime x < 256 := Nat.mod_lt _ (by norm_num)

theorem xtime_xor (a b : Nat) : xtime (a ^^^ b) = xtime a ^^^ xtime b := by
  rw [xtime_eq, xtime_eq, xtime_eq]
  apply Nat.eq_of_testBit_eq
  intro i
  simp only [Nat.testBit_mod_two_pow, Nat.testBit_xor, Nat.testBit_shiftLeft]
  cases a.testBit 7 <;> cases b.testBit 7 <;> cases a.testBit (i - 1) <;>
    cases b.testBit (i - 1) <;> simp <;> cases decide (i < 8) <;> cases decide (1 ≤ i) <;>
    cases Nat.testBit 27 i <;> rfl

theorem gmul_loop_zero (res a : Nat) : gmul_loop res a 0 = res := by
  rw [gmul_loop]
  simp

theorem gmul_loop_pos (res a b : Nat) (h : b ≠ 0) :
    gmul_loop res a b
      = gmul_loop (if b &&& 1 ≠ 0 then res ^^^ a else res) (xtime a) (b >>> 1) := by
  rw [gmul_loop]
  simp [h]

theorem gmul_9 (a : Nat) : gmul a 0x09 = a ^^^ xtime (xtime (xtime a)) := by
  simp [gmul, gmul_loop_pos, gmul_loop_zero]

theorem gmul_11 (a : Nat) : gmul a 0x0b = a ^^^ xtime a ^^^ xtime (xtime (xtime a)) := by
  simp [gmul, gmul_loop_pos, gmul_loop_zero]

theorem gmul_13 (a : Nat) :
    gmul a 0x0d = a ^^^ xtime (xtime a) ^^^ xtime (xtime (xtime a)) := by
  simp [gmul, gmul_loop_pos, gmul_loop_zero]

theorem gmul_14 (a : Nat) :
    gmul a 0x0e = xtime a ^^^ xtime (xtime a) ^^^ xtime (xtime (xtime a)) := by
  simp [gmul, gmul_loop_pos, gmul_loop_zero]

/-! ## AES: the state operations on an explicit state -/

theorem SubBytes_list (s0 s1 s2 s3 s4 s5 s6 s7 s8 s9 s10 s11 s12 s13 s14 s15 : Nat) :
    SubBytes [s0, s1, s2, s3,
       s4, s5, s6, s7,
       s8, s9, s10, s11,
       s12, s13, s14, s15]
      = [sbox.getD s0 0, sbox.getD s1 0, sbox.getD s2 0, sbox.getD s3 0,
         sbox.getD s4 0, sbox.getD s5 0, sbox.getD s6 0, sbox.getD s7 0,
         sbox.getD s8 0, sbox.getD s9 0, sbox.getD s10 0, sbox.getD s11 0,
         sbox.getD s12 0, sbox.getD s13 0, sbox.getD s14 0, sbox.getD s15 0] := by
  simp only [SubBytes, InvSubBytes, ShiftRows, InvShiftRows, MixColumns, InvMixColumns,
    AddRoundKey, bytes_to_state, state_to_bytes, for_loop, State.put, State.get, Nat.reduceMul,
    Nat.reduceAdd, List.getD_cons_zero, List.getD_cons_succ, List.set_cons_zero,
    List.set_cons_succ, List.replicate]

theorem InvSubBytes_list (s0 s1 s2 s3 s4 s5 s6 s7 s8 s9 s10 s11 s12 s13 s14 s15 : Nat) :
    InvSubBytes [s0, s1, s2, s3,
       s4, s5, s6, s7,
       s8, s9, s10, s11,
       s12, s13, s14, s15]
      = [inv_sbox.getD s0 0, inv_sbox.getD s1 0, inv_sbox.getD s2 0, inv_sbox.getD s3 0,
         inv_sbox.getD s4 0, inv_sbox.getD s5 0, inv_sbox.getD s6 0, inv_sbox.getD s7 0,
         inv_sbox.getD s8 0, inv_sbox.getD s9 0, inv_sbox.getD s10 0, inv_sbox.getD s11 0,
         inv_sbox.getD s12 0, inv_sbox.getD s13 0, inv_sbox.getD s14 0, inv_sbox.getD s15 0] := by
  simp only [SubBytes, InvSubBytes, ShiftRows, InvShiftRows, MixColumns, InvMixColumns,
    AddRoundKey, bytes_to_state, state_to_bytes, for_loop, State.put, State.get, Nat.reduceMul,
    Nat.reduceAdd, List.getD_cons_zero, List.getD_cons_succ, List.set_cons_zero,
    List.set_cons_succ, List.replicate]

theorem ShiftRows_list (s0 s1 s2 s3 s4 s5 s6 s7 s8 s9 s10 s11 s12 s13 s14 s15 : Nat) :
    ShiftRows [s0, s1, s2, s3,
       s4, s5, s6, s7,
       s8, s9, s10, s11,
       s12, s13, s14, s15]
      = [s0, s1, s2, s3,
         s5, s6, s7, s4,
         s10, s11, s8, s9,
         s15, s12, s13, s14] := by
  simp only [SubBytes, InvSubBytes, ShiftRows, InvShiftRows, MixColumns, InvMixColumns,
    AddRoundKey, bytes_to_state, state_to_bytes, for_loop, State.put, State.get, Nat.reduceMul,
    Nat.reduceAdd, List.getD_cons_zero, List.getD_cons_succ, List.set_cons_zero,
    List.set_cons_succ, List.replicate]

theorem InvShiftRows_list (s0 s1 s2 s3 s4 s5 s6 s7 s8 s9 s10 s11 s12 s13 s14 s15 : Nat) :
    InvShiftRows [s0, s1, s2, s3,
       s4, s5, s6, s7,
       s8, s9, s10, s11,
       s12, s13, s14, s15]
      = [s0, s1, s2, s3,
         s7, s4, s5, s6,
         s10, s11, s8, s9,
         s13, s14, s15, s12] := by
  simp only [SubBytes, InvSubBytes, ShiftRows, InvShiftRows, MixColumns, InvMixColumns,
    AddRoundKey, bytes_to_state, state_to_bytes, for_loop, State.put, State.get, Nat.reduceMul,
    Nat.reduceAdd, List.getD_cons_zero, List.getD_cons_succ, List.set_cons_zero,
    List.set_cons_succ, List.replicate]

theorem MixColumns_list (s0 s1 s2 s3 s4 s5 s6 s7 s8 s9 s10 s11 s12 s13 s14 s15 : Nat) :
    MixColumns [s0, s1, s2, s3,
       s4, s5, s6, s7,
       s8, s9, s10, s11,
       s12, s13, s14, s15]
      = [s0 ^^^ (s0 ^^^ s4 ^^^ s8 ^^^ s12) ^^^ xtime (s0 ^^^ s4),
         s1 ^^^ (s1 ^^^ s5 ^^^ s9 ^^^ s13) ^^^ xtime (s1 ^^^ s5),
         s2 ^^^ (s2 ^^^ s6 ^^^ s10 ^^^ s14) ^^^ xtime (s2 ^^^ s6),
         s3 ^^^ (s3 ^^^ s7 ^^^ s11 ^^^ s15) ^^^ xtime (s3 ^^^ s7),
         s4 ^^^ (s0 ^^^ s4 ^^^ s8 ^^^ s12) ^^^ xtime (s4 ^^^ s8),
         s5 ^^^ (s1 ^^^ s5 ^^^ s9 ^^^ s13) ^^^ xtime (s5 ^^^ s9),
         s6 ^^^ (s2 ^^^ s6 ^^^ s10 ^^^ s14) ^^^ xtime (s6 ^^^ s10),
         s7 ^^^ (s3 ^^^ s7 ^^^ s11 ^^^ s15) ^^^ xtime (s7 ^^^ s11),
         s8 ^^^ (s0 ^^^ s4 ^^^ s8 ^^^ s12) ^^^ xtime (s8 ^^^ s12),
         s9 ^^^ (s1 ^^^ s5 ^^^ s9 ^^^ s13) ^^^ xtime (s9 ^^^ s13),
         s10 ^^^ (s2 ^^^ s6 ^^^ s10 ^^^ s14) ^^^ xtime (s10 ^^^ s14),
         s11 ^^^ (s3 ^^^ s7 ^^^ s11 ^^^ s15) ^^^ xtime (s11 ^^^ s15),
         s12 ^^^ (s0 ^^^ s4 ^^^ s8 ^^^ s12) ^^^ xtime (s12 ^^^ s0),
         s13 ^^^ (s1 ^^^ s5 ^^^ s9 ^^^ s13) ^^^ xtime (s13 ^^^ s1),
         s14 ^^^ (s2 ^^^ s6 ^^^ s10 ^^^ s14) ^^^ xtime (s14 ^^^ s2),
         s15 ^^^ (s3 ^^^ s7 ^^^ s11 ^^^ s15) ^^^ xtime (s15 ^^^ s3)] := by
  simp only [SubBytes, InvSubBytes, ShiftRows, InvShiftRows, MixColumns, InvMixColumns,
    AddRoundKey, bytes_to_state, state_to_bytes, for_loop, State.put, State.get, Nat.reduceMul,
    Nat.reduceAdd, List.getD_cons_zero, List.getD_cons_succ, List.set_cons_zero,
    List.set_cons_succ, List.replicate]

theorem InvMixColumns_list (s0 s1 s2 s3 s4 s5 s6 s7 s8 s9 s10 s11 s12 s13 s14 s15 : Nat) :
    InvMixColumns [s0, s1, s2, s3,
       s4, s5, s6, s7,
       s8, s9, s10, s11,
       s12, s13, s14, s15]
      = [(gmul s0 0x0e ^^^ gmul s4 0x0b ^^^ gmul s8 0x0d ^^^ gmul s12 0x09) % 256,
         (gmul s1 0x0e ^^^ gmul s5 0x0b ^^^ gmul s9 0x0d ^^^ gmul s13 0x09) % 256,
         (gmul s2 0x0e ^^^ gmul s6 0x0b ^^^ gmul s10 0x0d ^^^ gmul s14 0x09) % 256,
         (gmul s3 0x0e ^^^ gmul s7 0x0b ^^^ gmul s11 0x0d ^^^ gmul s15 0x09) % 256,
         (gmul s0 0x09 ^^^ gmul s4 0x0e ^^^ gmul s8 0x0b ^^^ gmul s12 0x0d) % 256,
         (gmul s1 0x09 ^^^ gmul s5 0x0e ^^^ gmul s9 0x0b ^^^ gmul s13 0x0d) % 256,
         (gmul s2 0x09 ^^^ gmul s6 0x0e ^^^ gmul s10 0x0b ^^^ gmul s14 0x0d) % 256,
         (gmul s3 0x09 ^^^ gmul s7 0x0e ^^^ gmul s11 0x0b ^^^ gmul s15 0x0d) % 256,
         (gmul s0 0x0d ^^^ gmul s4 0x09 ^^^ gmul s8 0x0e ^^^ gmul s12 0x0b) % 256,
         (gmul s1 0x0d ^^^ gmul s5 0x09 ^^^ gmul s9 0x0e ^^^ gmul s13 0x0b) % 256,
         (gmul s2 0x0d ^^^ gmul s6 0x09 ^^^ gmul s10 0x0e ^^^ gmul s14 0x0b) % 256,
         (gmul s3 0x0d ^^^ gmul s7 0x09 ^^^ gmul s11 0x0e ^^^ gmul s15 0x0b) % 256,
         (gmul s0 0x0b ^^^ gmul s4 0x0d ^^^ gmul s8 0x09 ^^^ gmul s12 0x0e) % 256,
         (gmul s1 0x0b ^^^ gmul s5 0x0d ^^^ gmul s9 0x09 ^^^ gmul s13 0x0e) % 256,
         (gmul s2 0x0b ^^^ gmul s6 0x0d ^^^ gmul s10 0x09 ^^^ gmul s14 0x0e) % 256,
         (gmul s3 0x0b ^^^ gmul s7 0x0d ^^^ gmul s11 0x09 ^^^ gmul s15 0x0e) % 256] := by
  simp only [SubBytes, InvSubBytes, ShiftRows, InvShiftRows, MixColumns, InvMixColumns,
    AddRoundKey, bytes_to_state, state_to_bytes, for_loop, State.put, State.get, Nat.reduceMul,
    Nat.reduceAdd, List.getD_cons_zero, List.getD_cons_succ, List.set_cons_zero,
    List.set_cons_succ, List.replicate]

theorem AddRoundKey_list (s0 s1 s2 s3 s4 s5 s6 s7 s8 s9 s10 s11 s12 s13 s14 s15 : Nat) (k : List Nat) :
    AddRoundKey [s0, s1, s2, s3,
       s4, s5, s6, s7,
       s8, s9, s10, s11,
       s12, s13, s14, s15] k
      = [s0 ^^^ k.getD 0 0, s1 ^^^ k.getD 4 0, s2 ^^^ k.getD 8 0, s3 ^^^ k.getD 12 0,
         s4 ^^^ k.getD 1 0, s5 ^^^ k.getD 5 0, s6 ^^^ k.getD 9 0, s7 ^^^ k.getD 13 0,
         s8 ^^^ k.getD 2 0, s9 ^^^ k.getD 6 0, s10 ^^^ k.getD 10 0, s11 ^^^ k.getD 14 0,
         s12 ^^^ k.getD 3 0, s13 ^^^ k.getD 7 0, s14 ^^^ k.getD 11 0, s15 ^^^ k.getD 15 0] := by
  simp only [SubBytes, InvSubBytes, ShiftRows, InvShiftRows, MixColumns, InvMixColumns,
    AddRoundKey, bytes_to_state, state_to_bytes, for_loop, State.put, State.get, Nat.reduceMul,
    Nat.reduceAdd, List.getD_cons_zero, List.getD_cons_succ, List.set_cons_zero,
    List.set_cons_succ, List.replicate]

theorem bytes_to_state_list (s0 s1 s2 s3 s4 s5 s6 s7 s8 s9 s10 s11 s12 s13 s14 s15 : Nat) :
    bytes_to_state [s0, s1, s2, s3,
       s4, s5, s6, s7,
       s8, s9, s10, s11,
       s12, s13, s14, s15]
      = [s0, s4, s8, s12,
         s1, s5, s9, s13,
         s2, s6, s10, s14,
         s3, s7, s11, s15] := by
  simp only [SubBytes, InvSubBytes, ShiftRows, InvShiftRows, MixColumns, InvMixColumns,
    AddRoundKey, bytes_to_state, state_to_bytes, for_loop, State.put, State.get, Nat.reduceMul,
    Nat.reduceAdd, List.getD_cons_zero, List.getD_cons_succ, List.set_cons_zero,
    List.set_cons_succ, List.replicate]

theorem state_to_bytes_list (s0 s1 s2 s3 s4 s5 s6 s7 s8 s9 s10 s11 s12 s13 s14 s15 : Nat) :
    state_to_bytes [s0, s1, s2, s3,
       s4, s5, s6, s7,
       s8, s9, s10, s11,
       s12, s13, s14, s15]
      = [s0, s4, s8, s12,
         s1, s5, s9, s13,
         s2, s6, s10, s14,
         s3, s7, s11, s15] := by
  simp only [SubBytes, InvSubBytes, ShiftRows, InvShiftRows, MixColumns, InvMixColumns,
    AddRoundKey, bytes_to_state, state_to_bytes, for_loop, State.put, State.get, Nat.reduceMul,
    Nat.reduceAdd, List.getD_cons_zero, List.getD_cons_succ, List.set_cons_zero,
    List.set_cons_succ, List.replicate]

theorem inv_mix_column_0 (a0 a1 a2 a3 : Nat) (h : a0 < 256) :
    (gmul (a0 ^^^ (a0 ^^^ a1 ^^^ a2 ^^^ a3) ^^^ xtime (a0 ^^^ a1)) 0x0e ^^^
      gmul (a1 ^^^ (a0 ^^^ a1 ^^^ a2 ^^^ a3) ^^^ xtime (a1 ^^^ a2)) 0x0b ^^^
      gmul (a2 ^^^ (a0 ^^^ a1 ^^^ a2 ^^^ a3) ^^^ xtime (a2 ^^^ a3)) 0x0d ^^^
      gmul (a3 ^^^ (a0 ^^^ a1 ^^^ a2 ^^^ a3) ^^^ xtime (a3 ^^^ a0)) 0x09) % 256 = a0 := by
  simp only [gmul_9, gmul_11, gmul_13, gmul_14, xtime_xor]
  ac_nf
  simp only [Nat.xor_cancel_left, Nat.xor_self, Nat.xor_zero]
  exact Nat.mod_eq_of_lt h

theorem inv_mix_column_1 (a0 a1 a2 a3 : Nat) (h : a1 < 256) :
    (gmul (a0 ^^^ (a0 ^^^ a1 ^^^ a2 ^^^ a3) ^^^ xtime (a0 ^^^ a1)) 0x09 ^^^
      gmul (a1 ^^^ (a0 ^^^ a1 ^^^ a2 ^^^ a3) ^^^ xtime (a1 ^^^ a2)) 0x0e ^^^
      gmul (a2 ^^^ (a0 ^^^ a1 ^^^ a2 ^^^ a3) ^^^ xtime (a2 ^^^ a3)) 0x0b ^^^
      gmul (a3 ^^^ (a0 ^^^ a1 ^^^ a2 ^^^ a3) ^^^ xtime (a3 ^^^ a0)) 0x0d) % 256 = a1 := by
  simp only [gmul_9, gmul_11, gmul_13, gmul_14, xtime_xor]
  ac_nf
  simp only [Nat.xor_cancel_left, Nat.xor_self, Nat.xor_zero]
  exact Nat.mod_eq_of_lt h

theorem inv_mix_column_2 (a0 a1 a2 a3 : Nat) (h : a2 < 256) :
    (gmul (a0 ^^^ (a0 ^^^ a1 ^^^ a2 ^^^ a3) ^^^ xtime (a0 ^^^ a1)) 0x0d ^^^
      gmul (a1 ^^^ (a0 ^^^ a1 ^^^ a2 ^^^ a3) ^^^ xtime (a1 ^^^ a2)) 0x09 ^^^
      gmul (a2 ^^^ (a0 ^^^ a1 ^^^ a2 ^^^ a3) ^^^ xtime (a2 ^^^ a3)) 0x0e ^^^
      gmul (a3 ^^^ (a0 ^^^ a1 ^^^ a2 ^^^ a3) ^^^ xtime (a3 ^^^ a0)) 0x0b) % 256 = a2 := by
  simp only [gmul_9, gmul_11, gmul_13, gmul_14, xtime_xor]
  ac_nf
  simp only [Nat.xor_cancel_left, Nat.xor_self, Nat.xor_zero]
  exact Nat.mod_eq_of_lt h

theorem inv_mix_column_3 (a0 a1 a2 a3 : Nat) (h : a3 < 256) :
    (gmul (a0 ^^^ (a0 ^^^ a1 ^^^ a2 ^^^ a3) ^^^ xtime (a0 ^^^ a1)) 0x0b ^^^
      gmul (a1 ^^^ (a0 ^^^ a1 ^^^ a2 ^^^ a3) ^^^ xtime (a1 ^^^ a2)) 0x0d ^^^
      gmul (a2 ^^^ (a0 ^^^ a1 ^^^ a2 ^^^ a3) ^^^ xtime (a2 ^^^ a3)) 0x09 ^^^
      gmul (a3 ^^^ (a0 ^^^ a1 ^^^ a2 ^^^ a3) ^^^ xtime (a3 ^^^ a0)) 0x0e) % 256 = a3 := by
  simp only [gmul_9, gmul_11, gmul_13, gmul_14, xtime_xor]
  ac_nf
  simp only [Nat.xor_cancel_left, Nat.xor_self, Nat.xor_zero]
  exact Nat.mod_eq_of_lt h

/-! ## AES: byte ranges and inverse operations -/

theorem list16 {P : List Nat → Prop}
    (h : ∀ s0 s1 s2 s3 s4 s5 s6 s7 s8 s9 s10 s11 s12 s13 s14 s15 : Nat,
      P [s0, s1, s2, s3, s4, s5, s6, s7, s8, s9, s10, s11, s12, s13, s14, s15])
    (s : List Nat) (hs : s.length = 16) : P s := by
  match s, hs with
  | [s0, s1, s2, s3, s4, s5, s6, s7, s8, s9, s10, s11, s12, s13, s14, s15], _ =>
    exact h s0 s1 s2 s3 s4 s5 s6 s7 s8 s9 s10 s11 s12 s13 s14 s15

theorem bytes16_iff (s0 s1 s2 s3 s4 s5 s6 s7 s8 s9 s10 s11 s12 s13 s14 s15 : Nat) :
    Bytes 16 [s0, s1, s2, s3, s4, s5, s6, s7, s8, s9, s10, s11, s12, s13, s14, s15] ↔
      s0 < 256 ∧ s1 < 256 ∧ s2 < 256 ∧ s3 < 256 ∧ s4 < 256 ∧ s5 < 256 ∧ s6 < 256 ∧ s7 < 256 ∧
      s8 < 256 ∧ s9 < 256 ∧ s10 < 256 ∧ s11 < 256 ∧ s12 < 256 ∧ s13 < 256 ∧ s14 < 256 ∧
      s15 < 256 := by
  simp only [Bytes, List.length_cons, List.length_nil, List.mem_cons, List.not_mem_nil,
    or_false, forall_eq_or_imp, forall_eq, true_and, Nat.reduceAdd]

theorem bytes16_elim {P : List Nat → Prop}
    (h : ∀ s0 s1 s2 s3 s4 s5 s6 s7 s8 s9 s10 s11 s12 s13 s14 s15 : Nat,
      s0 < 256 → s1 < 256 → s2 < 256 → s3 < 256 → s4 < 256 → s5 < 256 → s6 < 256 → s7 < 256 →
      s8 < 256 → s9 < 256 → s10 < 256 → s11 < 256 → s12 < 256 → s13 < 256 → s14 < 256 →
      s15 < 256 → P [s0, s1, s2, s3, s4, s5, s6, s7, s8, s9, s10, s11, s12, s13, s14, s15])
    (s : List Nat) (hs : Bytes 16 s) : P s := by
  have hl := hs.1
  revert hs
  refine list16 (P := fun s => Bytes 16 s → P s) ?_ s hl
  intro s0 s1 s2 s3 s4 s5 s6 s7 s8 s9 s10 s11 s12 s13 s14 s15 hs
  rw [bytes16_iff] at hs
  obtain ⟨h0, h1, h2, h3, h4, h5, h6, h7, h8, h9, h10, h11, h12, h13, h14, h15⟩ := hs
  exact h _ _ _ _ _ _ _ _ _ _ _ _ _ _ _ _ h0 h1 h2 h3 h4 h5 h6 h7 h8 h9 h10 h11 h12 h13 h14 h15

theorem getD_lt (l : List Nat) (h : ∀ b ∈ l, b < 256) (i : Nat) : l.getD i 0 < 256 := by
  by_cases hi : i < l.length
  · rw [List.getD_eq_getElem l 0 hi]
    exact h _ (List.getElem_mem hi)
  · rw [List.getD_eq_default l 0 (Nat.le_of_not_lt hi)]
    norm_num

theorem sbox_lt (i : Nat) : sbox.getD i 0 < 256 := getD_lt sbox (by decide) i

theorem inv_sbox_lt (i : Nat) : inv_sbox.getD i 0 < 256 := getD_lt inv_sbox (by decide) i

theorem Rcon_lt (i : Nat) : Rcon.getD i 0 < 256 := getD_lt Rcon (by decide) i

theorem inv_sbox_sbox : ∀ b < 256, inv_sbox.getD (sbox.getD b 0) 0 = b := by decide

theorem xor_lt (a b : Nat) (ha : a < 256) (hb : b < 256) : a ^^^ b < 256 :=
  Nat.xor_lt_two_pow (n := 8) ha hb

theorem SubBytes_bytes (s : List Nat) (hs : Bytes 16 s) : Bytes 16 (SubBytes s) := by
  refine bytes16_elim (P := fun s => Bytes 16 (SubBytes s)) ?_ s hs
  intros
  rw [SubBytes_list, bytes16_iff]
  refine ⟨?_, ?_, ?_, ?_, ?_, ?_, ?_, ?_, ?_, ?_, ?_, ?_, ?_, ?_, ?_, ?_⟩ <;> exact sbox_lt _

theorem InvSubBytes_bytes (s : List Nat) (hs : Bytes 16 s) : Bytes 16 (InvSubBytes s) := by
  refine bytes16_elim (P := fun s => Bytes 16 (InvSubBytes s)) ?_ s hs
  intros
  rw [InvSubBytes_list, bytes16_iff]
  refine ⟨?_, ?_, ?_, ?_, ?_, ?_, ?_, ?_, ?_, ?_, ?_, ?_, ?_, ?_, ?_, ?_⟩ <;> exact inv_sbox_lt _

theorem ShiftRows_bytes (s : List Nat) (hs : Bytes 16 s) : Bytes 16 (ShiftRows s) := by
  refine bytes16_elim (P := fun s => Bytes 16 (ShiftRows s)) ?_ s hs
  intros
  rw [ShiftRows_list, bytes16_iff]
  refine ⟨?_, ?_, ?_, ?_, ?_, ?_, ?_, ?_, ?_, ?_, ?_, ?_, ?_, ?_, ?_, ?_⟩ <;> assumption

theorem InvShiftRows_bytes (s : List Nat) (hs : Bytes 16 s) : Bytes 16 (InvShiftRows s) := by
  refine bytes16_elim (P := fun s => Bytes 16 (InvShiftRows s)) ?_ s hs
  intros
  rw [InvShiftRows_list, bytes16_iff]
  refine ⟨?_, ?_, ?_, ?_, ?_, ?_, ?_, ?_, ?_, ?_, ?_, ?_, ?_, ?_, ?_, ?_⟩ <;> assumption

theorem MixColumns_bytes (s : List Nat) (hs : Bytes 16 s) : Bytes 16 (MixColumns s) := by
  refine bytes16_elim (P := fun s => Bytes 16 (MixColumns s)) ?_ s hs
  intros
  rw [MixColumns_list, bytes16_iff]
  refine ⟨?_, ?_, ?_, ?_, ?_, ?_, ?_, ?_, ?_, ?_, ?_, ?_, ?_, ?_, ?_, ?_⟩ <;>
    refine xor_lt _ _ (xor_lt _ _ ?_ (xor_lt _ _ (xor_lt _ _ (xor_lt _ _ ?_ ?_) ?_) ?_))
      (xtime_lt _) <;> assumption

theorem InvMixColumns_bytes (s : List Nat) (hs : s.length = 16) :
    Bytes 16 (InvMixColumns s) := by
  refine list16 (P := fun s => Bytes 16 (InvMixColumns s)) ?_ s hs
  intros
  rw [InvMixColumns_list, bytes16_iff]
  refine ⟨?_, ?_, ?_, ?_, ?_, ?_, ?_, ?_, ?_, ?_, ?_, ?_, ?_, ?_, ?_, ?_⟩ <;>
    exact Nat.mod_lt _ (by norm_num)

theorem AddRoundKey_bytes (s k : List Nat) (hs : Bytes 16 s) (hk : ∀ b ∈ k, b < 256) :
    Bytes 16 (AddRoundKey s k) := by
  refine bytes16_elim (P := fun s => Bytes 16 (AddRoundKey s k)) ?_ s hs
  intros
  rw [AddRoundKey_list, bytes16_iff]
  refine ⟨?_, ?_, ?_, ?_, ?_, ?_, ?_, ?_, ?_, ?_, ?_, ?_, ?_, ?_, ?_, ?_⟩ <;>
    refine xor_lt _ _ ?_ (getD_lt k hk _) <;> assumption

theorem bytes_to_state_bytes (s : List Nat) (hs : Bytes 16 s) : Bytes 16 (bytes_to_state s) := by
  refine bytes16_elim (P := fun s => Bytes 16 (bytes_to_state s)) ?_ s hs
  intros
  rw [bytes_to_state_list, bytes16_iff]
  refine ⟨?_, ?_, ?_, ?_, ?_, ?_, ?_, ?_, ?_, ?_, ?_, ?_, ?_, ?_, ?_, ?_⟩ <;> assumption

theorem state_to_bytes_bytes (s : List Nat) (hs : Bytes 16 s) : Bytes 16 (state_to_bytes s) := by
  refine bytes16_elim (P := fun s => Bytes 16 (state_to_bytes s)) ?_ s hs
  intros
  rw [state_to_bytes_list, bytes16_iff]
  refine ⟨?_, ?_, ?_, ?_, ?_, ?_, ?_, ?_, ?_, ?_, ?_, ?_, ?_, ?_, ?_, ?_⟩ <;> assumption

theorem InvShiftRows_ShiftRows (s : List Nat) (hs : s.length = 16) :
    InvShiftRows (ShiftRows s) = s := by
  refine list16 (P := fun s => InvShiftRows (ShiftRows s) = s) ?_ s hs
  intros
  rw [ShiftRows_list, InvShiftRows_list]

theorem InvSubBytes_SubBytes (s : List Nat) (hs : Bytes 16 s) :
    InvSubBytes (SubBytes s) = s := by
  refine bytes16_elim (P := fun s => InvSubBytes (SubBytes s) = s) ?_ s hs
  intro s0 s1 s2 s3 s4 s5 s6 s7 s8 s9 s10 s11 s12 s13 s14 s15
    h0 h1 h2 h3 h4 h5 h6 h7 h8 h9 h10 h11 h12 h13 h14 h15
  rw [SubBytes_list, InvSubBytes_list, inv_sbox_sbox s0 h0, inv_sbox_sbox s1 h1,
    inv_sbox_sbox s2 h2, inv_sbox_sbox s3 h3, inv_sbox_sbox s4 h4, inv_sbox_sbox s5 h5,
    inv_sbox_sbox s6 h6, inv_sbox_sbox s7 h7, inv_sbox_sbox s8 h8, inv_sbox_sbox s9 h9,
    inv_sbox_sbox s10 h10, inv_sbox_sbox s11 h11, inv_sbox_sbox s12 h12, inv_sbox_sbox s13 h13,
    inv_sbox_sbox s14 h14, inv_sbox_sbox s15 h15]

theorem xor_xor_cancel (a b : Nat) : a ^^^ b ^^^ b = a := by
  rw [Nat.xor_assoc, Nat.xor_self, Nat.xor_zero]

theorem AddRoundKey_AddRoundKey (s k : List Nat) (hs : s.length = 16) :
    AddRoundKey (AddRoundKey s k) k = s := by
  refine list16 (P := fun s => AddRoundKey (AddRoundKey s k) k = s) ?_ s hs
  intros
  rw [AddRoundKey_list, AddRoundKey_list]
  simp only [xor_xor_cancel]

theorem InvMixColumns_MixColumns (s : List Nat) (hs : Bytes 16 s) :
    InvMixColumns (MixColumns s) = s := by
  refine bytes16_elim (P := fun s => InvMixColumns (MixColumns s) = s) ?_ s hs
  intro s0 s1 s2 s3 s4 s5 s6 s7 s8 s9 s10 s11 s12 s13 s14 s15
    h0 h1 h2 h3 h4 h5 h6 h7 h8 h9 h10 h11 h12 h13 h14 h15
  rw [MixColumns_list, InvMixColumns_list]
  rw [inv_mix_column_0 s0 s4 s8 s12 h0, inv_mix_column_0 s1 s5 s9 s13 h1,
    inv_mix_column_0 s2 s6 s10 s14 h2, inv_mix_column_0 s3 s7 s11 s15 h3,
    inv_mix_column_1 s0 s4 s8 s12 h4, inv_mix_column_1 s1 s5 s9 s13 h5,
    inv_mix_column_1 s2 s6 s10 s14 h6, inv_mix_column_1 s3 s7 s11 s15 h7,
    inv_mix_column_2 s0 s4 s8 s12 h8, inv_mix_column_2 s1 s5 s9 s13 h9,
    inv_mix_column_2 s2 s6 s10 s14 h10, inv_mix_column_2 s3 s7 s11 s15 h11,
    inv_mix_column_3 s0 s4 s8 s12 h12, inv_mix_column_3 s1 s5 s9 s13 h13,
    inv_mix_column_3 s2 s6 s10 s14 h14, inv_mix_column_3 s3 s7 s11 s15 h15]

theorem bytes_to_state_to_bytes (s : List Nat) (hs : s.length = 16) :
    bytes_to_state (state_to_bytes s) = s := by
  refine list16 (P := fun s => bytes_to_state (state_to_bytes s) = s) ?_ s hs
  intros
  rw [state_to_bytes_list, bytes_to_state_list]

theorem state_to_bytes_to_state (s : List Nat) (hs : s.length = 16) :
    state_to_bytes (bytes_to_state s) = s := by
  refine list16 (P := fun s => state_to_bytes (bytes_to_state s) = s) ?_ s hs
  intros
  rw [bytes_to_state_list, state_to_bytes_list]

/-! ## AES: the block cipher -/

theorem drop_lt (rk : List Nat) (h : ∀ b ∈ rk, b < 256) (n : Nat) :
    ∀ b ∈ rk.drop n, b < 256 :=
  fun b hb => h b (List.mem_of_mem_drop hb)

theorem encrypt_rounds_bytes (rk : List Nat) (hrk : ∀ b ∈ rk, b < 256) (n : Nat) (s : List Nat)
    (hs : Bytes 16 s) : Bytes 16 (encrypt_rounds rk n s) := by
  induction n with
  | zero => exact hs
  | succ n ih =>
    exact AddRoundKey_bytes _ _ (MixColumns_bytes _ (ShiftRows_bytes _ (SubBytes_bytes _ ih)))
      (drop_lt rk hrk _)

theorem decrypt_encrypt_rounds (rk : List Nat) (hrk : ∀ b ∈ rk, b < 256) (n : Nat)
    (s : List Nat) (hs : Bytes 16 s) :
    decrypt_rounds rk n (ShiftRows (SubBytes (encrypt_rounds rk n s)))
      = ShiftRows (SubBytes s) := by
  induction n with
  | zero => rfl
  | succ n ih =>
    have hE := encrypt_rounds_bytes rk hrk n s hs
    have hS := ShiftRows_bytes _ (SubBytes_bytes _ hE)
    have hM := MixColumns_bytes _ hS
    have hA := AddRoundKey_bytes _ _ hM (drop_lt rk hrk ((n + 1) * 16))
    simp only [decrypt_rounds, encrypt_rounds]
    rw [InvShiftRows_ShiftRows _ (SubBytes_bytes _ hA).1, InvSubBytes_SubBytes _ hA,
      AddRoundKey_AddRoundKey _ _ hM.1, InvMixColumns_MixColumns _ hS, ih]

theorem EncryptBlock_bytes (x rk : List Nat) (hx : Bytes 16 x) (hrk : ∀ b ∈ rk, b < 256) :
    Bytes 16 (AES128_EncryptBlock x rk) := by
  simp only [AES128_EncryptBlock]
  exact state_to_bytes_bytes _ (AddRoundKey_bytes _ _ (ShiftRows_bytes _ (SubBytes_bytes _
    (encrypt_rounds_bytes rk hrk 9 _ (AddRoundKey_bytes _ _ (bytes_to_state_bytes x hx) hrk))))
    (drop_lt rk hrk _))

theorem block_round_trip (x rk : List Nat) (hx : Bytes 16 x) (hrk : ∀ b ∈ rk, b < 256) :
    AES128_DecryptBlock (AES128_EncryptBlock x rk) rk = x := by
  have h0 := AddRoundKey_bytes _ rk (bytes_to_state_bytes x hx) hrk
  have hE := encrypt_rounds_bytes rk hrk 9 _ h0
  have hS := ShiftRows_bytes _ (SubBytes_bytes _ hE)
  have hA := AddRoundKey_bytes _ _ hS (drop_lt rk hrk (10 * 16))
  simp only [AES128_DecryptBlock, AES128_EncryptBlock]
  rw [bytes_to_state_to_bytes _ hA.1, AddRoundKey_AddRoundKey _ _ hS.1,
    decrypt_encrypt_rounds rk hrk 9 _ h0, InvShiftRows_ShiftRows _ (SubBytes_bytes _ h0).1,
    InvSubBytes_SubBytes _ h0, AddRoundKey_AddRoundKey _ _ (bytes_to_state_bytes x hx).1,
    state_to_bytes_to_state _ hx.1]

theorem KeyExpansion_loop_eq (n : Nat) : ∀ (rk : List Nat) (bg rc : Nat), bg + 4 * n = 176 →
    KeyExpansion_loop rk bg rc = (KeyExpansion_passes n (rk, bg, rc)).1 := by
  induction n with
  | zero =>
    intro rk bg rc h
    rw [KeyExpansion_loop, if_neg (by omega)]
    rfl
  | succ n ih =>
    intro rk bg rc h
    rw [KeyExpansion_loop, if_pos (by omega), ih _ _ _ (by omega)]
    rfl

theorem KeyExpansion_eq (key : List Nat) :
    KeyExpansion key
      = (KeyExpansion_passes 40 (memcpy (List.replicate 176 0) 0 key 16, 16, 1)).1 :=
  KeyExpansion_loop_eq 40 _ _ _ rfl

/-- C24: the AES-128 test vector of the header comment of `AESass.c`.  With the
round keys that `KeyExpansion` derives from the key
`2b7e151628aed2a6abf7158809cf4f3c`, `AES128_EncryptBlock` maps the block
`3243f6a8885a308d313198a2e0370734` to `3925841d02dc09fbdc118597196a0b32`. -/
theorem C24_test_vector :
    AES128_EncryptBlock
      [0x32, 0x43, 0xf6, 0xa8, 0x88, 0x5a, 0x30, 0x8d, 0x31, 0x31, 0x98, 0xa2, 0xe0, 0x37, 0x07,
        0x34]
      (KeyExpansion
        [0x2b, 0x7e, 0x15, 0x16, 0x28, 0xae, 0xd2, 0xa6, 0xab, 0xf7, 0x15, 0x88, 0x09, 0xcf, 0x4f,
          0x3c])
      = [0x39, 0x25, 0x84, 0x1d, 0x02, 0xdc, 0x09, 0xfb, 0xdc, 0x11, 0x85, 0x97, 0x19, 0x6a, 0x0b,
        0x32] := by
  rw [KeyExpansion_eq]
  decide

/-- C25: decrypting an encrypted block gives the block back.  For every
16-byte block `x` and every 176-byte round-key array `rk`,
`AES128_EncryptBlock` returns 16 bytes and `AES128_DecryptBlock` maps them
back to `x` under the same round keys. -/
theorem C25_block_round_trip (x rk : List Nat) (hx : Bytes 16 x) (hrk : Bytes 176 rk) :
    Bytes 16 (AES128_EncryptBlock x rk) ∧
    AES128_DecryptBlock (AES128_EncryptBlock x rk) rk = x :=
  ⟨EncryptBlock_bytes x rk hx hrk.2, block_round_trip x rk hx hrk.2⟩

/-- Witness for C25: the block `0, 1, ..., 15` under the round keys
`0, 1, ..., 175`. -/
theorem C25_block_round_trip_witness :
    (Bytes 16 (List.range 16) ∧ Bytes 176 (List.range 176)) ∧
    (Bytes 16 (AES128_EncryptBlock (List.range 16) (List.range 176)) ∧
      AES128_DecryptBlock (AES128_EncryptBlock (List.range 16) (List.range 176))
        (List.range 176) = List.range 16) :=
  ⟨⟨by decide, by decide⟩, C25_block_round_trip (List.range 16) (List.range 176) (by decide)
    (by decide)⟩

/-! ## AES: the key schedule keeps bytes -/

theorem for_loop_inv {σ : Type} (P : σ → Prop) (body : Nat → σ → σ)
    (h : ∀ i s, P s → P (body i s)) (n : Nat) (s : σ) (hs : P s) : P (for_loop n body s) := by
  induction n with
  | zero => exact hs
  | succ n ih => exact h n _ ih

theorem set_lt (l : List Nat) (h : ∀ b ∈ l, b < 256) (i v : Nat) (hv : v < 256) :
    ∀ b ∈ l.set i v, b < 256 := by
  intro b hb
  rcases List.mem_or_eq_of_mem_set hb with hb | hb
  · exact h b hb
  · rw [hb]
    exact hv

theorem set_bytes (n : Nat) (l : List Nat) (h : Bytes n l) (i v : Nat) (hv : v < 256) :
    Bytes n (l.set i v) :=
  ⟨by rw [List.length_set]; exact h.1, set_lt l h.2 i v hv⟩

theorem KeyExpansion_temp_lt (rk : List Nat) (hrk : ∀ b ∈ rk, b < 256) (bg rc : Nat) :
    ∀ b ∈ KeyExpansion_temp rk bg rc, b < 256 := by
  have h0 : ∀ b ∈ for_loop 4 (fun i temp => temp.set i (rk.getD (bg - 4 + i) 0)) [0, 0, 0, 0],
      b < 256 :=
    for_loop_inv (fun l => ∀ b ∈ l, b < 256) _ (fun i l hl => set_lt l hl _ _ (getD_lt rk hrk _))
      4 _ (by decide)
  unfold KeyExpansion_temp
  by_cases hbg : bg % 16 = 0
  · simp only [if_pos hbg]
    refine set_lt _ (set_lt _ (set_lt _ (set_lt _ (set_lt _ (set_lt _ (set_lt _ (set_lt _
      (set_lt _ h0 _ _ ?_) _ _ ?_) _ _ ?_) _ _ ?_) _ _ ?_) _ _ ?_) _ _ ?_) _ _ ?_) _ _ ?_
    · exact getD_lt _ h0 _
    · exact getD_lt _ (set_lt _ h0 _ _ (getD_lt _ h0 _)) _
    · exact getD_lt _ (set_lt _ (set_lt _ h0 _ _ (getD_lt _ h0 _)) _ _
        (getD_lt _ (set_lt _ h0 _ _ (getD_lt _ h0 _)) _)) _
    · exact getD_lt _ h0 _
    · exact sbox_lt _
    · exact sbox_lt _
    · exact sbox_lt _
    · exact sbox_lt _
    · exact xor_lt _ _ (getD_lt _ (set_lt _ (set_lt _ (set_lt _ (set_lt _ (set_lt _ (set_lt _
        (set_lt _ (set_lt _ h0 _ _ (getD_lt _ h0 _)) _ _ (getD_lt _ (set_lt _ h0 _ _
        (getD_lt _ h0 _)) _)) _ _ (getD_lt _ (set_lt _ (set_lt _ h0 _ _ (getD_lt _ h0 _)) _ _
        (getD_lt _ (set_lt _ h0 _ _ (getD_lt _ h0 _)) _)) _)) _ _ (getD_lt _ h0 _)) _ _
        (sbox_lt _)) _ _ (sbox_lt _)) _ _ (sbox_lt _)) _ _ (sbox_lt _)) _) (Rcon_lt _)
  · simp only [if_neg hbg]
    exact h0

theorem KeyExpansion_body_bytes (st : List Nat × Nat × Nat) (h : Bytes 176 st.1) :
    Bytes 176 (KeyExpansion_body st).1 := by
  unfold KeyExpansion_body
  exact for_loop_inv (fun l => Bytes 176 l) _
    (fun i l hl => set_bytes 176 l hl _ _
      (xor_lt _ _ (getD_lt l hl.2 _) (getD_lt _ (KeyExpansion_temp_lt _ h.2 _ _) _))) 4 _ h

theorem KeyExpansion_passes_bytes (n : Nat) : ∀ st : List Nat × Nat × Nat, Bytes 176 st.1 →
    Bytes 176 (KeyExpansion_passes n st).1 := by
  induction n with
  | zero => exact fun st h => h
  | succ n ih => exact fun st h => ih _ (KeyExpansion_body_bytes st h)

theorem KeyExpansion_bytes (key : List Nat) (hk : Bytes 16 key) :
    Bytes 176 (KeyExpansion key) := by
  rw [KeyExpansion_eq]
  refine KeyExpansion_passes_bytes 40 _ ⟨?_, ?_⟩
  · simp [memcpy, hk.1]
  · intro b hb
    simp only [memcpy, List.take_zero, List.nil_append, List.mem_append] at hb
    rcases hb with hb | hb
    · exact hk.2 b (List.mem_of_mem_take hb)
    · have := List.mem_of_mem_drop hb
      rw [List.mem_replicate] at this
      omega

/-! ## AES: the block loop of ECB mode -/

theorem flatten_length_16 (blocks : List (List Nat)) (h : ∀ b ∈ blocks, b.length = 16) :
    blocks.flatten.length = 16 * blocks.length := by
  induction blocks with
  | nil => rfl
  | cons b bs ih =>
    rw [List.flatten_cons, List.length_append, h b (List.mem_cons_self _ _),
      ih (fun c hc => h c (List.mem_cons_of_mem _ hc)), List.length_cons]
    omega

theorem exists_blocks (k : Nat) : ∀ l : List Nat, l.length = 16 * k →
    ∃ blocks : List (List Nat), blocks.length = k ∧ (∀ b ∈ blocks, b.length = 16) ∧
      blocks.flatten = l := by
  induction k with
  | zero =>
    intro l hl
    exact ⟨[], rfl, by simp, by rw [List.eq_nil_of_length_eq_zero hl]; rfl⟩
  | succ k ih =>
    intro l hl
    obtain ⟨bs, h1, h2, h3⟩ := ih (l.drop 16) (by rw [List.length_drop]; omega)
    refine ⟨l.take 16 :: bs, by rw [List.length_cons, h1], ?_, ?_⟩
    · intro b hb
      rcases List.mem_cons.1 hb with hb | hb
      · rw [hb, List.length_take]
        omega
      · exact h2 b hb
    · rw [List.flatten_cons, h3, List.take_append_drop]

theorem ecb_loop_blocks (F : List Nat → List Nat → List Nat) (rk : List Nat)
    (hF : ∀ b, (F b rk).length = 16) :
    ∀ (blocks : List (List Nat)), (∀ b ∈ blocks, b.length = 16) →
    ∀ (pre_src pre_dst dst_rest : List Nat) (off len : Nat), pre_src.length = off →
      pre_dst.length = off → dst_rest.length = 16 * blocks.length →
      len = off + 16 * blocks.length →
      ecb_loop F (pre_src ++ blocks.flatten) rk len off (pre_dst ++ dst_rest)
        = pre_dst ++ (blocks.map (fun b => F b rk)).flatten := by
  intro blocks
  induction blocks with
  | nil =>
    intro _ pre_src pre_dst dst_rest off len h1 h2 h3 h4
    rw [ecb_loop, if_neg (by rw [h4]; simp)]
    rw [List.eq_nil_of_length_eq_zero h3]
    rfl
  | cons b bs ih =>
    intro hb pre_src pre_dst dst_rest off len h1 h2 h3 h4
    have hb16 : b.length = 16 := hb b (List.mem_cons_self _ _)
    rw [List.length_cons] at h3 h4
    rw [ecb_loop, if_pos (by omega)]
    have e1 : (pre_src ++ (b :: bs).flatten).drop off = b ++ bs.flatten := by
      rw [List.flatten_cons, ← h1, List.drop_left]
    have e2 : memcpy (List.replicate 16 0) 0 (b ++ bs.flatten) 16 = b := by
      unfold memcpy
      rw [List.take_zero, List.nil_append, ← hb16, List.take_left, hb16, Nat.zero_add,
        List.drop_of_length_le (by simp), List.append_nil]
    have e3 : memcpy (pre_dst ++ dst_rest) off (F b rk) 16
        = (pre_dst ++ F b rk) ++ dst_rest.drop 16 := by
      unfold memcpy
      rw [← h2, List.take_left, List.drop_append, List.take_of_length_le (by rw [hF])]
    rw [e1, e2, e3]
    have e4 : pre_src ++ (b :: bs).flatten = (pre_src ++ b) ++ bs.flatten := by
      rw [List.flatten_cons, List.append_assoc]
    rw [e4, ih (fun c hc => hb c (List.mem_cons_of_mem _ hc)) (pre_src ++ b) (pre_dst ++ F b rk)
      (dst_rest.drop 16) (off + 16) len (by rw [List.length_append, h1, hb16])
      (by rw [List.length_append, h2, hF]) (by rw [List.length_drop]; omega) (by omega)]
    rw [List.map_cons, List.flatten_cons, List.append_assoc]

theorem ecb_loop_flatten (F : List Nat → List Nat → List Nat) (rk : List Nat)
    (hF : ∀ b, (F b rk).length = 16) (blocks : List (List Nat))
    (hb : ∀ b ∈ blocks, b.length = 16) (len : Nat) (hlen : len = 16 * blocks.length) :
    ecb_loop F blocks.flatten rk len 0 (List.replicate len 0)
      = (blocks.map (fun b => F b rk)).flatten := by
  have h := ecb_loop_blocks F rk hF blocks hb [] [] (List.replicate len 0) 0 len rfl rfl
    (by rw [List.length_replicate, hlen]) (by omega)
  simpa using h

theorem state_to_bytes_length (s : List Nat) : (state_to_bytes s).length = 16 := by
  unfold state_to_bytes
  exact for_loop_inv (fun l : List Nat => l.length = 16) _
    (fun c l hl => for_loop_inv (fun l : List Nat => l.length = 16) _
      (fun r l hl => (List.length_set l _ _).trans hl) 4 l hl) 4 _ (by simp)

theorem EncryptBlock_length (b rk : List Nat) : (AES128_EncryptBlock b rk).length = 16 :=
  state_to_bytes_length _

theorem DecryptBlock_length (b rk : List Nat) : (AES128_DecryptBlock b rk).length = 16 :=
  state_to_bytes_length _

/-! ## AES: padding and the ECB round trip -/

theorem getD_append_replicate (p : List Nat) (m v i : Nat) (h1 : p.length ≤ i)
    (h2 : i < p.length + m) : (p ++ List.replicate m v).getD i 0 = v := by
  rw [List.getD_eq_getElem _ _ (by rw [List.length_append, List.length_replicate]; exact h2),
    List.getElem_append_right h1, List.getElem_replicate]

theorem padding_ok_padded (p : List Nat) (pad : Nat) : ∀ n ≤ pad,
    padding_ok (p ++ List.replicate pad pad) (p.length + pad) pad n = true := by
  intro n
  induction n with
  | zero => exact fun _ => rfl
  | succ n ih =>
    intro hn
    rw [padding_ok, ih (by omega), getD_append_replicate p pad pad _ (by omega) (by omega)]
    simp

theorem ECB_Encrypt_eq (p key : List Nat) (hlen : p.length + 16 < 2 ^ 64) :
    AES128_ECB_Encrypt p key
      = (ecb_loop AES128_EncryptBlock
          (p ++ List.replicate (16 - p.length % 16) (16 - p.length % 16)) (KeyExpansion key)
          (p.length + (16 - p.length % 16)) 0
          (List.replicate (p.length + (16 - p.length % 16)) 0),
        p.length + (16 - p.length % 16)) := by
  have h1 : ¬ 16 - p.length % 16 = 0 := by omega
  have h2 : (p.length + (16 - p.length % 16)) % 2 ^ 64 = p.length + (16 - p.length % 16) :=
    Nat.mod_eq_of_lt (by omega)
  have h3 : (16 - p.length % 16) % 256 = 16 - p.length % 16 := Nat.mod_eq_of_lt (by omega)
  have h4 : memcpy (List.replicate (p.length + (16 - p.length % 16)) 0) 0 p p.length
      = p ++ List.replicate (16 - p.length % 16) 0 := by
    unfold memcpy
    rw [List.take_zero, List.nil_append, List.take_length, Nat.zero_add, List.drop_replicate,
      Nat.add_sub_cancel_left]
  have h5 : memset (p ++ List.replicate (16 - p.length % 16) 0) p.length (16 - p.length % 16)
      (16 - p.length % 16) = p ++ List.replicate (16 - p.length % 16) (16 - p.length % 16) := by
    unfold memset
    rw [List.take_left, List.drop_of_length_le (by simp), List.append_nil]
  simp only [AES128_ECB_Encrypt, if_neg h1, h2, h3, h4, h5]

theorem ECB_Decrypt_padded (ct key p : List Nat) (pad : Nat) (hpad1 : 1 ≤ pad)
    (hpad16 : pad ≤ 16) (hct : ct.length = p.length + pad) (h16 : (p.length + pad) % 16 = 0)
    (hloop : ecb_loop AES128_DecryptBlock ct (KeyExpansion key) (p.length + pad) 0
      (List.replicate (p.length + pad) 0) = p ++ List.replicate pad pad) :
    AES128_ECB_Decrypt ct key = some (p ++ [0], p.length) := by
  have h1 : (p ++ List.replicate pad pad).getD (p.length + pad - 1) 0 = pad :=
    getD_append_replicate p pad pad _ (by omega) (by omega)
  have h2 : ¬ (pad < 1 ∨ pad > 16) := by omega
  have h3 : ¬ (padding_ok (p ++ List.replicate pad pad) (p.length + pad) pad pad = false) := by
    rw [padding_ok_padded p pad pad (Nat.le_refl _)]
    simp
  have h4 : p.length + pad - pad = p.length := by omega
  have h5 : (memcpy (List.replicate (p.length + 1) 0) 0 (p ++ List.replicate pad pad)
      p.length).set p.length 0 = p ++ [0] := by
    unfold memcpy
    rw [List.take_zero, List.nil_append, List.take_left, Nat.zero_add, List.drop_replicate,
      Nat.add_sub_cancel_left]
    simp
  have h6 : ¬ (p.length + pad = 0) := by omega
  simp only [AES128_ECB_Decrypt, hct, hloop, h1, h4, h5]
  rw [if_neg (by simp [h16]), if_neg h6, if_neg h2, if_neg h3]

theorem map_decrypt_encrypt (blocks : List (List Nat)) (rk : List Nat)
    (hb : ∀ b ∈ blocks, Bytes 16 b) (hrk : ∀ b ∈ rk, b < 256) :
    (blocks.map (fun b => AES128_EncryptBlock b rk)).map (fun b => AES128_DecryptBlock b rk)
      = blocks := by
  induction blocks with
  | nil => rfl
  | cons b bs ih =>
    rw [List.map_cons, List.map_cons, ih (fun c hc => hb c (List.mem_cons_of_mem _ hc)),
      block_round_trip b rk (hb b (List.mem_cons_self _ _)) hrk]

theorem ECB_round_trip (p key : List Nat) (hp : ∀ b ∈ p, b < 256) (hk : Bytes 16 key)
    (hlen : p.length + 16 < 2 ^ 64) :
    (AES128_ECB_Encrypt p key).1.length = 16 * (p.length / 16 + 1) ∧
    (AES128_ECB_Encrypt p key).2 = 16 * (p.length / 16 + 1) ∧
    AES128_ECB_Decrypt (AES128_ECB_Encrypt p key).1 key = some (p ++ [0], p.length) := by
  have hrk := KeyExpansion_bytes key hk
  have hT : p.length + (16 - p.length % 16) = 16 * (p.length / 16 + 1) := by omega
  have hbuf : (p ++ List.replicate (16 - p.length % 16) (16 - p.length % 16)).length
      = 16 * (p.length / 16 + 1) := by
    rw [List.length_append, List.length_replicate, hT]
  obtain ⟨blocks, hk1, hk2, hk3⟩ := exists_blocks _ _ hbuf
  have hbytes : ∀ b ∈ blocks, Bytes 16 b := by
    intro b hb
    refine ⟨hk2 b hb, ?_⟩
    intro x hx
    have hx2 : x ∈ p ++ List.replicate (16 - p.length % 16) (16 - p.length % 16) := by
      rw [← hk3]
      exact List.mem_flatten.2 ⟨b, hb, hx⟩
    rcases List.mem_append.1 hx2 with h | h
    · exact hp x h
    · rw [List.mem_replicate] at h
      omega
  have hE : AES128_ECB_Encrypt p key
      = ((blocks.map (fun b => AES128_EncryptBlock b (KeyExpansion key))).flatten,
          p.length + (16 - p.length % 16)) := by
    rw [ECB_Encrypt_eq p key hlen, ← hk3,
      ecb_loop_flatten AES128_EncryptBlock _ (fun b => EncryptBlock_length b _) blocks hk2 _
        (by rw [hk1, hT])]
  have hE16 : ∀ c ∈ blocks.map (fun b => AES128_EncryptBlock b (KeyExpansion key)),
      c.length = 16 := by
    intro c hc
    obtain ⟨b, _, rfl⟩ := List.mem_map.1 hc
    exact EncryptBlock_length b _
  have hctlen : ((blocks.map (fun b => AES128_EncryptBlock b (KeyExpansion key))).flatten).length
      = p.length + (16 - p.length % 16) := by
    rw [flatten_length_16 _ hE16, List.length_map, hk1, hT]
  have hD : ecb_loop AES128_DecryptBlock
      ((blocks.map (fun b => AES128_EncryptBlock b (KeyExpansion key))).flatten)
      (KeyExpansion key) (p.length + (16 - p.length % 16)) 0
      (List.replicate (p.length + (16 - p.length % 16)) 0)
      = p ++ List.replicate (16 - p.length % 16) (16 - p.length % 16) := by
    rw [ecb_loop_flatten AES128_DecryptBlock _ (fun b => DecryptBlock_length b _) _ hE16 _
      (by rw [List.length_map, hk1, hT]), ← hk3,
      map_decrypt_encrypt blocks (KeyExpansion key) hbytes hrk.2]
  rw [hE]
  dsimp only
  refine ⟨hctlen.trans hT, hT, ?_⟩
  exact ECB_Decrypt_padded _ key p (16 - p.length % 16) (by omega) (by omega) hctlen
    (by omega) hD

/-- C26: ECB with PKCS#7 padding round-trips.  For every plaintext `p` of
bytes, of any length that fits a `size_t` together with its padding, and every
16-byte key, `AES128_ECB_Encrypt` returns a ciphertext of
`16 * (len(p) / 16 + 1)` bytes and sets `*out_len` to this length, and
`AES128_ECB_Decrypt` of that ciphertext under the same key succeeds: its
buffer holds `p` followed by the terminating 0 byte and `*out_len` is
`len(p)`. -/
theorem C26_ecb_round_trip (p key : List Nat) (hp : ∀ b ∈ p, b < 256) (hk : Bytes 16 key)
    (hlen : p.length + 16 < 2 ^ 64) :
    (AES128_ECB_Encrypt p key).1.length = 16 * (p.length / 16 + 1) ∧
    (AES128_ECB_Encrypt p key).2 = 16 * (p.length / 16 + 1) ∧
    AES128_ECB_Decrypt (AES128_ECB_Encrypt p key).1 key = some (p ++ [0], p.length) :=
  ECB_round_trip p key hp hk hlen

/-- Witness for C26: the 20-byte plaintext `0, 1, ..., 19` under the key
`0, 1, ..., 15`. -/
theorem C26_ecb_round_trip_witness :
    ((∀ b ∈ List.range 20, b < 256) ∧ Bytes 16 (List.range 16) ∧
      (List.range 20).length + 16 < 2 ^ 64) ∧
    ((AES128_ECB_Encrypt (List.range 20) (List.range 16)).1.length
        = 16 * ((List.range 20).length / 16 + 1) ∧
      (AES128_ECB_Encrypt (List.range 20) (List.range 16)).2
        = 16 * ((List.range 20).length / 16 + 1) ∧
      AES128_ECB_Decrypt (AES128_ECB_Encrypt (List.range 20) (List.range 16)).1 (List.range 16)
        = some (List.range 20 ++ [0], (List.range 20).length)) :=
  ⟨⟨by decide, by decide, by decide⟩,
    C26_ecb_round_trip (List.range 20) (List.range 16) (by decide) (by decide) (by decide)⟩

end AES

namespace MR

/-! ## The number of subtractions of the reduction loop -/

/-- With enough fuel the reduction loop makes `r / m` subtractions. -/
theorem reduce_count_spec {m : Big512} (hm : m.WF) (hpos : 0 < m.val) (fuel : Nat) (r : Big512)
    (hr : r.WF) (hf : r.val / m.val < fuel) :
    reduce_count m fuel r = some (r.val / m.val) := by
  induction fuel generalizing r with
  | zero => exact absurd hf (Nat.not_lt_zero _)
  | succ fuel ih =>
    simp only [reduce_count]
    by_cases hge : big_cmp r m ≥ 0
    · rw [if_pos hge]
      have hle : m.val ≤ r.val := (big_cmp_ge_iff hr hm).mp hge
      have hv := big_sub_val hr hm hle
      have h1 := Nat.sub_mul_div r.val m.val 1 (by omega)
      rw [Nat.mul_one] at h1
      have h2 : 1 ≤ r.val / m.val := (Nat.one_le_div_iff hpos).mpr hle
      rw [ih (big_sub r m) (big_sub_wf hr hm) (by rw [hv, h1]; omega), hv, h1]
      simp only [Option.map_some']
      congr 1
      omega
    · rw [if_neg hge]
      have hlt : r.val < m.val := by
        have := (big_cmp_ge_iff hr hm).not.mp hge
        omega
      rw [Nat.div_eq_of_lt hlt]

/-- Fewer than `r / m + 1` evaluations of the loop condition do not finish the
reduction loop. -/
theorem reduce_loop_none {m : Big512} (hm : m.WF) (hpos : 0 < m.val) (fuel : Nat) (r : Big512)
    (hr : r.WF) (hf : fuel ≤ r.val / m.val) : reduce_loop m fuel r = none := by
  induction fuel generalizing r with
  | zero => rfl
  | succ fuel ih =>
    simp only [reduce_loop]
    have h2 : 1 ≤ r.val / m.val := by omega
    have hle : m.val ≤ r.val := (Nat.one_le_div_iff hpos).mp h2
    rw [if_pos ((big_cmp_ge_iff hr hm).mpr hle)]
    have hv := big_sub_val hr hm hle
    have h1 := Nat.sub_mul_div r.val m.val 1 (by omega)
    rw [Nat.mul_one] at h1
    exact ih (big_sub r m) (big_sub_wf hr hm) (by rw [hv, h1]; omega)

theorem mul_low_count {a b m : Big512} (ha : a.WF) (hb : b.WF) (hm : m.WF) (hpos : 0 < m.val)
    (fuel : Nat) (hf : 2 ^ 512 ≤ fuel) :
    reduce_count m fuel (mul_low a b) = some (a.val * b.val % 2 ^ 512 / m.val) := by
  rw [reduce_count_spec hm hpos fuel (mul_low a b) (mul_low_wf ha hb)
    (by rw [mul_low_val ha hb]; exact div_lt_of_fuel _ _ _ hf), mul_low_val ha hb]

theorem pred_sq_div (m : Nat) (h2 : 2 ≤ m) : (m - 1) * (m - 1) / m = m - 2 := by
  obtain ⟨k, rfl⟩ : ∃ k, m = k + 2 := ⟨m - 2, by omega⟩
  have e : (k + 2 - 1) * (k + 2 - 1) = 1 + (k + 2) * k := by
    rw [show k + 2 - 1 = k + 1 by omega]
    ring
  rw [e, Nat.add_mul_div_left _ _ (by omega), Nat.div_eq_of_lt (by omega)]
  omega

/-- C31 (counterexample): the number of subtractions is not bounded
independently of the modulus.  With both factors below the modulus, the
reduction loop of `big_mulmod` makes 5 subtractions for `mod = 7`,
`a = b = 6`, and `2^256 - 2` subtractions for `mod = 2^256`,
`a = b = 2^256 - 1`: after `2^256 - 2` evaluations of its condition the loop
has not finished. -/
theorem C31_reduction_not_bounded :
    (Big512.ofNat 6).val < (Big512.ofNat 7).val ∧
    reduce_count (Big512.ofNat 7) (2 ^ 512) (mul_low (Big512.ofNat 6) (Big512.ofNat 6))
      = some 5 ∧
    (Big512.ofNat (2 ^ 256 - 1)).val < (Big512.ofNat (2 ^ 256)).val ∧
    reduce_count (Big512.ofNat (2 ^ 256)) (2 ^ 512)
      (mul_low (Big512.ofNat (2 ^ 256 - 1)) (Big512.ofNat (2 ^ 256 - 1)))
      = some (2 ^ 256 - 2) ∧
    reduce_loop (Big512.ofNat (2 ^ 256)) (2 ^ 256 - 2)
      (mul_low (Big512.ofNat (2 ^ 256 - 1)) (Big512.ofNat (2 ^ 256 - 1))) = none := by
  have w6 := Big512.ofNat_wf 6
  have w7 := Big512.ofNat_wf 7
  have wa := Big512.ofNat_wf (2 ^ 256 - 1)
  have wm := Big512.ofNat_wf (2 ^ 256)
  have v6 : (Big512.ofNat 6).val = 6 := by decide
  have v7 : (Big512.ofNat 7).val = 7 := by decide
  have va : (Big512.ofNat (2 ^ 256 - 1)).val = 2 ^ 256 - 1 := by decide
  have vm : (Big512.ofNat (2 ^ 256)).val = 2 ^ 256 := by decide
  refine ⟨by decide, ?_, by decide, ?_, ?_⟩
  · rw [mul_low_count w6 w6 w7 (by decide) _ (le_refl _), v6, v7]
    norm_num
  · rw [mul_low_count wa wa wm (by decide) _ (le_refl _), va, vm]
    norm_num
  · refine reduce_loop_none wm (by decide) _ _ (mul_low_wf wa wa) ?_
    rw [mul_low_val wa wa, va, vm]
    norm_num

/-- C31 (amended): for every `mod != 0` and all `a`, `b` the reduction loop of
`big_mulmod` terminates after exactly `((a * b) mod 2^512) / mod` subtractions.
This number is at most `(2^512 - 1) / mod`, hence at most 1 when `mod` has bit
511 set, but it is `mod - 2` for `a = b = mod - 1` and `2 <= mod <= 2^256`: the
bound depends on the modulus. -/
theorem C31_reduction_count (a b mod : Big512) (fuel : Nat) (ha : a.WF) (hb : b.WF)
    (hm : mod.WF) (hpos : mod.val ≠ 0) (hf : 2 ^ 512 ≤ fuel) :
    ∃ q, reduce_count mod fuel (mul_low a b) = some q ∧
      q = a.val * b.val % 2 ^ 512 / mod.val ∧
      q ≤ (2 ^ 512 - 1) / mod.val ∧
      (2 ^ 511 ≤ mod.val → q ≤ 1) ∧
      (a.val = mod.val - 1 → b.val = mod.val - 1 → 2 ≤ mod.val → mod.val ≤ 2 ^ 256 →
        q = mod.val - 2) := by
  have hp : 0 < mod.val := Nat.pos_of_ne_zero hpos
  have hlt : a.val * b.val % 2 ^ 512 < 2 ^ 512 := Nat.mod_lt _ (by norm_num)
  refine ⟨_, mul_low_count ha hb hm hp fuel hf, rfl, ?_, ?_, ?_⟩
  · exact Nat.div_le_div_right (by omega)
  · intro h511
    have : a.val * b.val % 2 ^ 512 / mod.val < 2 := by
      rw [Nat.div_lt_iff_lt_mul hp]
      omega
    omega
  · intro e1 e2 h2 h256
    have hsq : (mod.val - 1) * (mod.val - 1) < 2 ^ 512 := by
      have h1 : (mod.val - 1) * (mod.val - 1) ≤ 2 ^ 256 * 2 ^ 256 :=
        Nat.mul_le_mul (by omega) (by omega)
      have h3 : (mod.val - 1) * (mod.val - 1) < 2 ^ 256 * 2 ^ 256 := by
        have : (mod.val - 1) * (mod.val - 1) < mod.val * mod.val :=
          Nat.mul_lt_mul'' (by omega) (by omega)
        exact lt_of_lt_of_le this (Nat.mul_le_mul h256 h256)
      have h4 : (2 : Nat) ^ 256 * 2 ^ 256 = 2 ^ 512 := by norm_num
      omega
    rw [e1, e2, Nat.mod_eq_of_lt hsq, pred_sq_div _ h2]

/-- Witness for C31 (amended): `mod = 5`, `a = b = 4`; the loop makes 3
subtractions. -/
theorem C31_reduction_count_witness :
    ((Big512.ofNat 4).WF ∧ (Big512.ofNat 5).WF ∧ (Big512.ofNat 5).val ≠ 0 ∧
      2 ^ 512 ≤ 2 ^ 512) ∧
    ∃ q, reduce_count (Big512.ofNat 5) (2 ^ 512) (mul_low (Big512.ofNat 4) (Big512.ofNat 4))
        = some q ∧
      q = (Big512.ofNat 4).val * (Big512.ofNat 4).val % 2 ^ 512 / (Big512.ofNat 5).val ∧
      q ≤ (2 ^ 512 - 1) / (Big512.ofNat 5).val ∧
      (2 ^ 511 ≤ (Big512.ofNat 5).val → q ≤ 1) ∧
      ((Big512.ofNat 4).val = (Big512.ofNat 5).val - 1 →
        (Big512.ofNat 4).val = (Big512.ofNat 5).val - 1 → 2 ≤ (Big512.ofNat 5).val →
        (Big512.ofNat 5).val ≤ 2 ^ 256 → q = (Big512.ofNat 5).val - 2) :=
  ⟨⟨by decide, by decide, by decide, le_refl _⟩,
    C31_reduction_count (Big512.ofNat 4) (Big512.ofNat 4) (Big512.ofNat 5) (2 ^ 512) (by decide)
      (by decide) (by decide) (by decide) (le_refl _)⟩

/-- C32: what `big_mulmod` returns in general.  For all `a`, `b` and every
`mod != 0` the reduction loop starts from the low eight limbs of the product,
whose value is `(val(a) * val(b)) mod 2^512` (the upper eight entries of `tmp`
are not read), makes exactly `((val(a) * val(b)) mod 2^512) / val(mod)`
subtractions, and the result is `((val(a) * val(b)) mod 2^512) mod val(mod)`. -/
theorem C32_mulmod_general (a b mod : Big512) (fuel : Nat) (ha : a.WF) (hb : b.WF)
    (hm : mod.WF) (hpos : mod.val ≠ 0) (hf : 2 ^ 512 ≤ fuel) :
    big_mulmod fuel a b mod = (reduce_loop mod fuel (mul_low a b)).map big_copy ∧
    (mul_low a b).val = a.val * b.val % 2 ^ 512 ∧
    reduce_count mod fuel (mul_low a b) = some (a.val * b.val % 2 ^ 512 / mod.val) ∧
    ∃ r, big_mulmod fuel a b mod = some r ∧ r.WF ∧
      r.val = (a.val * b.val % 2 ^ 512) % mod.val := by
  have hp : 0 < mod.val := Nat.pos_of_ne_zero hpos
  exact ⟨rfl, mul_low_val ha hb, mul_low_count ha hb hm hp fuel hf,
    big_mulmod_spec_full ha hb hm hp fuel hf⟩

/-- Witness for C32: `a = b = 2^511 + 1` and `mod = 7`; the product has 1023
bits. -/
theorem C32_mulmod_general_witness :
    ((Big512.ofNat (2 ^ 511 + 1)).WF ∧ (Big512.ofNat 7).WF ∧ (Big512.ofNat 7).val ≠ 0 ∧
      2 ^ 512 ≤ 2 ^ 512) ∧
    (big_mulmod (2 ^ 512) (Big512.ofNat (2 ^ 511 + 1)) (Big512.ofNat (2 ^ 511 + 1))
        (Big512.ofNat 7)
      = (reduce_loop (Big512.ofNat 7) (2 ^ 512)
          (mul_low (Big512.ofNat (2 ^ 511 + 1)) (Big512.ofNat (2 ^ 511 + 1)))).map big_copy ∧
    (mul_low (Big512.ofNat (2 ^ 511 + 1)) (Big512.ofNat (2 ^ 511 + 1))).val
      = (Big512.ofNat (2 ^ 511 + 1)).val * (Big512.ofNat (2 ^ 511 + 1)).val % 2 ^ 512 ∧
    reduce_count (Big512.ofNat 7) (2 ^ 512)
        (mul_low (Big512.ofNat (2 ^ 511 + 1)) (Big512.ofNat (2 ^ 511 + 1)))
      = some ((Big512.ofNat (2 ^ 511 + 1)).val * (Big512.ofNat (2 ^ 511 + 1)).val % 2 ^ 512
          / (Big512.ofNat 7).val) ∧
    ∃ r, big_mulmod (2 ^ 512) (Big512.ofNat (2 ^ 511 + 1)) (Big512.ofNat (2 ^ 511 + 1))
        (Big512.ofNat 7) = some r ∧ r.WF ∧
      r.val = ((Big512.ofNat (2 ^ 511 + 1)).val * (Big512.ofNat (2 ^ 511 + 1)).val % 2 ^ 512)
        % (Big512.ofNat 7).val) :=
  ⟨⟨by decide, by decide, by decide, le_refl _⟩,
    C32_mulmod_general (Big512.ofNat (2 ^ 511 + 1)) (Big512.ofNat (2 ^ 511 + 1)) (Big512.ofNat 7)
      (2 ^ 512) (by decide) (by decide) (by decide) (by decide) (le_refl _)⟩

/-! ## `big_sub` without its precondition -/

theorem borrow_step (x y c : Nat) (hx : x < 2 ^ 64) (hy : y < 2 ^ 64) (hc : c ≤ 1) :
    ((x + 2 ^ 128 - y % 2 ^ 128) % 2 ^ 128 + 2 ^ 128 - c % 2 ^ 128) % 2 ^ 128 / 2 ^ 64 % 2
      = if x < y + c then 1 else 0 := by
  split_ifs <;> omega

/-- C33: `big_sub` wraps modulo `2^512`.  For all `a`, `b`, with no ordering
assumed, `val(big_sub(a, b))` is `(val(a) - val(b)) mod 2^512`, and the borrow
carried out of limb `i` is 1 exactly when `a.v[i] < b.v[i] + borrow_in`, else
0. -/
theorem C33_big_sub_wraps (a b : Big512) (ha : a.WF) (hb : b.WF) :
    ((big_sub a b).val : Int) = ((a.val : Int) - (b.val : Int)) % 2 ^ 512 ∧
    ∀ i, i < LIMBS → (big_sub_loop a a b (i + 1)).2
      = if a.limb i < b.limb i + (big_sub_loop a a b i).2 then 1 else 0 := by
  constructor
  · obtain ⟨c, hc, hv⟩ := big_sub_val_add ha hb
    have h1 := Big512.val_lt (big_sub_wf ha hb)
    have h2 := Big512.val_lt ha
    have h3 := Big512.val_lt hb
    omega
  · intro i hi
    obtain ⟨-, -, -, hc, -⟩ :=
      big_sub_loop_inv a a b ha.limb_lt hb.limb_lt i (by rw [ha.1]; exact Nat.le_of_lt hi)
    simp only [big_sub_loop]
    rcases hst : big_sub_loop a a b i with ⟨r1, c⟩
    rw [hst] at hc
    exact borrow_step _ _ _ (ha.limb_lt i) (hb.limb_lt i) hc

/-- Witness for C33: `a = 1` and `b = 2^64`, where `a < b`. -/
theorem C33_big_sub_wraps_witness :
    ((Big512.ofNat 1).WF ∧ (Big512.ofNat (2 ^ 64)).WF) ∧
    ((((big_sub (Big512.ofNat 1) (Big512.ofNat (2 ^ 64))).val : Nat) : Int)
        = (((Big512.ofNat 1).val : Int) - ((Big512.ofNat (2 ^ 64)).val : Int)) % 2 ^ 512 ∧
      ∀ i, i < LIMBS →
        (big_sub_loop (Big512.ofNat 1) (Big512.ofNat 1) (Big512.ofNat (2 ^ 64)) (i + 1)).2
          = if (Big512.ofNat 1).limb i < (Big512.ofNat (2 ^ 64)).limb i
              + (big_sub_loop (Big512.ofNat 1) (Big512.ofNat 1) (Big512.ofNat (2 ^ 64)) i).2
            then 1 else 0) :=
  ⟨⟨by decide, by decide⟩,
    C33_big_sub_wraps (Big512.ofNat 1) (Big512.ofNat (2 ^ 64)) (by decide) (by decide)⟩

/-! ## The base of a round for a full-width candidate -/

theorem big_rand_val (rand : Nat → Nat) (pos : Nat) :
    2 ^ 511 ≤ (big_rand rand pos).1.val ∧ (big_rand rand pos).1.val < 2 ^ 512 ∧
    (big_rand rand pos).1.val % 2 = 1 := by
  have hwf := big_rand_wf rand pos
  obtain ⟨h1, -⟩ := big_rand_loop_inv rand pos big_zero 8 (by decide)
  have hlen : (big_rand_loop rand pos big_zero 8).v.length = 8 := by rw [h1]; rfl
  have hl0 : (big_rand rand pos).1.limb 0 % 2 = 1 := by
    unfold big_rand
    simp only [Big512.limb_set, Big512.length_set, hlen]
    simp only [true_and, Nat.lt_add_one, Nat.zero_lt_succ, if_true]
    exact Nat.or_mod_two_eq_one.mpr (Or.inr rfl)
  have hl7 : 2 ^ 63 ≤ (big_rand rand pos).1.limb 7 := by
    unfold big_rand
    simp only [Big512.limb_set, Big512.length_set, hlen]
    simp only [LIMBS, Nat.add_one_sub_one, true_and, Nat.lt_add_one, if_true,
      (by decide : ¬ (0 = 7 ∧ 0 < 8)), if_false]
    exact two_pow_le_lor _ 63
  refine ⟨?_, Big512.val_lt hwf, by rw [Big512.val_mod_two]; exact hl0⟩
  have hv : (big_rand rand pos).1.val
      = limbsVal (big_rand rand pos).1.limb 7 + (big_rand rand pos).1.limb 7 * 2 ^ (64 * 7) :=
    rfl
  rw [hv]
  have : (2 : Nat) ^ 511 = 2 ^ 63 * 2 ^ (64 * 7) := by norm_num
  rw [this]
  exact le_trans (Nat.mul_le_mul_right _ hl7) (Nat.le_add_left _ _)

theorem draw_witness_val {nm1 : Big512} (h : nm1.WF) (rand : Nat → Nat) (pos : Nat) :
    (draw_witness nm1 rand pos).1.val
      = if (big_rand rand pos).1.val < nm1.val then (big_rand rand pos).1.val
        else (big_rand rand pos).1.val - nm1.val := by
  have hw := big_rand_wf rand pos
  unfold draw_witness
  rcases hr : big_rand rand pos with ⟨a, p⟩
  rw [hr] at hw
  simp only at hw ⊢
  by_cases hge : big_cmp a nm1 ≥ 0
  · have hle := (big_cmp_ge_iff hw h).mp hge
    rw [if_pos hge, if_neg (by omega), big_sub_val hw h hle]
  · have hlt := (big_cmp_ge_iff hw h).not.mp hge
    rw [if_neg hge, if_pos (by omega)]

/-- C34: the base that `miller_rabin` really uses for a full-width candidate.
For every odd `n` with bit 511 set and every draw `r` of `big_rand`, the base is
`r` when `r < n - 1` and `r - (n - 1)` otherwise; it is odd and lies in
`[1, n - 2]`, and it is 1 when `r = n`, as for `n = 2^511 + 1` when every
`rand()` call returns 0. -/
theorem C34_actual_witness (n : Big512) (rand : Nat → Nat) (pos : Nat) (hn : n.WF)
    (hodd : n.val % 2 = 1) (h511 : 2 ^ 511 ≤ n.val) :
    (draw_witness (big_sub (big_copy n) big_one) rand pos).1.val
      = (if (big_rand rand pos).1.val < n.val - 1 then (big_rand rand pos).1.val
         else (big_rand rand pos).1.val - (n.val - 1)) ∧
    (draw_witness (big_sub (big_copy n) big_one) rand pos).1.val % 2 = 1 ∧
    1 ≤ (draw_witness (big_sub (big_copy n) big_one) rand pos).1.val ∧
    (draw_witness (big_sub (big_copy n) big_one) rand pos).1.val ≤ n.val - 2 ∧
    ((big_rand rand pos).1.val = n.val →
      (draw_witness (big_sub (big_copy n) big_one) rand pos).1.val = 1) ∧
    (big_rand (fun _ => 0) 0).1.val = 2 ^ 511 + 1 ∧
    (draw_witness (big_sub (big_copy (Big512.ofNat (2 ^ 511 + 1))) big_one)
      (fun _ => 0) 0).1.val = 1 := by
  have hv := n_minus1_val hn (by omega)
  have hd := draw_witness_val (n_minus1_wf hn) rand pos
  rw [hv] at hd
  obtain ⟨r1, r2, r3⟩ := big_rand_val rand pos
  have hlt := Big512.val_lt hn
  refine ⟨hd, ?_, ?_, ?_, ?_, by decide, by decide⟩
  · rw [hd]; split_ifs <;> omega
  · rw [hd]; split_ifs <;> omega
  · rw [hd]; split_ifs <;> omega
  · intro he
    rw [hd]; split_ifs <;> omega

/-- Witness for C34: the candidate `2^512 - 1` and the draw `2^511 + 1` of an
all-zero `rand()`. -/
theorem C34_actual_witness_witness :
    ((Big512.ofNat (2 ^ 512 - 1)).WF ∧ (Big512.ofNat (2 ^ 512 - 1)).val % 2 = 1 ∧
      2 ^ 511 ≤ (Big512.ofNat (2 ^ 512 - 1)).val) ∧
    ((draw_witness (big_sub (big_copy (Big512.ofNat (2 ^ 512 - 1))) big_one)
        (fun _ => 0) 0).1.val
      = (if (big_rand (fun _ => 0) 0).1.val < (Big512.ofNat (2 ^ 512 - 1)).val - 1
         then (big_rand (fun _ => 0) 0).1.val
         else (big_rand (fun _ => 0) 0).1.val - ((Big512.ofNat (2 ^ 512 - 1)).val - 1)) ∧
    (draw_witness (big_sub (big_copy (Big512.ofNat (2 ^ 512 - 1))) big_one)
      (fun _ => 0) 0).1.val % 2 = 1 ∧
    1 ≤ (draw_witness (big_sub (big_copy (Big512.ofNat (2 ^ 512 - 1))) big_one)
      (fun _ => 0) 0).1.val ∧
    (draw_witness (big_sub (big_copy (Big512.ofNat (2 ^ 512 - 1))) big_one)
      (fun _ => 0) 0).1.val ≤ (Big512.ofNat (2 ^ 512 - 1)).val - 2 ∧
    ((big_rand (fun _ => 0) 0).1.val = (Big512.ofNat (2 ^ 512 - 1)).val →
      (draw_witness (big_sub (big_copy (Big512.ofNat (2 ^ 512 - 1))) big_one)
        (fun _ => 0) 0).1.val = 1) ∧
    (big_rand (fun _ => 0) 0).1.val = 2 ^ 511 + 1 ∧
    (draw_witness (big_sub (big_copy (Big512.ofNat (2 ^ 511 + 1))) big_one)
      (fun _ => 0) 0).1.val = 1) :=
  ⟨⟨by decide, by decide, by decide⟩,
    C34_actual_witness (Big512.ofNat (2 ^ 512 - 1)) (fun _ => 0) 0 (by decide) (by decide)
      (by decide)⟩

/-! ## `miller_rabin` without rounds -/

/-- C35: no rounds means no test.  For every odd `n >= 3`, composite or
prime, and every `rounds <= 0`, `miller_rabin(n, rounds)` returns 1 and the
index of the next `rand()` call is unchanged: no random value is drawn. -/
theorem C35_no_rounds (n : Big512) (rounds : Int) (rand : Nat → Nat) (pos fuel : Nat)
    (hn : n.WF) (hodd : n.val % 2 = 1) (h3 : 3 ≤ n.val) (hr : rounds ≤ 0) (hf : 512 ≤ fuel) :
    miller_rabin fuel n rounds rand pos = some (1, pos) := by
  obtain ⟨d, s, hdec, -⟩ := decompose_spec hn hodd h3 fuel hf
  rw [miller_rabin_odd hodd, hdec, Int.toNat_of_nonpos hr]
  rfl

/-- Witness for C35: the composite `n = 9` with `rounds = 0`. -/
theorem C35_no_rounds_witness :
    ((Big512.ofNat 9).WF ∧ (Big512.ofNat 9).val % 2 = 1 ∧ 3 ≤ (Big512.ofNat 9).val ∧
      (0 : Int) ≤ 0 ∧ 512 ≤ 512) ∧
    miller_rabin 512 (Big512.ofNat 9) 0 (fun _ => 0) 0 = some (1, 0) :=
  ⟨⟨by decide, by decide, by decide, le_refl _, le_refl _⟩,
    C35_no_rounds (Big512.ofNat 9) 0 (fun _ => 0) 0 512 (by decide) (by decide) (by decide)
      (le_refl _) (le_refl _)⟩

end MR

namespace AES

/-! ## AES: what `AES128_ECB_Decrypt` accepts -/

theorem padding_ok_iff (buf : List Nat) (len pad n : Nat) :
    padding_ok buf len pad n = true ↔ ∀ i, i < n → buf.getD (len - 1 - i) 0 = pad := by
  induction n with
  | zero => simp [padding_ok]
  | succ n ih =>
    rw [padding_ok, Bool.and_eq_true, ih, beq_iff_eq]
    constructor
    · rintro ⟨h1, h2⟩ i hi
      rcases Nat.lt_succ_iff_lt_or_eq.mp hi with h | h
      · exact h1 i h
      · rw [h]; exact h2
    · intro h
      exact ⟨fun i hi => h i (Nat.lt_succ_of_lt hi), h n (Nat.lt_succ_self n)⟩

theorem decrypt_loop_length (ct rk : List Nat) (h16 : ct.length % 16 = 0) :
    (ecb_loop AES128_DecryptBlock ct rk ct.length 0 (List.replicate ct.length 0)).length
      = ct.length := by
  have hlen : ct.length = 16 * (ct.length / 16) := by omega
  obtain ⟨blocks, h1, h2, h3⟩ := exists_blocks (ct.length / 16) ct hlen
  have e := ecb_loop_flatten AES128_DecryptBlock rk (fun b => DecryptBlock_length b rk) blocks h2
    ct.length (by rw [h1]; exact hlen)
  rw [h3] at e
  rw [e, flatten_length_16 _ (by
    intro c hc
    obtain ⟨b, _, rfl⟩ := List.mem_map.1 hc
    exact DecryptBlock_length b rk), List.length_map, h1]
  exact hlen.symm

theorem decrypt_out (buf : List Nat) (n : Nat) (hn : n ≤ buf.length) :
    (memcpy (List.replicate (n + 1) 0) 0 buf n).set n 0 = buf.take n ++ [0] := by
  unfold memcpy
  rw [List.take_zero, List.nil_append, Nat.zero_add, List.drop_replicate,
    Nat.add_sub_cancel_left]
  have hl : (buf.take n).length = n := by rw [List.length_take]; omega
  rw [List.set_append_right _ _ (by rw [hl]), hl, Nat.sub_self]
  rfl

theorem decrypt_branches {α : Type} (L p : Nat) (ok : Bool) (A : Prop) [Decidable A]
    (hiff : ok = true ↔ A) (X : α) :
    (if L % 16 ≠ 0 then none
      else if L = 0 then none
      else if p < 1 ∨ p > 16 then none
      else if ok = false then none else some X)
    = (if L = 0 ∨ L % 16 ≠ 0 then none
      else if p < 1 ∨ 16 < p then none
      else if ¬ A then none else some X) := by
  by_cases h16 : L % 16 ≠ 0
  · rw [if_pos h16, if_pos (Or.inr h16)]
  · by_cases h0 : L = 0
    · rw [if_neg h16, if_pos h0, if_pos (Or.inl h0)]
    · rw [if_neg h16, if_neg h0, if_neg (not_or.mpr ⟨h0, h16⟩)]
      by_cases hp : p < 1 ∨ p > 16
      · rw [if_pos hp, if_pos hp]
      · rw [if_neg hp, if_neg hp]
        by_cases hA : A
        · rw [if_neg (not_not.mpr hA), if_neg (by rw [hiff.mpr hA]; exact Bool.noConfusion)]
        · rw [if_pos hA, if_pos (by
            cases hok : ok
            · rfl
            · exact absurd (hiff.mp hok) hA)]

/-- C37: what `AES128_ECB_Decrypt` rejects and what it returns.  It returns
`NULL` when `ciphertext_len` is 0 or not a multiple of 16, when the last
decrypted byte `p` is outside `1..16`, and when the last `p` decrypted bytes are
not all equal to `p`.  In every other case it returns the decrypted bytes
without the last `p` bytes, followed by a terminating 0, and sets `*out_len`
to `ciphertext_len - p`.  The decrypted buffer has `ciphertext_len` bytes
whenever this length is a multiple of 16. -/
theorem C37_decrypt_rejects (ct key : List Nat) :
    AES128_ECB_Decrypt ct key
      = (if ct.length = 0 ∨ ct.length % 16 ≠ 0 then none
         else if (ecb_loop AES128_DecryptBlock ct (KeyExpansion key) ct.length 0
              (List.replicate ct.length 0)).getD (ct.length - 1) 0 < 1 ∨
            16 < (ecb_loop AES128_DecryptBlock ct (KeyExpansion key) ct.length 0
              (List.replicate ct.length 0)).getD (ct.length - 1) 0 then none
         else if ¬ ∀ i, i < (ecb_loop AES128_DecryptBlock ct (KeyExpansion key) ct.length 0
              (List.replicate ct.length 0)).getD (ct.length - 1) 0 →
            (ecb_loop AES128_DecryptBlock ct (KeyExpansion key) ct.length 0
              (List.replicate ct.length 0)).getD (ct.length - 1 - i) 0
            = (ecb_loop AES128_DecryptBlock ct (KeyExpansion key) ct.length 0
              (List.replicate ct.length 0)).getD (ct.length - 1) 0 then none
         else some
          ((ecb_loop AES128_DecryptBlock ct (KeyExpansion key) ct.length 0
              (List.replicate ct.length 0)).take
              (ct.length - (ecb_loop AES128_DecryptBlock ct (KeyExpansion key) ct.length 0
                (List.replicate ct.length 0)).getD (ct.length - 1) 0) ++ [0],
            ct.length - (ecb_loop AES128_DecryptBlock ct (KeyExpansion key) ct.length 0
              (List.replicate ct.length 0)).getD (ct.length - 1) 0)) ∧
    (ct.length % 16 = 0 →
      (ecb_loop AES128_DecryptBlock ct (KeyExpansion key) ct.length 0
        (List.replicate ct.length 0)).length = ct.length) := by
  constructor
  · simp only [AES128_ECB_Decrypt]
    by_cases h16 : ct.length % 16 = 0
    · have hlen := decrypt_loop_length ct (KeyExpansion key) h16
      generalize ecb_loop AES128_DecryptBlock ct (KeyExpansion key) ct.length 0
        (List.replicate ct.length 0) = buf at hlen ⊢
      rw [decrypt_out buf (ct.length - buf.getD (ct.length - 1) 0)
        (by rw [hlen]; exact Nat.sub_le _ _)]
      exact decrypt_branches ct.length (buf.getD (ct.length - 1) 0) _ _
        (padding_ok_iff buf ct.length _ _) _
    · rw [if_pos h16, if_pos (Or.inr h16)]
  · exact decrypt_loop_length ct (KeyExpansion key)

/-- Witness for C37: a ciphertext of 16 zero bytes under the key
`0, 1, ..., 15`. -/
theorem C37_decrypt_rejects_witness :
    AES128_ECB_Decrypt (List.replicate 16 0) (List.range 16)
      = (if (List.replicate 16 0).length = 0 ∨ (List.replicate 16 0).length % 16 ≠ 0 then none
         else if (ecb_loop AES128_DecryptBlock (List.replicate 16 0) (KeyExpansion (List.range 16))
              (List.replicate 16 0).length 0
              (List.replicate (List.replicate 16 0).length 0)).getD
                ((List.replicate 16 0).length - 1) 0 < 1 ∨
            16 < (ecb_loop AES128_DecryptBlock (List.replicate 16 0)
              (KeyExpansion (List.range 16)) (List.replicate 16 0).length 0
              (List.replicate (List.replicate 16 0).length 0)).getD
                ((List.replicate 16 0).length - 1) 0 then none
         else if ¬ ∀ i, i < (ecb_loop AES128_DecryptBlock (List.replicate 16 0)
              (KeyExpansion (List.range 16)) (List.replicate 16 0).length 0
              (List.replicate (List.replicate 16 0).length 0)).getD
                ((List.replicate 16 0).length - 1) 0 →
            (ecb_loop AES128_DecryptBlock (List.replicate 16 0) (KeyExpansion (List.range 16))
              (List.replicate 16 0).length 0
              (List.replicate (List.replicate 16 0).length 0)).getD
                ((List.replicate 16 0).length - 1 - i) 0
            = (ecb_loop AES128_DecryptBlock (List.replicate 16 0) (KeyExpansion (List.range 16))
              (List.replicate 16 0).length 0
              (List.replicate (List.replicate 16 0).length 0)).getD
                ((List.replicate 16 0).length - 1) 0 then none
         else some
          ((ecb_loop AES128_DecryptBlock (List.replicate 16 0) (KeyExpansion (List.range 16))
              (List.replicate 16 0).length 0
              (List.replicate (List.replicate 16 0).length 0)).take
              ((List.replicate 16 0).length - (ecb_loop AES128_DecryptBlock (List.replicate 16 0)
                (KeyExpansion (List.range 16)) (List.replicate 16 0).length 0
                (List.replicate (List.replicate 16 0).length 0)).getD
                  ((List.replicate 16 0).length - 1) 0) ++ [0],
            (List.replicate 16 0).length - (ecb_loop AES128_DecryptBlock (List.replicate 16 0)
              (KeyExpansion (List.range 16)) (List.replicate 16 0).length 0
              (List.replicate (List.replicate 16 0).length 0)).getD
                ((List.replicate 16 0).length - 1) 0)) ∧
    ((List.replicate 16 0).length % 16 = 0 →
      (ecb_loop AES128_DecryptBlock (List.replicate 16 0) (KeyExpansion (List.range 16))
        (List.replicate 16 0).length 0
        (List.replicate (List.replicate 16 0).length 0)).length
        = (List.replicate 16 0).length) :=
  C37_decrypt_rejects (List.replicate 16 0) (List.range 16)

end AES

namespace RSA

/-! ## `is_prime` of `RSA.c` on primes below `2^32` -/

/-- Below `2^32` the products of `modexp` do not wrap: the loop computes
`result * base^exp mod m`. -/
theorem modexp_loop_small (m : Nat) (hm : m ≤ 2 ^ 32) (f : Nat) :
    ∀ (result base exp : Nat), exp < 2 ^ f → result < m → base < m →
      modexp_loop (f + 1) result base exp m = some (result * base ^ exp % m) := by
  induction f with
  | zero =>
    intro result base exp he hr _
    have : exp = 0 := by omega
    subst this
    rw [modexp_loop, if_pos rfl, pow_zero, Nat.mul_one, Nat.mod_eq_of_lt hr]
  | succ f ih =>
    intro result base exp he hr hb
    rw [modexp_loop]
    by_cases h0 : exp = 0
    · subst h0
      rw [if_pos rfl, pow_zero, Nat.mul_one, Nat.mod_eq_of_lt hr]
    · rw [if_neg h0]
      have hmpos : 0 < m := by omega
      have hrb : result * base < 2 ^ 64 := by
        have : result * base < 2 ^ 32 * 2 ^ 32 :=
          Nat.mul_lt_mul'' (by omega) (by omega)
        norm_num at this ⊢
        exact this
      have hbb : base * base < 2 ^ 64 := by
        have : base * base < 2 ^ 32 * 2 ^ 32 :=
          Nat.mul_lt_mul'' (by omega) (by omega)
        norm_num at this ⊢
        exact this
      rw [Nat.mod_eq_of_lt hrb, Nat.mod_eq_of_lt hbb]
      have he2 : exp / 2 < 2 ^ f := by
        rw [pow_succ] at he
        omega
      have hexp : exp = 2 * (exp / 2) + exp % 2 := by omega
      have hpow : base ^ exp = (base * base) ^ (exp / 2) * base ^ (exp % 2) := by
        conv_lhs => rw [hexp]
        rw [pow_add, pow_mul, pow_two]
      by_cases hodd : exp % 2 = 1
      · rw [if_pos hodd, ih _ _ _ he2 (Nat.mod_lt _ hmpos) (Nat.mod_lt _ hmpos)]
        congr 1
        rw [hpow, hodd, pow_one]
        calc result * base % m * (base * base % m) ^ (exp / 2) % m
            = (result * base % m) * ((base * base % m) ^ (exp / 2) % m) % m := by
              rw [Nat.mul_mod, Nat.mod_mod]
          _ = (result * base % m) * ((base * base) ^ (exp / 2) % m) % m := by
              rw [← Nat.pow_mod]
          _ = result * base * (base * base) ^ (exp / 2) % m := by
              rw [← Nat.mul_mod]
          _ = result * ((base * base) ^ (exp / 2) * base) % m := by
              congr 1
              ring
      · rw [if_neg hodd, ih _ _ _ he2 hr (Nat.mod_lt _ hmpos)]
        congr 1
        have h0' : exp % 2 = 0 := by omega
        rw [hpow, h0', pow_zero, Nat.mul_one]
        calc result * (base * base % m) ^ (exp / 2) % m
            = (result % m) * ((base * base % m) ^ (exp / 2) % m) % m := by
              rw [Nat.mul_mod]
          _ = (result % m) * ((base * base) ^ (exp / 2) % m) % m := by
              rw [← Nat.pow_mod]
          _ = result * (base * base) ^ (exp / 2) % m := by
              rw [← Nat.mul_mod]

/-- Below `2^32` and with at least 65 evaluations of the loop condition,
`modexp` is modular exponentiation. -/
theorem modexp_small (fuel base exp m : Nat) (hf : 65 ≤ fuel) (he : exp < 2 ^ 64)
    (hm1 : 1 < m) (hm : m ≤ 2 ^ 32) : modexp fuel base exp m = some (base ^ exp % m) := by
  obtain ⟨f, rfl⟩ : ∃ f, fuel = f + 1 := ⟨fuel - 1, by omega⟩
  have he2 : exp < 2 ^ f :=
    lt_of_lt_of_le he (Nat.pow_le_pow_right (by norm_num) (by omega))
  unfold modexp
  rw [modexp_loop_small m hm f 1 (base % m) exp he2 hm1 (Nat.mod_lt _ (by omega)), Nat.one_mul,
    ← Nat.pow_mod]

theorem is_prime_halve_spec (fuel : Nat) : ∀ (d r : Nat), 0 < d → d < 2 ^ fuel →
    ∃ d1 r1, is_prime_halve fuel d r = some (d1, r1) ∧ d1 % 2 = 1 ∧ r ≤ r1 ∧
      d = d1 * 2 ^ (r1 - r) := by
  induction fuel with
  | zero =>
    intro d r hd hlt
    simp at hlt
    omega
  | succ fuel ih =>
    intro d r hd hlt
    rw [is_prime_halve]
    by_cases he : d % 2 = 0
    · rw [if_pos he]
      rw [pow_succ] at hlt
      obtain ⟨d1, r1, h1, h2, h3, h4⟩ := ih (d / 2) (r + 1) (by omega) (by omega)
      refine ⟨d1, r1, h1, h2, by omega, ?_⟩
      have e : r1 - r = (r1 - (r + 1)) + 1 := by omega
      rw [e, pow_succ, ← Nat.mul_assoc, ← h4]
      omega
    · rw [if_neg he]
      exact ⟨d, r, rfl, by omega, le_refl _, by simp⟩

theorem cast_eq_one_iff {p : Nat} (hp : 1 < p) {x : Nat} (hx : x < p) :
    ((x : ZMod p) = 1) ↔ x = 1 := by
  rw [← Nat.cast_one, ZMod.natCast_eq_natCast_iff', Nat.mod_eq_of_lt hx, Nat.mod_eq_of_lt hp]

theorem cast_eq_neg_one_iff {p : Nat} (hp : 1 < p) {x : Nat} (hx : x < p) :
    ((x : ZMod p) = -1) ↔ x = p - 1 := by
  have h : ((p - 1 : Nat) : ZMod p) = -1 := by
    rw [Nat.cast_sub (le_of_lt hp), ZMod.natCast_self, Nat.cast_one, zero_sub]
  rw [← h, ZMod.natCast_eq_natCast_iff', Nat.mod_eq_of_lt hx, Nat.mod_eq_of_lt (by omega)]

/-- For a prime `n` below `2^32`: if `x^(2^(k+1)) = 1` modulo `n` and `x` is
neither 1 nor `n - 1`, then one of the next `k` squarings gives `n - 1`. -/
theorem is_prime_squarings_prime (fuel n : Nat) (hf : 65 ≤ fuel) (hp : n.Prime)
    (hn : n < 2 ^ 32) (k : Nat) : ∀ x, x < n → ((x : ZMod n)) ^ (2 ^ (k + 1)) = 1 →
      x ≠ 1 → x ≠ n - 1 → is_prime_squarings fuel n k x = some 0 := by
  haveI : Fact n.Prime := ⟨hp⟩
  have h1 : 1 < n := hp.one_lt
  induction k with
  | zero =>
    intro x hx hpow hx1 hxn
    exfalso
    rw [zero_add, pow_one] at hpow
    rcases sq_eq_one_iff.mp hpow with h | h
    · exact hx1 ((cast_eq_one_iff h1 hx).mp h)
    · exact hxn ((cast_eq_neg_one_iff h1 hx).mp h)
  | succ k ih =>
    intro x hx hpow hx1 hxn
    rw [is_prime_squarings, modexp_small fuel x 2 n hf (by norm_num) h1 (le_of_lt hn)]
    simp only
    by_cases hx2 : x ^ 2 % n = n - 1
    · rw [if_pos hx2]
    · rw [if_neg hx2]
      have hlt : x ^ 2 % n < n := Nat.mod_lt _ (by omega)
      have hcast : ((x ^ 2 % n : Nat) : ZMod n) = (x : ZMod n) ^ 2 := by
        rw [ZMod.natCast_mod, Nat.cast_pow]
      refine ih _ hlt ?_ ?_ hx2
      · rw [hcast, ← pow_mul, ← pow_succ']
        exact hpow
      · intro h
        have h2 : (x : ZMod n) ^ 2 = 1 := by
          rw [← hcast, h, Nat.cast_one]
        rcases sq_eq_one_iff.mp h2 with h | h
        · exact hx1 ((cast_eq_one_iff h1 hx).mp h)
        · exact hxn ((cast_eq_neg_one_iff h1 hx).mp h)

theorem is_prime_rounds_prime (fuel n d r : Nat) (rand : Nat → Nat) (hf : 65 ≤ fuel)
    (hp : n.Prime) (h5 : 5 ≤ n) (hn : n < 2 ^ 32) (hr : 1 ≤ r) (hd : n - 1 = d * 2 ^ r) (k : Nat) :
    ∀ pos, is_prime_rounds fuel n d r rand k pos = some (1, pos + k) := by
  haveI : Fact n.Prime := ⟨hp⟩
  have h1 : 1 < n := hp.one_lt
  have hd64 : d < 2 ^ 64 := by
    have h2 : 1 ≤ 2 ^ r := Nat.one_le_two_pow
    have h3 : d ≤ d * 2 ^ r := Nat.le_mul_of_pos_right d h2
    omega
  induction k with
  | zero => exact fun pos => rfl
  | succ k ih =>
    intro pos
    have hlt : rand pos % (n - 4) < n - 4 := Nat.mod_lt _ (by omega)
    have ha : (2 + rand pos % (n - 4)) % 2 ^ 64 = 2 + rand pos % (n - 4) :=
      Nat.mod_eq_of_lt (by omega)
    rw [is_prime_rounds, ha, modexp_small fuel _ d n hf hd64 h1 (le_of_lt hn)]
    simp only
    have hnext : is_prime_rounds fuel n d r rand k (pos + 1) = some (1, pos + (k + 1)) := by
      rw [ih (pos + 1)]
      congr 2
      omega
    by_cases hx : (2 + rand pos % (n - 4)) ^ d % n = 1 ∨ (2 + rand pos % (n - 4)) ^ d % n = n - 1
    · rw [if_pos hx, hnext]
    · rw [if_neg hx]
      rw [not_or] at hx
      have hane : ((2 + rand pos % (n - 4) : Nat) : ZMod n) ≠ 0 := by
        rw [Ne, ZMod.natCast_zmod_eq_zero_iff_dvd]
        intro hdvd
        have := Nat.le_of_dvd (by omega) hdvd
        omega
      have hfermat := ZMod.pow_card_sub_one_eq_one hane
      have hpow : (((2 + rand pos % (n - 4)) ^ d % n : Nat) : ZMod n) ^ 2 ^ (r - 1 + 1) = 1 := by
        rw [ZMod.natCast_mod, Nat.cast_pow, ← pow_mul, Nat.sub_add_cancel hr, ← hd]
        exact hfermat
      rw [is_prime_squarings_prime fuel n hf hp hn (r - 1) _ (Nat.mod_lt _ (by omega)) hpow
        hx.1 hx.2]
      simp only
      rw [if_neg (by decide), hnext]

theorem prime_ge_five_odd (n : Nat) (hp : n.Prime) (h5 : 5 ≤ n) : n % 2 = 1 := by
  rcases hp.eq_two_or_odd with h | h
  · omega
  · exact h

/-- C36: the 64-bit Miller-Rabin of the RSA demo has no false negatives on
small primes.  For every prime `n < 2^32`, every round count `k` (in
particular every `k >= 0`) and every sequence of values returned by `rand()`,
`is_prime(n, k)` terminates and returns 1; 65 evaluations of the condition of
each `while` loop suffice. -/
theorem C36_is_prime_accepts_primes (n : Nat) (k : Int) (rand : Nat → Nat) (pos fuel : Nat)
    (hp : n.Prime) (hn : n < 2 ^ 32) (hf : 65 ≤ fuel) :
    is_prime fuel n k rand pos = some (1, if n ≤ 3 then pos else pos + k.toNat) := by
  have h2 := hp.two_le
  unfold is_prime
  rw [if_neg (by omega)]
  by_cases h23 : n = 2 ∨ n = 3
  · rw [if_pos h23, if_pos (by omega)]
  · rw [if_neg h23]
    have h5 : 5 ≤ n := by
      rcases Nat.lt_or_ge n 5 with h | h
      · exfalso
        have h4 : n = 4 := by omega
        rw [h4] at hp
        exact absurd hp (by norm_num)
      · exact h
    have hodd := prime_ge_five_odd n hp h5
    rw [if_neg (by omega), if_neg (by omega)]
    obtain ⟨d, r, hh, hdodd, -, hdec⟩ := is_prime_halve_spec fuel (n - 1) 0 (by omega)
      (lt_of_lt_of_le (by omega : n - 1 < 2 ^ 65)
        (Nat.pow_le_pow_right (by norm_num) hf))
    rw [Nat.sub_zero] at hdec
    have hr : 1 ≤ r := by
      by_contra h0
      have : r = 0 := by omega
      rw [this, pow_zero, Nat.mul_one] at hdec
      omega
    rw [hh]
    exact is_prime_rounds_prime fuel n d r rand hf hp h5 hn hr hdec k.toNat pos

/-- Witness for C36: the prime `65537` with 5 rounds. -/
theorem C36_is_prime_accepts_primes_witness :
    (Nat.Prime 65537 ∧ 65537 < 2 ^ 32 ∧ 65 ≤ 65) ∧
    is_prime 65 65537 5 (fun i => 1000 * i + 7) 0
      = some (1, if 65537 ≤ 3 then 0 else 0 + (5 : Int).toNat) :=
  ⟨⟨by norm_num, by norm_num, le_refl _⟩,
    C36_is_prime_accepts_primes 65537 5 (fun i => 1000 * i + 7) 0 65 (by norm_num) (by norm_num)
      (le_refl _)⟩

end RSA

namespace AVL

open AVLNode

/-! ## AVL trees: heights and shape -/

theorem tree_height_nonneg (t : AVLNode) : 0 ≤ tree_height t := by
  cases t with
  | null => exact le_refl _
  | node d l r h =>
    rw [tree_height]
    have := tree_height_nonneg l
    omega

theorem get_height_eq {t : AVLNode} (h : heights_ok t) : get_height t = tree_height t := by
  cases t with
  | null => rfl
  | node d l r hh => exact h.2.2

theorem avl_null : avl null := ⟨trivial, trivial⟩

theorem avl_node_iff (d : Int) (l r : AVLNode) (h : Int) :
    avl (node d l r h) ↔ avl l ∧ avl r ∧ h = 1 + max (get_height l) (get_height r) ∧
      -1 ≤ get_height l - get_height r ∧ get_height l - get_height r ≤ 1 := by
  simp only [avl, heights_ok, balanced, get_balance, tree_height]
  constructor
  · rintro ⟨⟨h1, h2, h3⟩, h4, h5, h6, h7⟩
    rw [get_height_eq h1, get_height_eq h2]
    exact ⟨⟨h1, h4⟩, ⟨h2, h5⟩, h3, by rw [← get_height_eq h1, ← get_height_eq h2]; exact h6,
      by rw [← get_height_eq h1, ← get_height_eq h2]; exact h7⟩
  · rintro ⟨⟨h1, h4⟩, ⟨h2, h5⟩, h3, h6, h7⟩
    rw [get_height_eq h1, get_height_eq h2] at h3
    exact ⟨⟨h1, h2, h3⟩, h4, h5, h6, h7⟩

theorem avl_height_nonneg {t : AVLNode} (h : avl t) : 0 ≤ get_height t := by
  rw [get_height_eq h.1]
  exact tree_height_nonneg t

theorem avl_height_pos (d : Int) (l r : AVLNode) (h : Int) (ha : avl (node d l r h)) :
    1 ≤ get_height (node d l r h) := by
  obtain ⟨hl, hr, hh, -, -⟩ := (avl_node_iff d l r h).mp ha
  have := avl_height_nonneg hl
  simp only [get_height]
  omega

theorem exists_node_of_height_pos {t : AVLNode} (h : 1 ≤ get_height t) :
    ∃ d l r hh, t = node d l r hh := by
  cases t with
  | null => simp [get_height] at h
  | node d l r hh => exact ⟨d, l, r, hh, rfl⟩

theorem get_height_node (d : Int) (l r : AVLNode) (h : Int) : get_height (node d l r h) = h :=
  rfl

theorem get_height_null : get_height null = 0 := rfl

theorem update_height_node (d : Int) (l r : AVLNode) (h : Int) :
    update_height (node d l r h) = node d l r (1 + max (get_height l) (get_height r)) := by
  simp only [update_height]
  congr 1
  omega

/-- Left insertion: the rebalancing step of `_insert` after `k < data` went
into the left subtree. -/
theorem insert_rebalance_left (d : Int) (l1 r : AVLNode) (h k : Int) (hl : avl l1) (hr : avl r)
    (h1 : -1 ≤ get_height l1 - get_height r)
    (h2 : get_height l1 - get_height r ≤ 2)
    (hg : get_height l1 - get_height r = 2 → insert_grew l1 k) :
    ∃ t, insert_rebalance (node d l1 r h) k = some t ∧ avl t ∧
      print_inorder t = print_inorder l1 ++ d :: print_inorder r ∧
      (get_height l1 - get_height r = 2 → get_height t = get_height l1) ∧
      (get_height l1 - get_height r ≤ 1 →
        t = node d l1 r (1 + max (get_height l1) (get_height r))) := by
  by_cases h3 : get_height l1 - get_height r ≤ 1
  · refine ⟨node d l1 r (1 + max (get_height l1) (get_height r)), ?_, ?_, rfl, ?_, fun _ => rfl⟩
    · simp only [insert_rebalance, update_height_node, get_balance, c_and]
      rw [if_neg (by simp; omega), if_neg (by simp; omega), if_neg (by simp; omega),
        if_neg (by simp; omega)]
    · exact (avl_node_iff _ _ _ _).mpr ⟨hl, hr, rfl, h1, h3⟩
    · intro h; omega
  · have h4 : get_height l1 - get_height r = 2 := by omega
    have hg1 := hg h4
    have hr0 := avl_height_nonneg hr
    obtain ⟨ld, a, b, hh, rfl⟩ := exists_node_of_height_pos (t := l1) (by omega)
    obtain ⟨ha, hb, e1, e2, e3⟩ := (avl_node_iff _ _ _ _).mp hl
    have ha0 := avl_height_nonneg ha
    have hb0 := avl_height_nonneg hb
    simp only [get_height_node] at h4 ⊢
    simp only [insert_grew] at hg1
    rcases hg1 with ⟨g1, g2⟩ | ⟨g1, g2⟩
    · refine ⟨node ld a (node d b r (1 + max (get_height b) (get_height r)))
        (1 + max (get_height a) (1 + max (get_height b) (get_height r))), ?_, ?_, ?_, ?_,
        fun h => absurd h h3⟩
      · simp only [insert_rebalance, update_height_node, get_balance, c_and, get_height_node,
          data_of, Option.map_some']
        rw [if_pos (by simp; omega)]
        simp only [g1, decide_True, right_rotate, update_height_node, get_height_node]
      · rw [avl_node_iff, avl_node_iff]
        simp only [get_height_node]
        exact ⟨ha, ⟨hb, hr, trivial, by omega, by omega⟩, trivial, by omega, by omega⟩
      · simp [print_inorder]
      · intro _
        simp only [get_height_node]
        omega
    · obtain ⟨bd, b1, b2, hbh, rfl⟩ := exists_node_of_height_pos (t := b) (by omega)
      obtain ⟨hb1, hb2, f1, f2, f3⟩ := (avl_node_iff _ _ _ _).mp hb
      have hb10 := avl_height_nonneg hb1
      have hb20 := avl_height_nonneg hb2
      simp only [get_height_node] at g2 e1 e2 e3 hb0
      refine ⟨node bd (node ld a b1 (1 + max (get_height a) (get_height b1)))
        (node d b2 r (1 + max (get_height b2) (get_height r)))
        (1 + max (1 + max (get_height a) (get_height b1))
          (1 + max (get_height b2) (get_height r))), ?_, ?_, ?_, ?_, fun h => absurd h h3⟩
      · simp only [insert_rebalance, update_height_node, get_balance, c_and, get_height_node,
          data_of, Option.map_some']
        rw [if_pos (by simp; omega)]
        have g3 : ¬ k < ld := by omega
        simp only [g3, decide_False]
        rw [if_neg (by simp; omega), if_pos (by simp; omega)]
        simp only [g1, decide_True, left_rotate, right_rotate, update_height_node,
          get_height_node]
      · rw [avl_node_iff, avl_node_iff, avl_node_iff]
        simp only [get_height_node]
        exact ⟨⟨ha, hb1, trivial, by omega, by omega⟩, ⟨hb2, hr, trivial, by omega, by omega⟩,
          trivial, by omega, by omega⟩
      · simp [print_inorder]
      · intro _
        simp only [get_height_node]
        omega

/-- Right insertion: the rebalancing step of `_insert` after `k > data` went
into the right subtree. -/
theorem insert_rebalance_right (d : Int) (l r1 : AVLNode) (h k : Int) (hl : avl l)
    (hr : avl r1) (h1 : -2 ≤ get_height l - get_height r1)
    (h2 : get_height l - get_height r1 ≤ 1)
    (hg : get_height l - get_height r1 = -2 → insert_grew r1 k) :
    ∃ t, insert_rebalance (node d l r1 h) k = some t ∧ avl t ∧
      print_inorder t = print_inorder l ++ d :: print_inorder r1 ∧
      (get_height l - get_height r1 = -2 → get_height t = get_height r1) ∧
      (-1 ≤ get_height l - get_height r1 →
        t = node d l r1 (1 + max (get_height l) (get_height r1))) := by
  by_cases h3 : -1 ≤ get_height l - get_height r1
  · refine ⟨node d l r1 (1 + max (get_height l) (get_height r1)), ?_, ?_, rfl, ?_, fun _ => rfl⟩
    · simp only [insert_rebalance, update_height_node, get_balance, c_and]
      rw [if_neg (by simp; omega), if_neg (by simp; omega), if_neg (by simp; omega),
        if_neg (by simp; omega)]
    · exact (avl_node_iff _ _ _ _).mpr ⟨hl, hr, rfl, h3, h2⟩
    · intro h; omega
  · have h4 : get_height l - get_height r1 = -2 := by omega
    have hg1 := hg h4
    have hl0 := avl_height_nonneg hl
    obtain ⟨rd, a, b, hh, rfl⟩ := exists_node_of_height_pos (t := r1) (by omega)
    obtain ⟨ha, hb, e1, e2, e3⟩ := (avl_node_iff _ _ _ _).mp hr
    have ha0 := avl_height_nonneg ha
    have hb0 := avl_height_nonneg hb
    simp only [get_height_node] at h4 ⊢
    simp only [insert_grew] at hg1
    rcases hg1 with ⟨g1, g2⟩ | ⟨g1, g2⟩
    · obtain ⟨ad, a1, a2, hah, rfl⟩ := exists_node_of_height_pos (t := a) (by omega)
      obtain ⟨ha1, ha2, f1, f2, f3⟩ := (avl_node_iff _ _ _ _).mp ha
      have ha10 := avl_height_nonneg ha1
      have ha20 := avl_height_nonneg ha2
      simp only [get_height_node] at g2 e1 e2 e3 ha0
      refine ⟨node ad (node d l a1 (1 + max (get_height l) (get_height a1)))
        (node rd a2 b (1 + max (get_height a2) (get_height b)))
        (1 + max (1 + max (get_height l) (get_height a1))
          (1 + max (get_height a2) (get_height b))), ?_, ?_, ?_, ?_, fun h => absurd h h3⟩
      · simp only [insert_rebalance, update_height_node, get_balance, c_and, get_height_node,
          data_of, Option.map_some']
        rw [if_neg (by simp; omega), if_pos (by simp; omega)]
        have g3 : ¬ k > rd := by omega
        simp only [g3, decide_False]
        rw [if_neg (by simp; omega), if_pos (by simp; omega)]
        simp only [g1, decide_True, left_rotate, right_rotate, update_height_node,
          get_height_node]
      · rw [avl_node_iff, avl_node_iff, avl_node_iff]
        simp only [get_height_node]
        exact ⟨⟨hl, ha1, trivial, by omega, by omega⟩, ⟨ha2, hb, trivial, by omega, by omega⟩,
          trivial, by omega, by omega⟩
      · simp [print_inorder]
      · intro _
        simp only [get_height_node]
        omega
    · refine ⟨node rd (node d l a (1 + max (get_height l) (get_height a))) b
        (1 + max (1 + max (get_height l) (get_height a)) (get_height b)), ?_, ?_, ?_, ?_,
        fun h => absurd h h3⟩
      · simp only [insert_rebalance, update_height_node, get_balance, c_and, get_height_node,
          data_of, Option.map_some']
        rw [if_neg (by simp; omega), if_pos (by simp; omega)]
        simp only [g1, decide_True, left_rotate, update_height_node, get_height_node]
      · rw [avl_node_iff, avl_node_iff]
        simp only [get_height_node]
        exact ⟨⟨hl, ha, trivial, by omega, by omega⟩, hb, trivial, by omega, by omega⟩
      · simp [print_inorder]
      · intro _
        simp only [get_height_node]
        omega

/-! ## AVL trees: the order of the keys -/

theorem or_shuffle_left (A B C D : Prop) : (A ∨ D) ∨ B ∨ C ↔ (A ∨ B ∨ C) ∨ D := by tauto

theorem or_shuffle_right (A B C D : Prop) : A ∨ B ∨ C ∨ D ↔ (A ∨ B ∨ C) ∨ D := by tauto

theorem print_inorder_node (d : Int) (l r : AVLNode) (h : Int) :
    print_inorder (node d l r h) = print_inorder l ++ d :: print_inorder r := rfl

theorem sorted_append_cons (l1 l2 : List Int) (d : Int) :
    (l1 ++ d :: l2).Pairwise (fun a b => a < b) ↔
      l1.Pairwise (fun a b => a < b) ∧ l2.Pairwise (fun a b => a < b) ∧
        (∀ x ∈ l1, x < d) ∧ (∀ x ∈ l2, d < x) := by
  rw [List.pairwise_append, List.pairwise_cons]
  constructor
  · rintro ⟨h1, ⟨h2, h3⟩, h4⟩
    exact ⟨h1, h3, fun x hx => h4 x hx d (List.mem_cons_self _ _), h2⟩
  · rintro ⟨h1, h2, h3, h4⟩
    refine ⟨h1, ⟨h4, h2⟩, ?_⟩
    intro a ha b hb
    rcases List.mem_cons.mp hb with rfl | hb
    · exact h3 a ha
    · exact lt_trans (h3 a ha) (h4 b hb)

/-- A tree is a strict binary search tree exactly when `print_inorder` prints
its keys in strictly increasing order. -/
theorem is_bst_iff_sorted (t : AVLNode) :
    is_bst t ↔ (print_inorder t).Pairwise (fun a b => a < b) := by
  induction t with
  | null => simp [is_bst, print_inorder]
  | node d l r h ihl ihr =>
    rw [print_inorder_node, sorted_append_cons, ← ihl, ← ihr]
    simp only [is_bst]

/-- What `_insert` does to a valid tree. -/
theorem insert_spec (k : Int) (t : AVLNode) (ht : avl t) (hb : is_bst t) :
    ∃ t1, _insert t k = some t1 ∧ avl t1 ∧
      (get_height t1 = get_height t ∨
        (get_height t1 = get_height t + 1 ∧ (t = null ∨ insert_grew t1 k))) ∧
      is_bst t1 ∧ (∀ x, x ∈ print_inorder t1 ↔ x ∈ print_inorder t ∨ x = k) ∧
      (k ∈ print_inorder t → t1 = t) := by
  induction t with
  | null =>
    refine ⟨create_node k, rfl, ?_, Or.inr ⟨rfl, Or.inl rfl⟩, ?_, ?_, ?_⟩
    · exact (avl_node_iff _ _ _ _).mpr ⟨avl_null, avl_null, rfl, by decide, by decide⟩
    · simp [create_node, is_bst, print_inorder]
    · simp [create_node, print_inorder]
    · simp [print_inorder]
  | node d l r h ihl ihr =>
    obtain ⟨hl, hr, e1, e2, e3⟩ := (avl_node_iff _ _ _ _).mp ht
    have hl0 := avl_height_nonneg hl
    have hr0 := avl_height_nonneg hr
    obtain ⟨bl, br, bl2, br2⟩ := hb
    rw [_insert]
    by_cases hk : k < d
    · rw [if_pos hk]
      obtain ⟨l1, hi, hl1, hh, hbst, hmem, hsame⟩ := ihl hl bl
      rw [hi]
      simp only
      obtain ⟨t1, ht1, hav, hin, hc1, hc2⟩ := insert_rebalance_left d l1 r h k hl1 hr (by omega)
        (by omega) (by
          intro h2
          rcases hh with hh | ⟨hh, hh2 | hh2⟩
          · omega
          · rw [hh2, get_height_null] at hh; omega
          · exact hh2)
      refine ⟨t1, ht1, hav, ?_, ?_, ?_, ?_⟩
      · simp only [get_height_node]
        by_cases h2 : get_height l1 - get_height r = 2
        · left
          rw [hc1 h2]
          omega
        · rw [hc2 (by omega)]
          simp only [get_height_node, insert_grew]
          omega
      · rw [is_bst_iff_sorted, hin, sorted_append_cons]
        refine ⟨(is_bst_iff_sorted l1).mp hbst, (is_bst_iff_sorted r).mp br, ?_, br2⟩
        intro x hx
        rcases (hmem x).mp hx with h | h
        · exact bl2 x h
        · rw [h]; exact hk
      · intro x
        simp only [hin, print_inorder_node, List.mem_append, List.mem_cons, hmem x]
        exact or_shuffle_left _ _ _ _
      · intro hmemk
        rw [print_inorder_node, List.mem_append, List.mem_cons] at hmemk
        have hkl : k ∈ print_inorder l := by
          rcases hmemk with h | h | h
          · exact h
          · omega
          · have := br2 k h
            omega
        have e := hsame hkl
        subst e
        rw [hc2 (by omega), ← e1]
    · rw [if_neg hk]
      by_cases hk2 : k > d
      · rw [if_pos hk2]
        obtain ⟨r1, hi, hr1, hh, hbst, hmem, hsame⟩ := ihr hr br
        rw [hi]
        simp only
        obtain ⟨t1, ht1, hav, hin, hc1, hc2⟩ := insert_rebalance_right d l r1 h k hl hr1
          (by omega) (by omega) (by
            intro h2
            rcases hh with hh | ⟨hh, hh2 | hh2⟩
            · omega
            · rw [hh2, get_height_null] at hh; omega
            · exact hh2)
        refine ⟨t1, ht1, hav, ?_, ?_, ?_, ?_⟩
        · simp only [get_height_node]
          by_cases h2 : get_height l - get_height r1 = -2
          · left
            rw [hc1 h2]
            omega
          · rw [hc2 (by omega)]
            simp only [get_height_node, insert_grew]
            omega
        · rw [is_bst_iff_sorted, hin, sorted_append_cons]
          refine ⟨(is_bst_iff_sorted l).mp bl, (is_bst_iff_sorted r1).mp hbst, bl2, ?_⟩
          intro x hx
          rcases (hmem x).mp hx with h | h
          · exact br2 x h
          · rw [h]; exact hk2
        · intro x
          simp only [hin, print_inorder_node, List.mem_append, List.mem_cons, hmem x]
          exact or_shuffle_right _ _ _ _
        · intro hmemk
          rw [print_inorder_node, List.mem_append, List.mem_cons] at hmemk
          have hkr : k ∈ print_inorder r := by
            rcases hmemk with h | h | h
            · have := bl2 k h
              omega
            · omega
            · exact h
          have e := hsame hkr
          subst e
          rw [hc2 (by omega), ← e1]
      · rw [if_neg hk2]
        refine ⟨_, rfl, ht, Or.inl rfl, ⟨bl, br, bl2, br2⟩, ?_, fun _ => rfl⟩
        intro x
        have hkd : k = d := by omega
        rw [print_inorder_node, List.mem_append, List.mem_cons, hkd]
        constructor
        · exact Or.inl
        · rintro (h | h)
          · exact h
          · exact Or.inr (Or.inl h)

/-- C38: AVL insertion keeps the tree valid.  For every tree `t` that is a
strict binary search tree with correct height fields and balance factors in
`{-1, 0, 1}`, and every `k`, `_insert(t, k)` dereferences no `NULL` and returns
such a tree again, whose keys are those of `t` together with `k`; when `k` is
already in `t` the tree is returned unchanged. -/
theorem C38_insert_valid (t : AVLNode) (k : Int) (ht : valid t) :
    ∃ t1, _insert t k = some t1 ∧ valid t1 ∧
      (∀ x, x ∈ print_inorder t1 ↔ x ∈ print_inorder t ∨ x = k) ∧
      (k ∈ print_inorder t → t1 = t) := by
  obtain ⟨t1, h1, h2, -, h4, h5, h6⟩ := insert_spec k t ht.2 ht.1
  exact ⟨t1, h1, ⟨h4, h2⟩, h5, h6⟩

/-- Witness for C38: inserting 0 into the tree with root 4, children 2 and 5
and the node 1 below 2, which needs a right rotation at the node 2. -/
theorem C38_insert_valid_witness :
    valid (node 4 (node 2 (node 1 null null 1) null 2) (node 5 null null 1) 3) ∧
    ∃ t1, _insert (node 4 (node 2 (node 1 null null 1) null 2) (node 5 null null 1) 3) 0
        = some t1 ∧ valid t1 ∧
      (∀ x, x ∈ print_inorder t1 ↔
        x ∈ print_inorder (node 4 (node 2 (node 1 null null 1) null 2) (node 5 null null 1) 3)
          ∨ x = 0) ∧
      (0 ∈ print_inorder (node 4 (node 2 (node 1 null null 1) null 2) (node 5 null null 1) 3) →
        t1 = node 4 (node 2 (node 1 null null 1) null 2) (node 5 null null 1) 3) :=
  ⟨by decide,
    C38_insert_valid (node 4 (node 2 (node 1 null null 1) null 2) (node 5 null null 1) 3) 0
      (by decide)⟩

/-! ## AVL trees: deletion -/

theorem get_balance_node (d : Int) (l r : AVLNode) (h : Int) :
    get_balance (node d l r h) = get_height l - get_height r := rfl

/-- The rebalancing step of `_delete` on a root whose subtrees are AVL shapes
with heights at most 2 apart. -/
theorem delete_rebalance_spec (d : Int) (l r : AVLNode) (h : Int) (hl : avl l) (hr : avl r)
    (h1 : -2 ≤ get_height l - get_height r) (h2 : get_height l - get_height r ≤ 2) :
    ∃ t, delete_rebalance (node d l r h) = some t ∧ avl t ∧
      print_inorder t = print_inorder l ++ d :: print_inorder r ∧
      (get_height t = 1 + max (get_height l) (get_height r) ∨
        ((get_height l - get_height r = 2 ∨ get_height l - get_height r = -2) ∧
          get_height t = max (get_height l) (get_height r))) ∧
      (-1 ≤ get_height l - get_height r → get_height l - get_height r ≤ 1 →
        t = node d l r (1 + max (get_height l) (get_height r))) := by
  have hl0 := avl_height_nonneg hl
  have hr0 := avl_height_nonneg hr
  by_cases h3 : get_height l - get_height r = 2
  · obtain ⟨ld, a, b, hh, rfl⟩ := exists_node_of_height_pos (t := l) (by omega)
    obtain ⟨ha, hb, e1, e2, e3⟩ := (avl_node_iff _ _ _ _).mp hl
    have ha0 := avl_height_nonneg ha
    have hb0 := avl_height_nonneg hb
    simp only [get_height_node] at h3 ⊢
    by_cases h4 : get_height a - get_height b ≥ 0
    · refine ⟨node ld a (node d b r (1 + max (get_height b) (get_height r)))
        (1 + max (get_height a) (1 + max (get_height b) (get_height r))), ?_, ?_, ?_, ?_, ?_⟩
      · simp only [delete_rebalance, update_height_node, get_balance_node, get_height_node]
        rw [if_pos ⟨by omega, h4⟩]
        simp only [right_rotate, update_height_node, get_height_node]
      · rw [avl_node_iff, avl_node_iff]
        simp only [get_height_node]
        exact ⟨ha, ⟨hb, hr, trivial, by omega, by omega⟩, trivial, by omega, by omega⟩
      · simp [print_inorder]
      · simp only [get_height_node]
        omega
      · intro _ h; omega
    · obtain ⟨bd, b1, b2, hbh, rfl⟩ := exists_node_of_height_pos (t := b) (by omega)
      obtain ⟨hb1, hb2, f1, f2, f3⟩ := (avl_node_iff _ _ _ _).mp hb
      have hb10 := avl_height_nonneg hb1
      have hb20 := avl_height_nonneg hb2
      simp only [get_height_node] at h4 e1 e2 e3 hb0
      refine ⟨node bd (node ld a b1 (1 + max (get_height a) (get_height b1)))
        (node d b2 r (1 + max (get_height b2) (get_height r)))
        (1 + max (1 + max (get_height a) (get_height b1))
          (1 + max (get_height b2) (get_height r))), ?_, ?_, ?_, ?_, ?_⟩
      · simp only [delete_rebalance, update_height_node, get_balance_node, get_height_node]
        rw [if_neg (by omega), if_pos ⟨by omega, by omega⟩]
        simp only [left_rotate, right_rotate, update_height_node, get_height_node]
      · rw [avl_node_iff, avl_node_iff, avl_node_iff]
        simp only [get_height_node]
        exact ⟨⟨ha, hb1, trivial, by omega, by omega⟩, ⟨hb2, hr, trivial, by omega, by omega⟩,
          trivial, by omega, by omega⟩
      · simp [print_inorder]
      · simp only [get_height_node]
        omega
      · intro _ h; omega
  · by_cases h5 : get_height l - get_height r = -2
    · obtain ⟨rd, a, b, hh, rfl⟩ := exists_node_of_height_pos (t := r) (by omega)
      obtain ⟨ha, hb, e1, e2, e3⟩ := (avl_node_iff _ _ _ _).mp hr
      have ha0 := avl_height_nonneg ha
      have hb0 := avl_height_nonneg hb
      simp only [get_height_node] at h5 h3 ⊢
      by_cases h4 : get_height a - get_height b ≤ 0
      · refine ⟨node rd (node d l a (1 + max (get_height l) (get_height a))) b
          (1 + max (1 + max (get_height l) (get_height a)) (get_height b)), ?_, ?_, ?_, ?_, ?_⟩
        · simp only [delete_rebalance, update_height_node, get_balance_node, get_height_node]
          rw [if_neg (by omega), if_neg (by omega), if_pos ⟨by omega, h4⟩]
          simp only [left_rotate, update_height_node, get_height_node]
        · rw [avl_node_iff, avl_node_iff]
          simp only [get_height_node]
          exact ⟨⟨hl, ha, trivial, by omega, by omega⟩, hb, trivial, by omega, by omega⟩
        · simp [print_inorder]
        · simp only [get_height_node]
          omega
        · intro h; omega
      · obtain ⟨ad, a1, a2, hah, rfl⟩ := exists_node_of_height_pos (t := a) (by omega)
        obtain ⟨ha1, ha2, f1, f2, f3⟩ := (avl_node_iff _ _ _ _).mp ha
        have ha10 := avl_height_nonneg ha1
        have ha20 := avl_height_nonneg ha2
        simp only [get_height_node] at h4 e1 e2 e3 ha0
        refine ⟨node ad (node d l a1 (1 + max (get_height l) (get_height a1)))
          (node rd a2 b (1 + max (get_height a2) (get_height b)))
          (1 + max (1 + max (get_height l) (get_height a1))
            (1 + max (get_height a2) (get_height b))), ?_, ?_, ?_, ?_, ?_⟩
        · simp only [delete_rebalance, update_height_node, get_balance_node, get_height_node]
          rw [if_neg (by omega), if_neg (by omega), if_neg (by omega),
            if_pos ⟨by omega, by omega⟩]
          simp only [left_rotate, right_rotate, update_height_node, get_height_node]
        · rw [avl_node_iff, avl_node_iff, avl_node_iff]
          simp only [get_height_node]
          exact ⟨⟨hl, ha1, trivial, by omega, by omega⟩,
            ⟨ha2, hb, trivial, by omega, by omega⟩, trivial, by omega, by omega⟩
        · simp [print_inorder]
        · simp only [get_height_node]
          omega
        · intro h; omega
    · refine ⟨node d l r (1 + max (get_height l) (get_height r)), ?_, ?_, rfl, Or.inl rfl,
        fun _ _ => rfl⟩
      · simp only [delete_rebalance, update_height_node, get_balance_node]
        rw [if_neg (by omega), if_neg (by omega), if_neg (by omega), if_neg (by omega)]
      · exact (avl_node_iff _ _ _ _).mpr ⟨hl, hr, rfl, by omega, by omega⟩

/-- The leftmost node of a non-empty tree holds the first key that
`print_inorder` prints. -/
theorem find_min_spec (d : Int) (l r : AVLNode) (h : Int) :
    ∃ m rest, (_find_min (node d l r h)).bind data_of = some m ∧
      print_inorder (node d l r h) = m :: rest := by
  induction l generalizing d r h with
  | null => exact ⟨d, print_inorder r, rfl, rfl⟩
  | node ld ll lr lh ihl _ =>
    obtain ⟨m, rest, h1, h2⟩ := ihl ld lr lh
    refine ⟨m, rest ++ d :: print_inorder r, ?_, ?_⟩
    · rw [_find_min]
      exact h1
    · rw [print_inorder_node, h2]
      rfl

theorem delete_node_lt (d : Int) (l r : AVLNode) (h k : Int) (l1 : AVLNode) (hk : k < d)
    (hi : _delete l k = some l1) :
    _delete (node d l r h) k = delete_rebalance (node d l1 r h) := by
  cases l <;> cases r <;> rw [_delete, if_pos hk, hi] <;> (intro hn; cases hn)

theorem delete_node_gt (d : Int) (l r : AVLNode) (h k : Int) (r1 : AVLNode) (hk : ¬ k < d)
    (hk2 : k > d) (hi : _delete r k = some r1) :
    _delete (node d l r h) k = delete_rebalance (node d l r1 h) := by
  cases l <;> cases r <;> rw [_delete, if_neg hk, if_pos hk2, hi] <;> (intro hn; cases hn)

theorem delete_node_left_null (d : Int) (r : AVLNode) (h k : Int) (hk : ¬ k < d)
    (hk2 : ¬ k > d) : _delete (node d null r h) k = some r := by
  cases r <;> rw [_delete, if_neg hk, if_neg hk2]

theorem delete_node_right_null (d ld : Int) (ll lr : AVLNode) (lh h k : Int) (hk : ¬ k < d)
    (hk2 : ¬ k > d) : _delete (node d (node ld ll lr lh) null h) k = some (node ld ll lr lh) := by
  rw [_delete, if_neg hk, if_neg hk2]
  intro hn
  cases hn

theorem delete_node_both (d ld rd : Int) (ll lr rl rr : AVLNode) (lh rh h k m : Int)
    (r1 : AVLNode) (hk : ¬ k < d) (hk2 : ¬ k > d)
    (hm : (_find_min (node rd rl rr rh)).bind data_of = some m)
    (hi : _delete (node rd rl rr rh) m = some r1) :
    _delete (node d (node ld ll lr lh) (node rd rl rr rh) h) k
      = delete_rebalance (node m (node ld ll lr lh) r1 h) := by
  rw [_delete, if_neg hk, if_neg hk2, hm]
  · simp only [hi]
  · intro hn
    cases hn
  · intro hn
    cases hn

theorem filter_ne_self (l : List Int) (k : Int) (h : ∀ x ∈ l, x ≠ k) :
    l.filter (fun x => decide (x ≠ k)) = l :=
  List.filter_eq_self.mpr (fun x hx => decide_eq_true (h x hx))

theorem filter_ne_append_cons (l1 l2 : List Int) (d k : Int) :
    (l1 ++ d :: l2).filter (fun x => decide (x ≠ k))
      = l1.filter (fun x => decide (x ≠ k))
        ++ (if d ≠ k then d :: l2.filter (fun x => decide (x ≠ k))
            else l2.filter (fun x => decide (x ≠ k))) := by
  rw [List.filter_append, List.filter_cons]
  by_cases h : d ≠ k
  · rw [if_pos h, if_pos (decide_eq_true h)]
  · rw [if_neg h, if_neg (by simpa using h)]

/-- What `_delete` does to a valid tree. -/
theorem delete_spec (t : AVLNode) : ∀ (k : Int), avl t → is_bst t →
    ∃ t1, _delete t k = some t1 ∧ avl t1 ∧
      (get_height t1 = get_height t ∨ get_height t1 = get_height t - 1) ∧
      print_inorder t1 = (print_inorder t).filter (fun x => decide (x ≠ k)) := by
  induction t with
  | null =>
    intro k _ _
    exact ⟨null, rfl, avl_null, Or.inl rfl, rfl⟩
  | node d l r h ihl ihr =>
    intro k ht hb
    obtain ⟨hl, hr, e1, e2, e3⟩ := (avl_node_iff _ _ _ _).mp ht
    have hl0 := avl_height_nonneg hl
    have hr0 := avl_height_nonneg hr
    obtain ⟨bl, br, bl2, br2⟩ := hb
    by_cases hk : k < d
    · obtain ⟨l1, hi, hl1, hh, hin⟩ := ihl k hl bl
      obtain ⟨t1, ht1, hav, hin1, hht, -⟩ := delete_rebalance_spec d l1 r h hl1 hr (by omega)
        (by omega)
      refine ⟨t1, ?_, hav, ?_, ?_⟩
      · rw [delete_node_lt d l r h k l1 hk hi]
        exact ht1
      · simp only [get_height_node]
        omega
      · rw [hin1, hin, print_inorder_node, filter_ne_append_cons, if_pos (by omega),
          filter_ne_self (print_inorder r) k (fun x hx => by have := br2 x hx; omega)]
    · by_cases hk2 : k > d
      · obtain ⟨r1, hi, hr1, hh, hin⟩ := ihr k hr br
        obtain ⟨t1, ht1, hav, hin1, hht, -⟩ := delete_rebalance_spec d l r1 h hl hr1 (by omega)
          (by omega)
        refine ⟨t1, ?_, hav, ?_, ?_⟩
        · rw [delete_node_gt d l r h k r1 hk hk2 hi]
          exact ht1
        · simp only [get_height_node]
          omega
        · rw [hin1, hin, print_inorder_node, filter_ne_append_cons, if_pos (by omega),
            filter_ne_self (print_inorder l) k (fun x hx => by have := bl2 x hx; omega)]
      · have hkd : d = k := by omega
        have hfl : (print_inorder l).filter (fun x => decide (x ≠ k)) = print_inorder l :=
          filter_ne_self _ k (fun x hx => by have := bl2 x hx; omega)
        have hfr : (print_inorder r).filter (fun x => decide (x ≠ k)) = print_inorder r :=
          filter_ne_self _ k (fun x hx => by have := br2 x hx; omega)
        have hfilter : (print_inorder (node d l r h)).filter (fun x => decide (x ≠ k))
            = print_inorder l ++ print_inorder r := by
          rw [print_inorder_node, filter_ne_append_cons, if_neg (by omega), hfl, hfr]
        rw [hfilter]
        cases l with
        | null =>
          refine ⟨r, ?_, hr, ?_, rfl⟩
          · exact delete_node_left_null d r h k hk hk2
          · simp only [get_height_node, get_height_null] at e1 ⊢
            omega
        | node ld ll lr lh =>
          cases r with
          | null =>
            refine ⟨node ld ll lr lh, ?_, hl, ?_, by simp [print_inorder]⟩
            · exact delete_node_right_null d ld ll lr lh h k hk hk2
            · simp only [get_height_node, get_height_null] at e1 e2 e3 hl0 hr0 ⊢
              omega
          | node rd rl rr rh =>
            obtain ⟨m, rest, hm1, hm2⟩ := find_min_spec rd rl rr rh
            obtain ⟨r1, hi, hr1, hh, hin⟩ := ihr m hr br
            have hsorted := (is_bst_iff_sorted _).mp br
            rw [hm2, List.pairwise_cons] at hsorted
            have hrest : rest.filter (fun x => decide (x ≠ m)) = rest :=
              filter_ne_self _ m (fun x hx => by have := hsorted.1 x hx; omega)
            rw [hm2, List.filter_cons, if_neg (by simp), hrest] at hin
            obtain ⟨t1, ht1, hav, hin1, hht, -⟩ :=
              delete_rebalance_spec m (node ld ll lr lh) r1 h hl hr1 (by omega) (by omega)
            refine ⟨t1, ?_, hav, ?_, ?_⟩
            · rw [delete_node_both d ld rd ll lr rl rr lh rh h k m r1 hk hk2 hm1 hi]
              exact ht1
            · simp only [get_height_node] at hht hh e1 e2 e3 ⊢
              omega
            · rw [hin1, hin, hm2]

/-- C39: AVL deletion keeps the tree valid.  For every tree `t` that is a
strict binary search tree with correct height fields and balance factors in
`{-1, 0, 1}`, and every `k`, `_delete(t, k)` dereferences no `NULL` and returns
such a tree again, whose keys are those of `t` without `k`. -/
theorem C39_delete_valid (t : AVLNode) (k : Int) (ht : valid t) :
    ∃ t1, _delete t k = some t1 ∧ valid t1 ∧
      (∀ x, x ∈ print_inorder t1 ↔ x ∈ print_inorder t ∧ x ≠ k) := by
  obtain ⟨t1, h1, h2, -, h4⟩ := delete_spec t k ht.2 ht.1
  refine ⟨t1, h1, ⟨?_, h2⟩, ?_⟩
  · rw [is_bst_iff_sorted, h4]
    exact List.Pairwise.filter _ ((is_bst_iff_sorted t).mp ht.1)
  · intro x
    rw [h4, List.mem_filter, decide_eq_true_iff]

/-- Witness for C39: deleting the root 4 of a tree with two children, whose
right subtree then is one level too low. -/
theorem C39_delete_valid_witness :
    valid (node 4 (node 2 (node 1 null null 1) (node 3 null null 1) 2) (node 5 null null 1) 3) ∧
    ∃ t1, _delete
        (node 4 (node 2 (node 1 null null 1) (node 3 null null 1) 2) (node 5 null null 1) 3) 4
        = some t1 ∧ valid t1 ∧
      (∀ x, x ∈ print_inorder t1 ↔
        x ∈ print_inorder
          (node 4 (node 2 (node 1 null null 1) (node 3 null null 1) 2) (node 5 null null 1) 3)
          ∧ x ≠ 4) :=
  ⟨by decide,
    C39_delete_valid
      (node 4 (node 2 (node 1 null null 1) (node 3 null null 1) 2) (node 5 null null 1) 3) 4
      (by decide)⟩

end AVL
